import Mathlib

/-!  Verification of `skills/fix-srt/scripts/fix_srt.py`,
`skills/fix-srt/scripts/fix_srt_enhanced.py` and
`skills/srt-to-vtt/scripts/srt_to_vtt.py`.

Strings are modelled as `List Char`.  Times are modelled as integer
milliseconds: the Python code stores `datetime.timedelta` values built from
whole-millisecond components, and every timedelta-valued operation it
performs on them (`+`, `-`, `max`, `timedelta(seconds=min_duration)` with a
whole-millisecond `min_duration`, `timedelta(milliseconds=int(min_duration *
1000 / 2))`) is exact on whole milliseconds.  The duration comparisons made
through `total_seconds()` floats are also faithfully modelled by integer
comparisons: `total_seconds()` is one correctly rounded binary64 division,
and correct rounding is monotone and exact on the whole-second comparison
thresholds involved, so it cannot move a value across one.  The one float
computation that is NOT exact on whole milliseconds is
`int(td.total_seconds() * 1000)` in `format_timestamp`; it is modelled
bit-exactly by `pyMs` below.  `min_duration` (seconds, float) is modelled as
the integer `minDur` of milliseconds, so `int(min_duration * 1000 / 2)`
becomes `minDur / 2`.  -/

namespace FixSrt

/-- Sentence-terminal punctuation marks: `PUNCT_END = set('.?!。！？')` in
`fix_srt.py`. -/
def PUNCT_END : List Char := ['.', '?', '!', '。', '！', '？']

/-- Characters treated as whitespace (Python `str.strip` / regex `\s`),
restricted to the code points occurring in this development: space, tab,
newline, carriage return, vertical tab, form feed and no-break space. -/
def isWS (c : Char) : Bool :=
  c == ' ' || c == '\t' || c == '\n' || c == '\r' || c == '\x0B' ||
    c == '\x0C' || c == ' '

/-- Python `str.lstrip()`. -/
def lstrip (cs : List Char) : List Char := cs.dropWhile isWS

/-- Python `str.rstrip()`. -/
def rstrip (cs : List Char) : List Char := (cs.reverse.dropWhile isWS).reverse

/-- Python `str.strip()`. -/
def strip (cs : List Char) : List Char := rstrip (lstrip cs)

/-- Model of the `Subtitle` record of `fix_srt.py` (`index`, `start`, `end`,
`content`): `stop` models the Python attribute `end`, which is a reserved word
in Lean.  `start` and `stop` are integer milliseconds. -/
structure Subtitle where
  index : ℤ
  start : ℤ
  stop : ℤ
  content : List Char
deriving DecidableEq, Repr

/-- `Subtitle.__init__` strips the content it is given. -/
def mkSubtitle (index : ℤ) (start stop : ℤ) (content : List Char) : Subtitle :=
  ⟨index, start, stop, strip content⟩

/-- `Subtitle.duration` in milliseconds (the Python property returns seconds;
all comparisons against it are modelled at millisecond scale). -/
def Subtitle.duration (s : Subtitle) : ℤ := s.stop - s.start

/-- The `changed` statistics dictionary of `fix_timing_and_merge`. -/
structure Stats where
  adjusted : ℕ
  merged : ℕ
  renumbered : ℕ
deriving DecidableEq, Repr

/-- The text concatenation performed by both merge directions:
`x.rstrip() + ' ' + y.lstrip()`. -/
def mergeText (a b : List Char) : List Char := rstrip a ++ ' ' :: lstrip b

/-- `last_char = prev.content.strip()[-1:] if prev.content.strip() else ''`
followed by the `last_char not in PUNCT_END` test, negated: `true` when the
stripped text is nonempty and its last character is sentence-terminal
(the empty string is not in `PUNCT_END`). -/
def endsWithPunct (cs : List Char) : Bool :=
  match (strip cs).getLast? with
  | some c => PUNCT_END.contains c
  | none => false

/-- First pass of `fix_timing_and_merge`: every cue with `end <= start` gets
`end = start + min_duration`; the second component counts the `adjusted`
increments. -/
def pass1 (minDur : ℤ) : List Subtitle → List Subtitle × ℕ
  | [] => ([], 0)
  | s :: rest =>
    let r := pass1 minDur rest
    if s.stop ≤ s.start then
      ({ s with stop := s.start + minDur } :: r.1, r.2 + 1)
    else
      (s :: r.1, r.2)

/-- The overlap adjustment at the top of the second-pass loop body: if the
scanned cue starts before the previously accepted cue ends, move its start to
`prev.end` and re-extend its end when that makes `end <= start`.  The boolean
reports whether `adjusted` was incremented. -/
def shiftOverlap (minDur : ℤ) (prevStop : ℤ) (s : Subtitle) : Subtitle × Bool :=
  if s.start < prevStop then
    let en := if s.stop ≤ prevStop then prevStop + minDur else s.stop
    ({ s with start := prevStop, stop := en }, true)
  else (s, false)

/-- Second pass of `fix_timing_and_merge`: a single left-to-right scan.
`rest` is the not-yet-scanned input after the current cue `s`; `revOut` is the
accepted output in reverse order; `adj` and `mrg` accumulate the `adjusted`
and `merged` counters.  The loop body: overlap shift against the last accepted
cue, then backward merge (cue shorter than `min_duration` and the previous
accepted cue does not end with terminal punctuation), then forward merge (cue
shorter than `min_duration` and the next cue starts within `min_duration / 2`
of its end), otherwise accept the cue. -/
def pass2go (minDur : ℤ) : List Subtitle → List Subtitle → ℕ → ℕ → Subtitle →
    List Subtitle × ℕ × ℕ
  | [], [], adj, mrg, s =>
    -- no previous accepted cue (no overlap shift, no backward merge) and no
    -- next cue (no forward merge): accept `s`
    ([s], adj, mrg)
  | [], prev :: outTl, adj, mrg, s =>
    let p := shiftOverlap minDur prev.stop s
    let s1 := p.1
    let adj1 := if p.2 then adj + 1 else adj
    if s1.stop - s1.start < minDur ∧ endsWithPunct prev.content = false then
      (({ prev with
          content := mergeText prev.content s1.content
          stop := max prev.stop s1.stop } :: outTl).reverse, adj1, mrg + 1)
    else
      ((s1 :: prev :: outTl).reverse, adj1, mrg)
  | nxt :: rest2, [], adj, mrg, s =>
    -- no previous accepted cue: only the forward merge can apply
    if s.stop - s.start < minDur ∧ nxt.start ≤ s.stop + minDur / 2 then
      pass2go minDur rest2 [] adj (mrg + 1)
        { nxt with
          start := s.start
          content := mergeText s.content nxt.content }
    else
      pass2go minDur rest2 [s] adj mrg nxt
  | nxt :: rest2, prev :: outTl, adj, mrg, s =>
    let p := shiftOverlap minDur prev.stop s
    let s1 := p.1
    let adj1 := if p.2 then adj + 1 else adj
    if s1.stop - s1.start < minDur ∧ endsWithPunct prev.content = false then
      pass2go minDur rest2
        ({ prev with
           content := mergeText prev.content s1.content
           stop := max prev.stop s1.stop } :: outTl) adj1 (mrg + 1) nxt
    else if s1.stop - s1.start < minDur ∧ nxt.start ≤ s1.stop + minDur / 2 then
      pass2go minDur rest2 (prev :: outTl) adj1 (mrg + 1)
        { nxt with
          start := s1.start
          content := mergeText s1.content nxt.content }
    else
      pass2go minDur rest2 (s1 :: prev :: outTl) adj1 mrg nxt

/-- Second pass, entry point: scan the whole list with an empty output. -/
def pass2 (minDur : ℤ) : List Subtitle → List Subtitle × ℕ × ℕ
  | [] => ([], 0, 0)
  | s :: rest => pass2go minDur rest [] 0 0 s

/-- Third pass of `fix_timing_and_merge` on a nonempty list with accepted head
`prev`: push `cur.start` to `prev.end` on overlap and re-extend `cur.end` when
needed; the second component counts the `adjusted` increments. -/
def pass3go (minDur : ℤ) (prev : Subtitle) : List Subtitle → List Subtitle × ℕ
  | [] => ([prev], 0)
  | cur :: rest =>
    if cur.start < prev.stop then
      let en := if cur.stop ≤ prev.stop then prev.stop + minDur else cur.stop
      let r := pass3go minDur { cur with start := prev.stop, stop := en } rest
      (prev :: r.1, r.2 + 1)
    else
      let r := pass3go minDur cur rest
      (prev :: r.1, r.2)

/-- Third pass, entry point. -/
def pass3 (minDur : ℤ) : List Subtitle → List Subtitle × ℕ
  | [] => ([], 0)
  | c :: rest => pass3go minDur c rest

/-- Model of `fix_timing_and_merge(subs, min_duration)` from `fix_srt.py`:
the three passes in order, the accumulated statistics, and
`renumbered = len(out)`. -/
def fix_timing_and_merge (subs : List Subtitle) (minDur : ℤ) :
    List Subtitle × Stats :=
  let p1 := pass1 minDur subs
  let p2 := pass2 minDur p1.1
  let p3 := pass3 minDur p2.1
  (p3.1, ⟨p1.2 + p2.2.1 + p3.2, p2.2.2, p3.1.length⟩)

/-- The non-overlap relation on adjacent cues: the earlier cue ends no later
than the later one starts. -/
def NonOverlap (a b : Subtitle) : Prop := a.stop ≤ b.start

/-- The guarantee the second pass actually provides for an adjacent output
pair `(a, b)` with `a` before `b`: either `b` reaches the duration floor, or
`b` was accepted despite being short because `a` ends with sentence-terminal
punctuation (which blocks the backward merge). -/
def MinDurOk (minDur : ℤ) (a b : Subtitle) : Prop :=
  minDur ≤ b.stop - b.start ∨ endsWithPunct a.content = true

/-- The concrete input refuting claim C2: the middle cue is 200 ms long, its
predecessor ends with `'.'` (no backward merge) and its successor starts
8.8 s later (no forward merge), so it survives with a short duration. -/
def cexC2 : List Subtitle :=
  [⟨1, 0, 1000, ['H', 'i', '.']⟩, ⟨2, 1000, 1200, ['a']⟩,
   ⟨3, 10000, 11000, ['b']⟩]

/-- Split a character list into its maximal whitespace-separated words
(accumulating the current word in reverse).  This is the "whitespace
normalization" under which claim C3 compares texts: two texts are equal up to
whitespace normalization exactly when they have the same word list. -/
def tokenizeGo : List Char → List Char → List (List Char)
  | cur, [] => if cur.isEmpty then [] else [cur.reverse]
  | cur, c :: cs =>
    if isWS c then
      if cur.isEmpty then tokenizeGo [] cs else cur.reverse :: tokenizeGo [] cs
    else
      tokenizeGo (c :: cur) cs

/-- The whitespace-separated words of a text. -/
def tokenize (cs : List Char) : List (List Char) := tokenizeGo [] cs

/-- The words of all cue texts of a list, concatenated in cue order. -/
def tokensOf (subs : List Subtitle) : List (List Char) :=
  (subs.map fun s => tokenize s.content).flatten

/-! ### Text normalization (`conservative_fix_text` and helpers)

Each `re.sub` call of the Python code is modelled by a single-pass scanner
that is extensionally equal to the (simple, backtracking-free) regex involved;
the justification for each is given at its definition. -/

/-- The character class `[ \t ]` of the space-collapsing regex. -/
def isSpTabNbsp (c : Char) : Bool := c == ' ' || c == '\t' || c == ' '

/-- `re.sub(r"[ \t ]+", ' ', text)`: every maximal run of space, tab and
no-break space becomes a single ASCII space.  The boolean state records
whether the scanner is inside a run whose replacement space has already been
emitted. -/
def collapseSpacesGo : Bool → List Char → List Char
  | _, [] => []
  | inRun, c :: cs =>
    if isSpTabNbsp c then
      if inRun then collapseSpacesGo true cs
      else ' ' :: collapseSpacesGo true cs
    else c :: collapseSpacesGo false cs

/-- Entry point of the space-collapsing pass. -/
def collapseSpaces (cs : List Char) : List Char := collapseSpacesGo false cs

/-- The English punctuation class `[.,!?;:]`. -/
def EN_PUNCT : List Char := ['.', ',', '!', '?', ';', ':']

/-- The Chinese punctuation class `[，。！？；：、]`. -/
def ZH_PUNCT : List Char := ['，', '。', '！', '？', '；', '：', '、']

/-- `re.sub(r"\s+([...])", r"\1", text)` for a punctuation class `puncts`:
delete every whitespace run that immediately precedes a character of the
class.  `pend` holds the pending (reversed) whitespace run, which is dropped
when a class character follows and flushed otherwise. -/
def delSpaceBeforeGo (puncts : List Char) : List Char → List Char → List Char
  | pend, [] => pend.reverse
  | pend, c :: cs =>
    if isWS c then delSpaceBeforeGo puncts (c :: pend) cs
    else if puncts.contains c then c :: delSpaceBeforeGo puncts [] cs
    else pend.reverse ++ c :: delSpaceBeforeGo puncts [] cs

/-- Entry point of the delete-space-before-punctuation pass. -/
def delSpaceBefore (puncts : List Char) (cs : List Char) : List Char :=
  delSpaceBeforeGo puncts [] cs

/-- `re.sub(r"([.,!?;:])([^\s])", r"\1 \2", text)`: insert one space between a
punctuation mark and a following non-whitespace character.  As in the regex,
the matched second character is consumed: scanning resumes after it. -/
def spaceAfterPunct : List Char → List Char
  | [] => []
  | [c] => [c]
  | c :: d :: cs2 =>
    if EN_PUNCT.contains c then
      if isWS d then c :: spaceAfterPunct (d :: cs2)
      else c :: ' ' :: d :: spaceAfterPunct cs2
    else c :: spaceAfterPunct (d :: cs2)

/-- `re.sub(r"\s{2,}", ' ', text)`: every maximal whitespace run of length at
least two becomes one ASCII space; single whitespace characters are kept
as they are.  The boolean state records whether the scanner is inside a run
whose replacement space has already been emitted. -/
def collapseWsRunsGo : Bool → List Char → List Char
  | _, [] => []
  | skip, c :: cs =>
    if isWS c then
      if skip then collapseWsRunsGo true cs
      else
        match cs with
        | [] => [c]
        | d :: _ =>
          if isWS d then ' ' :: collapseWsRunsGo true cs
          else c :: collapseWsRunsGo false cs
    else c :: collapseWsRunsGo false cs

/-- Entry point of the multi-whitespace collapsing pass. -/
def collapseWsRuns (cs : List Char) : List Char := collapseWsRunsGo false cs

/-- `if text and text[0].islower(): text = text[0].upper() + text[1:]`.
`islower`/`upper` are modelled on ASCII letters (the only case-bearing
characters exercised in this development). -/
def capitalizeFirst : List Char → List Char
  | [] => []
  | c :: cs => if c.isLower then c.toUpper :: cs else c :: cs

/-- The CJK character class `[一-鿿]`. -/
def isCJK (c : Char) : Bool := 0x4e00 ≤ c.toNat && c.toNat ≤ 0x9fff

/-- The Latin-or-digit character class `[A-Za-z0-9]`. -/
def isLatinDigit (c : Char) : Bool := c.isAlpha || c.isDigit

/-- `re.sub(r"([一-鿿])([A-Za-z0-9]+)", r"\1 \2", text)`: one space is
inserted at every boundary where a CJK character is immediately followed by a
Latin/digit character.  The regex consumes the whole Latin run but inserts
only at its start, and a consumed run contains no further CJK–Latin boundary,
so the substitution is exactly this pairwise insertion. -/
def insertSpaceCJKLatin : List Char → List Char
  | [] => []
  | [c] => [c]
  | c :: d :: cs =>
    if isCJK c && isLatinDigit d then c :: ' ' :: insertSpaceCJKLatin (d :: cs)
    else c :: insertSpaceCJKLatin (d :: cs)

/-- `re.sub(r"([A-Za-z0-9]+)([一-鿿])", r"\1 \2", text)`: one space at
every boundary where a Latin/digit character is immediately followed by a CJK
character (see `insertSpaceCJKLatin` for the pairwise justification). -/
def insertSpaceLatinCJK : List Char → List Char
  | [] => []
  | [c] => [c]
  | c :: d :: cs =>
    if isLatinDigit c && isCJK d then c :: ' ' :: insertSpaceLatinCJK (d :: cs)
    else c :: insertSpaceLatinCJK (d :: cs)

/-- `fix_chinese_typos(text)` with the optional `pycorrector` capability
modelled as an optional function `corr` (`none` models both "not installed"
and "raised an exception", which the Python code turns into `(text, False)`):
when present, `changed = corrected_text != text`. -/
def fix_chinese_typos (corr : Option (List Char → List Char))
    (text : List Char) : List Char × Bool :=
  match corr with
  | none => (text, false)
  | some f =>
    let t := f text
    (t, decide (t ≠ text))

/-- The English branch of `conservative_fix_text` after the universal
space-collapsing and stripping steps. -/
def enBranch (t : List Char) : List Char :=
  capitalizeFirst (collapseWsRuns (spaceAfterPunct (delSpaceBefore EN_PUNCT t)))

/-- The Chinese branch of `conservative_fix_text` after the universal
space-collapsing and stripping steps. -/
def zhBranch (t : List Char) : List Char :=
  collapseWsRuns
    (insertSpaceLatinCJK (insertSpaceCJKLatin (delSpaceBefore ZH_PUNCT t)))

/-- Model of `conservative_fix_text(text, lang, aggressiveness,
use_pycorrector)` from `fix_srt.py` (`aggressiveness` is accepted and never
read by the Python function; the optional `pycorrector` dependency is the
`corr` parameter).  Returns `(new_text, changed)` with
`changed = (text != orig) or pycorrector_changed`. -/
def conservative_fix_text (corr : Option (List Char → List Char))
    (text : List Char) (lang : List Char) (use_pycorrector : Bool) :
    List Char × Bool :=
  let orig := text
  let p :=
    if use_pycorrector && lang == ['z', 'h'] then fix_chinese_typos corr text
    else (text, false)
  let t1 := strip (collapseSpaces p.1)
  let t2 := if lang == ['e', 'n'] then enBranch t1 else zhBranch t1
  (t2, decide (t2 ≠ orig) || p.2)

/-! ### The enhanced script (`fix_srt_enhanced.py`) -/

/-- `detect_language_simple`: `'zh'` when the text contains a CJK code point,
`'en'` otherwise. -/
def detect_language_simple (text : List Char) : List Char :=
  if text.any isCJK then ['z', 'h'] else ['e', 'n']

/-- When the pattern is an initial segment of the list, returns the remainder
after it (used to model Python substring search and `str.replace`). -/
def stripPat : List Char → List Char → Option (List Char)
  | [], rest => some rest
  | _ :: _, [] => none
  | p :: ps, c :: cs => if p = c then stripPat ps cs else none

theorem stripPat_length :
    ∀ (pat l r : List Char), stripPat pat l = some r →
      r.length + pat.length = l.length := by
  intro pat
  induction pat with
  | nil =>
    intro l r h
    simp only [stripPat, Option.some.injEq] at h
    subst h
    simp
  | cons p ps ih =>
    intro l r h
    cases l with
    | nil => exact absurd h (by simp [stripPat])
    | cons c cs =>
      simp only [stripPat] at h
      by_cases hpc : p = c
      · rw [if_pos hpc] at h
        have := ih cs r h
        simp only [List.length_cons]
        omega
      · rw [if_neg hpc] at h
        exact absurd h (by simp)

/-- Python `pat in text` (substring containment). -/
def containsSeq (pat : List Char) : List Char → Bool
  | [] => pat.isEmpty
  | c :: cs => (stripPat pat (c :: cs)).isSome || containsSeq pat cs

/-- Python `text.replace(p :: ps, rep)`: replace every non-overlapping
occurrence, scanning left to right. -/
def replaceAllGo (p : Char) (ps rep : List Char) (l : List Char) : List Char :=
  match l with
  | [] => []
  | c :: cs =>
    match h : stripPat (p :: ps) (c :: cs) with
    | some rest => rep ++ replaceAllGo p ps rep rest
    | none => c :: replaceAllGo p ps rep cs
termination_by l.length
decreasing_by
  · have h2 := stripPat_length _ _ _ h
    simp only [List.length_cons] at h2 ⊢
    omega
  · simp

/-- Python `text.replace(pat, rep)` (the empty pattern does not occur among
the typo-map keys; it is modelled as the identity). -/
def replaceAll (pat rep cs : List Char) : List Char :=
  match pat with
  | [] => cs
  | p :: ps => replaceAllGo p ps rep cs

/-- `fix_traditional_chinese_typos_dict` with the typo table — loaded from the
external `typo_map.json`, which is not part of the sources — as the
`typoMap` parameter: apply `text.replace(typo, correct)` for each entry whose
key occurs in the text, in table order. -/
def fix_typos_dict (typoMap : List (List Char × List Char))
    (text : List Char) : List Char × Bool :=
  let t := typoMap.foldl
    (fun t p => if containsSeq p.1 t then replaceAll p.1 p.2 t else t) text
  (t, decide (t ≠ text))

/-- `fix_english_text(text, context, use_languagetool=False)` from
`fix_srt_enhanced.py` with the optional dependencies absent
(`SPELLCHECKER_AVAILABLE` and `LANGUAGETOOL_AVAILABLE` are false): the three
punctuation passes and first-letter capitalization.  The `context` argument is
accepted and never read by the function body. -/
def fix_english_text (text context : List Char) : List Char × Bool :=
  let t := capitalizeFirst
    (collapseWsRuns (spaceAfterPunct (delSpaceBefore EN_PUNCT text)))
  (t, decide (t ≠ text))

/-- `fix_chinese_text(text, context)` from `fix_srt_enhanced.py` with
`pycorrector`/OpenCC absent: the typo-dictionary pass, then the punctuation
and CJK–Latin spacing passes and a final strip.  The `context` argument is
accepted and never read by the function body. -/
def fix_chinese_text (typoMap : List (List Char × List Char))
    (text context : List Char) : List Char × Bool :=
  let t0 := (fix_typos_dict typoMap text).1
  let t1 := strip (collapseWsRuns
    (insertSpaceLatinCJK (insertSpaceCJKLatin (delSpaceBefore ZH_PUNCT t0))))
  (t1, decide (t1 ≠ text))

/-- The context string built by `fix_text_with_context` for position `i` over
the cue list in its state at that moment:
`' '.join(s.content for s in subs[max(0, i-w) : i+w+1] if s is not sub)`
(the `s != sub` test is identity comparison, i.e. it excludes position `i`). -/
def contextAt (subs : List Subtitle) (w i : ℕ) : List Char :=
  List.intercalate [' ']
    (((subs.enum).filter
        (fun p => decide (i - w ≤ p.1) && decide (p.1 < i + w + 1) &&
          decide (p.1 ≠ i))).map
      (fun p => p.2.content))

/-- One iteration of the `fix_text_with_context` loop body at cue `sub` with
context `ctx`: detect the language, run the matching fixer, and update the
cue when it reports a change. -/
def fixSubContent (typoMap : List (List Char × List Char)) (sub : Subtitle)
    (ctx : List Char) : Subtitle :=
  let r :=
    if detect_language_simple sub.content == ['z', 'h'] then
      fix_chinese_text typoMap sub.content ctx
    else
      fix_english_text sub.content ctx
  if r.2 then { sub with content := r.1 } else sub

/-- Whether the loop body reports a change for `sub` (increments
`total_changes`). -/
def fixSubChanged (typoMap : List (List Char × List Char)) (sub : Subtitle)
    (ctx : List Char) : Bool :=
  (if detect_language_simple sub.content == ['z', 'h'] then
    fix_chinese_text typoMap sub.content ctx
  else
    fix_english_text sub.content ctx).2

/-- The `fix_text_with_context` loop from position `i`, with `k` cues left to
process, over the current list state; returns the final list and the number
of changed cues. -/
def ftwcGo (typoMap : List (List Char × List Char)) (w : ℕ) :
    ℕ → ℕ → List Subtitle → List Subtitle × ℕ
  | _, 0, subs => (subs, 0)
  | i, k + 1, subs =>
    match subs.get? i with
    | none => (subs, 0)
    | some sub =>
      let ctx := contextAt subs w i
      let sub1 := fixSubContent typoMap sub ctx
      let subs1 := subs.set i sub1
      let r := ftwcGo typoMap w (i + 1) k subs1
      (r.1, r.2 + (if fixSubChanged typoMap sub ctx then 1 else 0))

/-- Model of `fix_text_with_context(subs, window_size, use_languagetool=False)`
(the list is mutated in place in Python; the model returns the final list
together with `total_changes`). -/
def fix_text_with_context (typoMap : List (List Char × List Char))
    (subs : List Subtitle) (window_size : ℕ) : List Subtitle × ℕ :=
  ftwcGo typoMap window_size 0 subs.length subs

/-- The sequence of context strings actually passed to the correction hooks
by the `fix_text_with_context` loop (same recursion as `ftwcGo`). -/
def contextsPassed (typoMap : List (List Char × List Char)) (w : ℕ) :
    ℕ → ℕ → List Subtitle → List (List Char)
  | _, 0, _ => []
  | i, k + 1, subs =>
    match subs.get? i with
    | none => []
    | some sub =>
      let ctx := contextAt subs w i
      let sub1 := fixSubContent typoMap sub ctx
      ctx :: contextsPassed typoMap w (i + 1) k (subs.set i sub1)

/-- The context strings the claim describes: each built from the original
(pre-normalization) cue list. -/
def contextsOriginal (w : ℕ) (subs : List Subtitle) : List (List Char) :=
  (List.range subs.length).map (contextAt subs w)

/-- The concrete input refuting claim C8: normalizing the first cue changes
its text, so the context passed for the second cue differs from the context
built from original text. -/
def cexC8 : List Subtitle :=
  [⟨1, 0, 1000, ['h', 'e', 'l', 'l', 'o', ' ', ',', 'x']⟩,
   ⟨2, 1000, 2000, ['o', 'k']⟩]

/-! ### The timestamp codec (`parse_timestamp` / `format_timestamp`) -/

/-- The value of a `\d` regex match. -/
def digitVal? (c : Char) : Option ℕ :=
  match c with
  | '9' => some 9
  | '8' => some 8
  | '7' => some 7
  | '6' => some 6
  | '5' => some 5
  | '4' => some 4
  | '3' => some 3
  | '2' => some 2
  | '1' => some 1
  | '0' => some 0
  | _ => none

/-- The decimal digit character for a value below ten. -/
def digitChar (n : ℕ) : Char :=
  match n with
  | 0 => '0'
  | 1 => '1'
  | 2 => '2'
  | 3 => '3'
  | 4 => '4'
  | 5 => '5'
  | 6 => '6'
  | 7 => '7'
  | 8 => '8'
  | 9 => '9'
  | _ => '*'

/-- The integer captured by a two-digit regex group. -/
def digit2? (a b : Char) : Option ℕ :=
  match digitVal? a, digitVal? b with
  | some x, some y => some (10 * x + y)
  | _, _ => none

/-- The integer captured by a three-digit regex group. -/
def digit3? (a b c : Char) : Option ℕ :=
  match digitVal? a, digitVal? b, digitVal? c with
  | some x, some y, some z => some (100 * x + 10 * y + z)
  | _, _, _ => none

/-- An anchored match of `^(\d{2}):(\d{2}):(\d{2})<sep>(\d{3})$`
(`TIMESTAMP_SRT_RE` with `sep = ','`, `TIMESTAMP_VTT_RE` with `sep = '.'`),
returning the four captured integers. -/
def matchTimestamp (sep : Char) : List Char → Option (ℕ × ℕ × ℕ × ℕ)
  | [h1, h2, c1, m1, m2, c2, s1, s2, c3, d1, d2, d3] =>
    if c1 = ':' ∧ c2 = ':' ∧ c3 = sep then
      match digit2? h1 h2, digit2? m1 m2, digit2? s1 s2, digit3? d1 d2 d3 with
      | some hh, some mm, some ss, some ms => some (hh, mm, ss, ms)
      | _, _, _, _ => none
    else none
  | _ => none

/-- Model of `parse_timestamp(ts, format)`: strip, try the expected
separator's pattern, fall back to the other one, and build the
`timedelta(hours, minutes, seconds, milliseconds)` value in integer
milliseconds; `none` models the raised `ValueError`. -/
def parse_timestamp (ts : List Char) (format : List Char) : Option ℤ :=
  let t := strip ts
  let m :=
    if format == ['v', 't', 't'] then matchTimestamp '.' t
    else matchTimestamp ',' t
  let m2 :=
    match m with
    | some r => some r
    | none =>
      if format == ['v', 't', 't'] then matchTimestamp ',' t
      else matchTimestamp '.' t
  match m2 with
  | none => none
  | some (hh, mm, ss, ms) =>
    some ((hh : ℤ) * 3600000 + (mm : ℤ) * 60000 + (ss : ℤ) * 1000 + (ms : ℤ))

/-- Decimal rendering of a natural number, most significant digit first
(`str(n)`); the first argument is fuel, always called with `fuel ≥ n`. -/
def renderNatGo : ℕ → ℕ → List Char
  | 0, _ => []
  | fuel + 1, n =>
    if n = 0 then []
    else renderNatGo fuel (n / 10) ++ [digitChar (n % 10)]

/-- `str(n)` for a natural number. -/
def renderNat (n : ℕ) : List Char :=
  if n = 0 then ['0'] else renderNatGo n n

/-- `f"{n:0wd}"`: left-pad the decimal rendering with zeros to width `w`. -/
def padStr (w : ℕ) (s : List Char) : List Char :=
  List.replicate (w - s.length) '0' ++ s

/-! `format_timestamp` computes `total_ms = int(td.total_seconds() * 1000)`
through binary64 floats: `total_seconds()` divides the exact integer
microsecond count by `10**6` with one correctly-rounded float division, the
result is multiplied by `1000` with one correctly-rounded float
multiplication, and `int` truncates toward zero.  This float detour is NOT
exact on whole milliseconds (e.g. 1001 ms renders as `00:00:01,000`), so it
is modelled bit-exactly below: a positive binary64 value is a pair
(significand, exponent) with `2^52 ≤ m < 2^53`, and each operation rounds
the exact rational result to nearest, ties to even.  All values arising here
lie well inside the normal range of binary64, so overflow and subnormals
cannot occur and are not modelled. -/

/-- `floor (log2 n)` for `n ≥ 1` (and `0` for `n ≤ 1`), by fuel recursion so
that the kernel can evaluate it (unlike `Nat.log2`, which is defined by
well-founded recursion). -/
def log2go : ℕ → ℕ → ℕ
  | 0, _ => 0
  | fuel + 1, n => if n ≤ 1 then 0 else log2go fuel (n / 2) + 1

/-- Entry point of the fueled base-2 logarithm. -/
def natLog2 (n : ℕ) : ℕ := log2go n n

/-- `round (r / s)` with ties to even, for `s > 0`. -/
def rhe (r s : ℕ) : ℕ :=
  let t := r / s
  let rem := r % s
  if 2 * rem < s then t
  else if s < 2 * rem then t + 1
  else if t % 2 = 0 then t else t + 1

/-- Round the positive rational `p / q` to the nearest binary64 value (ties
to even), returned as (significand, binary exponent): the unique exponent
`e` with `2^52 ≤ p / (q * 2^e) < 2^53` is located from the integer
logarithms of `p` and `q` (the guess `d0` overshoots by at most one, which
the rational comparison corrects), the significand is the rounded quotient,
and a significand that rounds up to `2^53` is renormalized. -/
def roundF (p q : ℕ) : ℕ × ℤ :=
  if p = 0 then (0, 0)
  else
    let d0 : ℤ := (natLog2 p : ℤ) - (natLog2 q : ℤ)
    let d : ℤ := if q * 2 ^ d0.toNat ≤ p * 2 ^ (-d0).toNat then d0 else d0 - 1
    let e : ℤ := d - 52
    let m := rhe (p * 2 ^ (-e).toNat) (q * 2 ^ e.toNat)
    if m = 2 ^ 53 then (2 ^ 52, e + 1) else (m, e)

/-- `int x` (truncation toward zero) of the non-negative binary64 value
`m * 2^e`. -/
def floorDy (m : ℕ) (e : ℤ) : ℕ :=
  if 0 ≤ e then m * 2 ^ e.toNat else m / 2 ^ (-e).toNat

/-- `int(td.total_seconds() * 1000)` for a non-negative whole-millisecond
timedelta of `v` ms: `total_seconds()` is the correctly rounded binary64
value of `(v * 1000) / 10^6` microseconds over a million, the float product
with `1000` rounds the exact rational `1000 * m * 2^e` once more, and `int`
truncates.  The result is `v` or `v - 1`; it is `v - 1` for 741 of the
first 100000 values (the first being 1001). -/
def pyMs (v : ℕ) : ℕ :=
  let s := roundF (v * 1000) 1000000
  let x := roundF (1000 * s.1 * 2 ^ s.2.toNat) (2 ^ (-s.2).toNat)
  floorDy x.1 x.2

/-- Model of `format_timestamp(td, format)`: compute
`int(td.total_seconds() * 1000)` through the float detour (`pyMs`; for a
negative duration the truncated value is non-positive and the subsequent
clamp makes the result zero either way, so the clamp is applied first),
split into hours / minutes / seconds / milliseconds and render
`HH:MM:SS<sep>mmm` with the format's separator (hours are zero-padded to at
least two digits and may exceed two). -/
def format_timestamp (td : ℤ) (format : List Char) : List Char :=
  let t : ℕ := if td < 0 then 0 else pyMs td.toNat
  let ms := t % 1000
  let s := t / 1000 % 60
  let m := t / (1000 * 60) % 60
  let h := t / (1000 * 60 * 60)
  padStr 2 (renderNat h) ++ ':' :: padStr 2 (renderNat m) ++ ':' ::
    padStr 2 (renderNat s) ++
    (if format == ['v', 't', 't'] then '.' else ',') :: padStr 3 (renderNat ms)

/-- The claim's `canonicalize(s, F)` (spec wording: "the canonical rendering
of `s` in format `F`'s separator style"): the same twelve characters with the
separator replaced by the target format's one. -/
def canonicalTS (sep : Char) : List Char → List Char
  | [h1, h2, c1, m1, m2, c2, s1, s2, _, d1, d2, d3] =>
    [h1, h2, c1, m1, m2, c2, s1, s2, sep, d1, d2, d3]
  | l => l

/-- A generic valid timestamp string of the `HH:MM:SS<sep>mmm` shape, given
by its nine digit values and separator; every string of that shape is
`tsStr` of a unique digit tuple. -/
def tsStr (v1 v2 w1 w2 x1 x2 y1 y2 y3 : ℕ) (sep : Char) : List Char :=
  [digitChar v1, digitChar v2, ':', digitChar w1, digitChar w2, ':',
   digitChar x1, digitChar x2, sep, digitChar y1, digitChar y2, digitChar y3]

/-- The millisecond value `parse_timestamp` produces for `tsStr`. -/
def tsVal (v1 v2 w1 w2 x1 x2 y1 y2 y3 : ℕ) : ℤ :=
  ((10 * v1 + v2 : ℕ) : ℤ) * 3600000 + ((10 * w1 + w2 : ℕ) : ℤ) * 60000 +
    ((10 * x1 + x2 : ℕ) : ℤ) * 1000 + ((100 * y1 + 10 * y2 + y3 : ℕ) : ℤ)

/-! ### The reader and writer (`read_srt` / `write_srt`)

File contents are modelled as the character list that is read or written;
the newline convention of the model is `'\n'`, the only line terminator the
writer emits. -/

/-- The characters Python `str.splitlines()` treats as line boundaries:
`\n`, `\r`, `\v`, `\f`, the file/group/record separators `\x1c`–`\x1e`,
`\x85`, and the Unicode line/paragraph separators. -/
def isLineBreak (c : Char) : Bool :=
  c == '\n' || c == '\r' || c == '\x0B' || c == '\x0C' || c == '\x1C' ||
    c == '\x1D' || c == '\x1E' || c == '\x85' || c == '\u2028' ||
    c == '\u2029'

/-- Python `str.splitlines()`: the lines without their terminators, split at
every line-boundary character, with `\r\n` consumed as a single boundary; a
trailing boundary produces no final empty line. -/
def splitlinesGo : List Char → List Char → List (List Char)
  | cur, [] => if cur.isEmpty then [] else [cur.reverse]
  | cur, [c] => if isLineBreak c then [cur.reverse] else [(c :: cur).reverse]
  | cur, c :: d :: rest =>
    if c = '\r' ∧ d = '\n' then cur.reverse :: splitlinesGo [] rest
    else if isLineBreak c then cur.reverse :: splitlinesGo [] (d :: rest)
    else splitlinesGo (c :: cur) (d :: rest)

/-- Entry point of `splitlines`. -/
def splitlines (cs : List Char) : List (List Char) := splitlinesGo [] cs

/-- `re.split(r"\n{2,}", text)`: split on maximal runs of two or more
newlines.  The boolean flag is true while consuming the remaining newlines
of a separator run whose first two newlines were already consumed. -/
def splitBlocksGo : Bool → List Char → List Char → List (List Char)
  | true, _, '\n' :: rest => splitBlocksGo true [] rest
  | true, _, c :: rest => splitBlocksGo false [c] rest
  | true, _, [] => [[]]
  | false, cur, '\n' :: '\n' :: rest =>
    cur.reverse :: splitBlocksGo true [] rest
  | false, cur, c :: rest => splitBlocksGo false (c :: cur) rest
  | false, cur, [] => [cur.reverse]

/-- Entry point of the block splitter. -/
def splitBlocks (cs : List Char) : List (List Char) :=
  splitBlocksGo false [] cs

/-- Python `times_line.split('-->')`. -/
def splitArrowGo : List Char → List Char → List (List Char)
  | cur, [] => [cur.reverse]
  | cur, '-' :: '-' :: '>' :: rest => cur.reverse :: splitArrowGo [] rest
  | cur, c :: rest => splitArrowGo (c :: cur) rest

/-- Entry point of the `'-->'` splitter. -/
def splitArrow (cs : List Char) : List (List Char) := splitArrowGo [] cs

/-- Whether a `\d` regex atom matches the character. -/
def isDigitB (c : Char) : Bool := (digitVal? c).isSome

/-- The digit value of a character known to be a digit. -/
def digitValD (c : Char) : ℕ := (digitVal? c).getD 0

/-- The value of a nonempty all-digit string. -/
def parseNatDigits? (cs : List Char) : Option ℕ :=
  if cs ≠ [] ∧ cs.all isDigitB then
    some (cs.foldl (fun a c => 10 * a + digitValD c) 0)
  else none

/-- Python `int(s)`: strip, optional sign, digits; `none` models the raised
`ValueError`. -/
def parseInt? (cs0 : List Char) : Option ℤ :=
  let cs := strip cs0
  match cs with
  | '+' :: rest => (parseNatDigits? rest).map (fun n => (n : ℤ))
  | '-' :: rest => (parseNatDigits? rest).map (fun n => -(n : ℤ))
  | _ => (parseNatDigits? cs).map (fun n => (n : ℤ))

/-- `first_line.strip().startswith('WEBVTT')`. -/
def startsWithWEBVTT (cs : List Char) : Bool :=
  match cs with
  | 'W' :: 'E' :: 'B' :: 'V' :: 'T' :: 'T' :: _ => true
  | _ => false

/-- The block loop of `read_srt`: `n` is the number of cues collected so far
(used for the default index), the result is `none` when a `ValueError`
escapes (a malformed timestamp in a `-->` line, or a `-->` line that does not
split into exactly two parts), which aborts the whole read. -/
def read_blocks (format : List Char) : ℕ → List (List Char) →
    Option (List Subtitle)
  | _, [] => some []
  | n, part :: parts =>
    match splitlines (strip part) with
    | [] => read_blocks format n parts
    | [_] => read_blocks format n parts
    | l0 :: l1 :: restLines =>
      let p : ℤ × List Char × List (List Char) :=
        match parseInt? (strip l0) with
        | some idx => (idx, l1, restLines)
        | none => ((n : ℤ) + 1, l0, l1 :: restLines)
      if containsSeq ['-', '-', '>'] p.2.1 = false then
        read_blocks format n parts
      else
        match splitArrow p.2.1 with
        | [a, b] =>
          match parse_timestamp (strip a) format,
              parse_timestamp (strip b) format with
          | some st, some en =>
            (read_blocks format (n + 1) parts).map
              (fun subs =>
                mkSubtitle p.1 st en
                  (strip (List.intercalate ['\n'] p.2.2)) :: subs)
          | _, _ => none
        | _ => none

/-- Model of `read_srt(path, format)` on the file's text: strip the optional
`WEBVTT` header, split into blocks on blank lines, and parse each block;
`none` models an uncaught `ValueError`. -/
def read_srt (text : List Char) (format : List Char) :
    Option (List Subtitle) :=
  let text1 :=
    if format == ['v', 't', 't'] then
      match splitlines text with
      | l0 :: rest =>
        if startsWithWEBVTT (strip l0) then List.intercalate ['\n'] rest
        else text
      | [] => text
    else text
  read_blocks format 0 (splitBlocks (strip text1))

/-- One output block of `write_srt` for the cue at (1-based) position `i`. -/
def write_block (format : List Char) (i : ℕ) (s : Subtitle) : List Char :=
  (if format == ['s', 'r', 't'] then renderNat i ++ ['\n'] else []) ++
    format_timestamp s.start format ++
    ' ' :: '-' :: '-' :: '>' :: ' ' :: format_timestamp s.stop format ++
    '\n' :: s.content ++ ['\n', '\n']

/-- The enumeration loop of `write_srt`. -/
def write_blocks (format : List Char) : ℕ → List Subtitle → List Char
  | _, [] => []
  | i, s :: rest => write_block format i s ++ write_blocks format (i + 1) rest

/-- Model of `write_srt(path, subs, format)` as the text written to the
file. -/
def write_srt (subs : List Subtitle) (format : List Char) : List Char :=
  (if format == ['v', 't', 't'] then
    ['W', 'E', 'B', 'V', 'T', 'T', '\n', '\n']
  else []) ++ write_blocks format 1 subs

/-- A three-block SRT file whose middle block's `-->` line has a malformed
end timestamp. -/
def cexC5text : List Char :=
  ("1\n00:00:01,000 --> 00:00:02,000\nHello\n\n" ++
   "2\n00:00:03,000 --> bad\nWorld\n\n" ++
   "3\n00:00:05,000 --> 00:00:06,000\nBye").toList

/-- The same file with the malformed middle block removed. -/
def cexC5ok : List Char :=
  ("1\n00:00:01,000 --> 00:00:02,000\nHello\n\n" ++
   "3\n00:00:05,000 --> 00:00:06,000\nBye").toList

/-- Whether a block makes `read_srt` raise `ValueError`: it has at least two
lines, its candidate time line contains `-->`, and that line either does not
split on `-->` into exactly two parts or has an unparsable timestamp. -/
def badBlock (format part : List Char) : Bool :=
  match splitlines (strip part) with
  | l0 :: l1 :: _ =>
    let tl := match parseInt? (strip l0) with
      | some _ => l1
      | none => l0
    containsSeq ['-', '-', '>'] tl &&
      (match splitArrow tl with
       | [a, b] =>
         (parse_timestamp (strip a) format).isNone ||
           (parse_timestamp (strip b) format).isNone
       | _ => true)
  | _ => false

/-- The body of one SRT block as written by `write_srt` (everything before
the terminating blank line): index line, time line, and content. -/
def blockBody (i : ℕ) (s : Subtitle) : List Char :=
  renderNat i ++ '\n' :: format_timestamp s.start ['s', 'r', 't'] ++
    ' ' :: '-' :: '-' :: '>' :: ' ' :: format_timestamp s.stop ['s', 'r', 't'] ++
    '\n' :: s.content

/-- The block bodies of a cue list, numbered from `i`. -/
def blockBodies : ℕ → List Subtitle → List (List Char)
  | _, [] => []
  | i, s :: rest => blockBody i s :: blockBodies (i + 1) rest

/-- Join a list of blocks with blank-line separators (no trailing
separator). -/
def joinNN : List (List Char) → List Char
  | [] => []
  | [b] => b
  | b :: bs => b ++ '\n' :: '\n' :: joinNN bs

/-- The cue list with indices renumbered consecutively from `i`. -/
def reindex : ℕ → List Subtitle → List Subtitle
  | _, [] => []
  | i, s :: rest => { s with index := (i : ℤ) } :: reindex (i + 1) rest

/-- No whitespace character directly precedes a character of the given
punctuation class (the fixed-point condition of the delete-space-before
pass). -/
def NoWsBefore (puncts cs : List Char) : Prop :=
  List.Chain' (fun x y => ¬(isWS x = true ∧ puncts.contains y = true)) cs

/-- No two adjacent whitespace characters (the fixed-point condition of the
whitespace-run collapsing pass). -/
def NoAdjWs (cs : List Char) : Prop :=
  List.Chain' (fun x y => ¬(isWS x = true ∧ isWS y = true)) cs

/-- No CJK character directly followed by a Latin/digit character (the
fixed-point condition of the CJK–Latin spacing pass). -/
def NoCJKLat (cs : List Char) : Prop :=
  List.Chain' (fun x y => ¬(isCJK x = true ∧ isLatinDigit y = true)) cs

/-- No Latin/digit character directly followed by a CJK character. -/
def NoLatCJK (cs : List Char) : Prop :=
  List.Chain' (fun x y => ¬(isLatinDigit x = true ∧ isCJK y = true)) cs

/-- No tab and no no-break space (with isolated whitespace, this is the
fixed-point condition of the space-collapsing pass). -/
def CleanChars (cs : List Char) : Prop :=
  ∀ c ∈ cs, c ≠ '\t' ∧ c ≠ ' '

/-- No leading and no trailing whitespace (the fixed-point condition of
`strip`). -/
def Trimmed (cs : List Char) : Prop :=
  (∀ x ∈ cs.head?, isWS x = false) ∧ (∀ x ∈ cs.reverse.head?, isWS x = false)

/-- Shape automaton for the strings produced by the English branch after the
whitespace-run collapsing step.  States: 0 = at the start, or just after a
plain character or a consumed punctuation mark; 1 = just after a free
punctuation mark (one whose following character was examined by the
space-after-punctuation pass); 2 = just after the single space that follows a
free punctuation mark; 3 = just after an ordinary whitespace character.  A
punctuation mark read in state 2 is in consumed position, so its follower is
unconstrained (back to state 0); everywhere else whitespace runs, whitespace
before punctuation and unspaced punctuation–letter pairs are rejected. -/
def goodVGo : ℕ → List Char → Bool
  | _, [] => true
  | 0, c :: cs =>
    if isWS c then goodVGo 3 cs
    else if EN_PUNCT.contains c then goodVGo 1 cs
    else goodVGo 0 cs
  | 1, c :: cs =>
    if isWS c then (if c = ' ' then goodVGo 2 cs else goodVGo 3 cs) else false
  | 2, c :: cs => if isWS c then false else goodVGo 0 cs
  | 3, c :: cs =>
    if isWS c then false
    else if EN_PUNCT.contains c then false
    else goodVGo 0 cs
  | _ + 4, _ :: _ => false

/-- Shape automaton for the strings produced by the English branch after the
space-after-punctuation pass but before whitespace-run collapsing: the same
states as `goodVGo`, except that whitespace runs are still allowed (states 2
and 3 accept further whitespace, staying in state 3). -/
def goodWGo : ℕ → List Char → Bool
  | _, [] => true
  | 0, c :: cs =>
    if isWS c then goodWGo 3 cs
    else if EN_PUNCT.contains c then goodWGo 1 cs
    else goodWGo 0 cs
  | 1, c :: cs =>
    if isWS c then (if c = ' ' then goodWGo 2 cs else goodWGo 3 cs) else false
  | 2, c :: cs => if isWS c then goodWGo 3 cs else goodWGo 0 cs
  | 3, c :: cs =>
    if isWS c then goodWGo 3 cs
    else if EN_PUNCT.contains c then false
    else goodWGo 0 cs
  | _ + 4, _ :: _ => false

end FixSrt

namespace SrtToVtt

open FixSrt

/-! ### `skills/srt-to-vtt/scripts/srt_to_vtt.py`

The looser converter: its time regex
`(\d{1,2}:\d{2}:\d{2}[,\.]\d{1,3})\s*-->\s*(\d{1,2}:\d{2}:\d{2}[,\.]\d{1,3})`
is modelled by an explicit backtracking matcher whose alternatives are tried
in the regex's preference order (longer digit counts first). -/

/-- The `\d{1,2}` hour field: candidate `(digits, rest)` splits in greedy
preference order. -/
def matchHH (cs : List Char) : List (List Char × List Char) :=
  match cs with
  | a :: b :: r =>
    (if isDigitB a && isDigitB b then [([a, b], r)] else []) ++
      (if isDigitB a then [([a], b :: r)] else [])
  | [a] => if isDigitB a then [([a], [])] else []
  | [] => []

/-- The `\d{1,3}` millisecond field: candidate splits in greedy preference
order. -/
def matchMS (cs : List Char) : List (List Char × List Char) :=
  match cs with
  | a :: b :: c :: r =>
    (if isDigitB a && isDigitB b && isDigitB c then [([a, b, c], r)] else []) ++
      (if isDigitB a && isDigitB b then [([a, b], c :: r)] else []) ++
      (if isDigitB a then [([a], b :: c :: r)] else [])
  | [a, b] =>
    (if isDigitB a && isDigitB b then [([a, b], [])] else []) ++
      (if isDigitB a then [([a], [b])] else [])
  | [a] => if isDigitB a then [([a], [])] else []
  | [] => []

/-- A literal `:` followed by exactly two digits. -/
def matchColon2 (cs : List Char) : Option (List Char × List Char) :=
  match cs with
  | ':' :: a :: b :: r =>
    if isDigitB a && isDigitB b then some ([a, b], r) else none
  | _ => none

/-- The `[,.]` separator. -/
def matchSep (cs : List Char) : Option (Char × List Char) :=
  match cs with
  | ',' :: r => some (',', r)
  | '.' :: r => some ('.', r)
  | _ => none

/-- All full matches of one loose timestamp token at the head of the input,
as `(token, rest)` pairs in backtracking preference order. -/
def matchTimeTok (cs : List Char) : List (List Char × List Char) :=
  (matchHH cs).flatMap fun p =>
    match matchColon2 p.2 with
    | none => []
    | some (mm, r2) =>
      match matchColon2 r2 with
      | none => []
      | some (ss, r3) =>
        match matchSep r3 with
        | none => []
        | some (sep, r4) =>
          (matchMS r4).map fun q =>
            (p.1 ++ ':' :: mm ++ ':' :: ss ++ sep :: q.1, q.2)

/-- `\s*-->\s*` (no backtracking is needed: `-` is not whitespace). -/
def matchArrowTail (cs : List Char) : Option (List Char) :=
  match cs.dropWhile isWS with
  | '-' :: '-' :: '>' :: r => some (r.dropWhile isWS)
  | _ => none

/-- An anchored match of the full time-line pattern, returning the two
captured tokens. -/
def matchTimePair (cs : List Char) : Option (List Char × List Char) :=
  (matchTimeTok cs).findSome? fun p =>
    match matchArrowTail p.2 with
    | none => none
    | some r2 =>
      match matchTimeTok r2 with
      | q :: _ => some (p.1, q.1)
      | [] => none

/-- `time_re.search(line)`: the leftmost match. -/
def searchTimePair : List Char → Option (List Char × List Char)
  | [] => none
  | c :: cs =>
    match matchTimePair (c :: cs) with
    | some r => some r
    | none => searchTimePair cs

/-- Model of `normalize_time(s)`: strip, turn `','` into `'.'`, and when the
string has three `:`-separated fields, zero-pad a one-digit hour on the left
and the millisecond field on the right to exactly three digits (appending
`.000` when there is none); other shapes are returned unchanged.  The `none`
case models the `ValueError` of the two-variable unpacking when the seconds
field holds more than one `'.'`; it is unreachable from `parse_srt`, whose
regex-matched tokens contain at most one separator. -/
def normalize_time (s0 : List Char) : Option (List Char) :=
  let s1 := (strip s0).map (fun c => if c = ',' then '.' else c)
  match s1.splitOn ':' with
  | [hh, mm, ss] =>
    let hh2 := if hh.length = 1 then '0' :: hh else hh
    if ss.contains '.' then
      match ss.splitOn '.' with
      | [sec, ms] =>
        some (hh2 ++ ':' :: mm ++ ':' :: sec ++
          '.' :: (ms ++ ['0', '0', '0']).take 3)
      | _ => none
    else some (hh2 ++ ':' :: mm ++ ':' :: ss ++ ['.', '0', '0', '0'])
  | _ => some s1

/-- `re.split(r'\r?\n\s*\r?\n', content)` with `'\n'` newlines: split on a
newline, a whitespace run whose last newline ends the separator, and that
final newline (the greedy `\s*` backtracks to the last newline of the run). -/
def splitBlocksWsGo : List Char → List Char → List (List Char)
  | cur, [] => [cur.reverse]
  | cur, '\n' :: rest =>
    let pre := rest.takeWhile isWS
    if pre.contains '\n' then
      cur.reverse ::
        splitBlocksWsGo []
          (rest.drop (pre.reverse.dropWhile (fun c => c ≠ '\n')).length)
    else splitBlocksWsGo ('\n' :: cur) rest
  | cur, c :: rest => splitBlocksWsGo (c :: cur) rest
termination_by _ l => l.length
decreasing_by
  all_goals simp only [List.length_drop, List.length_cons]
  all_goals omega

/-- A loose timestamp shape as accepted by the converter's regex: an
optional leading hour digit (one- or two-digit hour), two-digit minutes and
seconds, either separator, and one mandatory plus up to two further
millisecond digits. -/
structure LooseTS where
  h1 : Option ℕ
  h2 : ℕ
  w1 : ℕ
  w2 : ℕ
  x1 : ℕ
  x2 : ℕ
  sep : Char
  y1 : ℕ
  ytl : List ℕ

/-- Well-formedness of a loose timestamp shape: digit values below ten, at
most three millisecond digits, comma or dot separator. -/
def LooseTS.Ok (t : LooseTS) : Prop :=
  (∀ d ∈ t.h1, d < 10) ∧ t.h2 < 10 ∧ t.w1 < 10 ∧ t.w2 < 10 ∧ t.x1 < 10 ∧
    t.x2 < 10 ∧ t.y1 < 10 ∧ (∀ d ∈ t.ytl, d < 10) ∧ t.ytl.length ≤ 2 ∧
    (t.sep = ',' ∨ t.sep = '.')

/-- The characters of a loose timestamp. -/
def LooseTS.chars (t : LooseTS) : List Char :=
  (match t.h1 with
   | some d => [digitChar d, digitChar t.h2]
   | none => [digitChar t.h2]) ++
    ':' :: digitChar t.w1 :: digitChar t.w2 ::
    ':' :: digitChar t.x1 :: digitChar t.x2 ::
    t.sep :: digitChar t.y1 :: t.ytl.map digitChar

/-- The canonical form `normalize_time` should emit for a loose timestamp:
hour left-padded to two digits, `'.'` separator, milliseconds right-padded
to exactly three digits. -/
def LooseTS.norm (t : LooseTS) : List Char :=
  (match t.h1 with
   | some d => [digitChar d, digitChar t.h2]
   | none => ['0', digitChar t.h2]) ++
    ':' :: digitChar t.w1 :: digitChar t.w2 ::
    ':' :: digitChar t.x1 :: digitChar t.x2 ::
    '.' :: ((digitChar t.y1 :: t.ytl.map digitChar) ++ ['0', '0', '0']).take 3

/-- Model of `parse_srt(content)`: split into blocks, keep each block's
non-blank lines, find the first line containing `-->`, search the time
pattern in it, and emit `(normalized start, normalized end, text)`; blocks
without a match are skipped. -/
def parse_srt (content : List Char) : List (List Char × List Char × List Char) :=
  (splitBlocksWsGo [] (strip content)).filterMap fun b =>
    let lines := (splitlines b).filter (fun l => ¬ (strip l).isEmpty)
    match lines.find? (fun ln => containsSeq ['-', '-', '>'] ln) with
    | none => none
    | some timeLine =>
      let timeIdx := lines.findIdx (fun ln => containsSeq ['-', '-', '>'] ln)
      match searchTimePair timeLine with
      | none => none
      | some (sa, sb) =>
        match normalize_time sa, normalize_time sb with
        | some st, some en =>
          some (st, en,
            strip (List.intercalate ['\n'] (lines.drop (timeIdx + 1))))
        | _, _ => none

end SrtToVtt

namespace FixSrt

theorem pass3go_chain (minDur : ℤ) :
    ∀ (l : List Subtitle) (prev : Subtitle),
      List.Chain' NonOverlap (pass3go minDur prev l).1 ∧
        (pass3go minDur prev l).1.head? = some prev := by
  intro l
  induction l with
  | nil =>
    intro prev
    constructor
    · simp [pass3go]
    · simp [pass3go]
  | cons cur rest ih =>
    intro prev
    by_cases h : cur.start < prev.stop
    · have hrec := ih { cur with
        start := prev.stop
        stop := if cur.stop ≤ prev.stop then prev.stop + minDur else cur.stop }
      constructor
      · simp only [pass3go, if_pos h]
        rw [List.chain'_cons']
        refine ⟨?_, hrec.1⟩
        intro b hb
        rw [hrec.2] at hb
        simp only [Option.mem_def, Option.some.injEq] at hb
        subst hb
        simp [NonOverlap]
      · simp [pass3go, if_pos h]
    · have hrec := ih cur
      constructor
      · simp only [pass3go, if_neg h]
        rw [List.chain'_cons']
        refine ⟨?_, hrec.1⟩
        intro b hb
        rw [hrec.2] at hb
        simp only [Option.mem_def, Option.some.injEq] at hb
        subst hb
        exact le_of_not_lt h
      · simp [pass3go, if_neg h]

theorem pass3_chain (minDur : ℤ) (l : List Subtitle) :
    List.Chain' NonOverlap (pass3 minDur l).1 := by
  cases l with
  | nil => simp [pass3]
  | cons c rest => exact (pass3go_chain minDur rest c).1

/-- Claim C1: for every input cue list and every `minDuration > 0`, the output
of `fix_timing_and_merge` satisfies the non-overlap invariant: for every pair
of adjacent output cues `(a, b)` with `a` before `b`, `a.end ≤ b.start`,
regardless of any disorder or overlap in the input. -/
theorem fix_timing_and_merge_nonoverlap (subs : List Subtitle) (minDur : ℤ)
    (_hmin : 0 < minDur) :
    List.Chain' NonOverlap (fix_timing_and_merge subs minDur).1 :=
  pass3_chain minDur (pass2 minDur (pass1 minDur subs).1).1

theorem shiftOverlap_start_le (minDur p : ℤ) (s : Subtitle) :
    p ≤ ((shiftOverlap minDur p s).1).start := by
  unfold shiftOverlap
  by_cases h : s.start < p
  · simp [h]
  · simp only [if_neg h]
    exact le_of_not_lt h

theorem shiftOverlap_content (minDur p : ℤ) (s : Subtitle) :
    ((shiftOverlap minDur p s).1).content = s.content := by
  unfold shiftOverlap
  by_cases h : s.start < p <;> simp [h]

theorem chain_nonoverlap_congr {prev q : Subtitle} {outTl : List Subtitle}
    (h : List.Chain' (flip NonOverlap) (prev :: outTl))
    (hq : q.start = prev.start) :
    List.Chain' (flip NonOverlap) (q :: outTl) := by
  rw [List.chain'_cons'] at h ⊢
  refine ⟨?_, h.2⟩
  intro o ho
  have hop : NonOverlap o prev := h.1 o ho
  show NonOverlap o q
  unfold NonOverlap at hop ⊢
  rw [hq]
  exact hop

theorem chain_mindur_mono {minDur : ℤ} {prev q : Subtitle} {outTl : List Subtitle}
    (h : List.Chain' (flip (MinDurOk minDur)) (prev :: outTl))
    (hd : prev.stop - prev.start ≤ q.stop - q.start) :
    List.Chain' (flip (MinDurOk minDur)) (q :: outTl) := by
  rw [List.chain'_cons'] at h ⊢
  refine ⟨?_, h.2⟩
  intro o ho
  have hop : MinDurOk minDur o prev := h.1 o ho
  show MinDurOk minDur o q
  rcases hop with hle | hp
  · exact Or.inl (le_trans hle hd)
  · exact Or.inr hp

theorem pass2go_chains (minDur : ℤ) :
    ∀ (rest revOut : List Subtitle) (adj mrg : ℕ) (s : Subtitle),
      List.Chain' (flip NonOverlap) revOut →
      List.Chain' (flip (MinDurOk minDur)) revOut →
      List.Chain' NonOverlap (pass2go minDur rest revOut adj mrg s).1 ∧
        List.Chain' (MinDurOk minDur) (pass2go minDur rest revOut adj mrg s).1 := by
  intro rest
  induction rest with
  | nil =>
    intro revOut adj mrg s h1 h2
    cases revOut with
    | nil => simp [pass2go]
    | cons prev outTl =>
      simp only [pass2go]
      have hstart : prev.stop ≤ ((shiftOverlap minDur prev.stop s).1).start :=
        shiftOverlap_start_le minDur prev.stop s
      by_cases hc : ((shiftOverlap minDur prev.stop s).1).stop -
          ((shiftOverlap minDur prev.stop s).1).start < minDur ∧
          endsWithPunct prev.content = false
      · rw [if_pos hc]
        have hd : prev.stop - prev.start ≤
            max prev.stop ((shiftOverlap minDur prev.stop s).1).stop - prev.start :=
          sub_le_sub_right (le_max_left _ _) _
        constructor
        · simp only [List.chain'_reverse]
          exact chain_nonoverlap_congr h1 rfl
        · simp only [List.chain'_reverse]
          exact chain_mindur_mono h2 hd
      · rw [if_neg hc]
        have hmo : MinDurOk minDur prev ((shiftOverlap minDur prev.stop s).1) := by
          rcases not_and_or.mp hc with hna | hnb
          · exact Or.inl (le_of_not_lt hna)
          · exact Or.inr (Bool.not_eq_false _ |>.mp hnb)
        constructor
        · simp only [List.chain'_reverse]
          exact List.chain'_cons.mpr ⟨hstart, h1⟩
        · simp only [List.chain'_reverse]
          exact List.chain'_cons.mpr ⟨hmo, h2⟩
  | cons nxt rest2 ih =>
    intro revOut adj mrg s h1 h2
    cases revOut with
    | nil =>
      simp only [pass2go]
      by_cases hc : s.stop - s.start < minDur ∧ nxt.start ≤ s.stop + minDur / 2
      · rw [if_pos hc]
        exact ih [] adj (mrg + 1) _ List.chain'_nil List.chain'_nil
      · rw [if_neg hc]
        exact ih [s] adj mrg nxt (List.chain'_singleton s) (List.chain'_singleton s)
    | cons prev outTl =>
      simp only [pass2go]
      have hstart : prev.stop ≤ ((shiftOverlap minDur prev.stop s).1).start :=
        shiftOverlap_start_le minDur prev.stop s
      by_cases hc : ((shiftOverlap minDur prev.stop s).1).stop -
          ((shiftOverlap minDur prev.stop s).1).start < minDur ∧
          endsWithPunct prev.content = false
      · rw [if_pos hc]
        have hd : prev.stop - prev.start ≤
            max prev.stop ((shiftOverlap minDur prev.stop s).1).stop - prev.start :=
          sub_le_sub_right (le_max_left _ _) _
        exact ih _ _ _ nxt (chain_nonoverlap_congr h1 rfl) (chain_mindur_mono h2 hd)
      · rw [if_neg hc]
        have hmo : MinDurOk minDur prev ((shiftOverlap minDur prev.stop s).1) := by
          rcases not_and_or.mp hc with hna | hnb
          · exact Or.inl (le_of_not_lt hna)
          · exact Or.inr (Bool.not_eq_false _ |>.mp hnb)
        by_cases hc2 : ((shiftOverlap minDur prev.stop s).1).stop -
            ((shiftOverlap minDur prev.stop s).1).start < minDur ∧
            nxt.start ≤ ((shiftOverlap minDur prev.stop s).1).stop + minDur / 2
        · rw [if_pos hc2]
          exact ih (prev :: outTl) _ _ _ h1 h2
        · rw [if_neg hc2]
          exact ih _ _ _ nxt (List.chain'_cons.mpr ⟨hstart, h1⟩)
            (List.chain'_cons.mpr ⟨hmo, h2⟩)

theorem pass2_chains (minDur : ℤ) (l : List Subtitle) :
    List.Chain' NonOverlap (pass2 minDur l).1 ∧
      List.Chain' (MinDurOk minDur) (pass2 minDur l).1 := by
  cases l with
  | nil => simp [pass2]
  | cons s rest =>
    exact pass2go_chains minDur rest [] 0 0 s List.chain'_nil List.chain'_nil

theorem pass3go_eq_of_chain (minDur : ℤ) :
    ∀ (l : List Subtitle) (prev : Subtitle),
      List.Chain' NonOverlap (prev :: l) →
      (pass3go minDur prev l).1 = prev :: l := by
  intro l
  induction l with
  | nil =>
    intro prev _
    simp [pass3go]
  | cons cur rest ih =>
    intro prev h
    rw [List.chain'_cons] at h
    have hno : ¬ cur.start < prev.stop := not_lt.mpr h.1
    simp only [pass3go, if_neg hno]
    rw [ih cur h.2]

theorem pass3_eq_of_chain (minDur : ℤ) (l : List Subtitle)
    (h : List.Chain' NonOverlap l) : (pass3 minDur l).1 = l := by
  cases l with
  | nil => simp [pass3]
  | cons c r => exact pass3go_eq_of_chain minDur r c h

/-- Counterexample to claim C2 as stated: for the input `cexC2` and
`minDuration = 500` ms, a non-final output cue (the middle one, 1000–1200 ms)
has duration 200 ms < 500 ms. -/
theorem fix_timing_and_merge_min_duration_cex :
    ¬ (∀ s ∈ (fix_timing_and_merge cexC2 500).1.dropLast,
        (500 : ℤ) ≤ s.stop - s.start) := by
  decide

/-- Claim C2 (amended): for every input cue list and every `minDuration > 0`,
every adjacent output pair `(a, b)` of `fix_timing_and_merge` has
`duration b ≥ minDuration` unless `a`'s stripped text ends with a
sentence-terminal mark (`. ? ! 。！？`); a short cue whose predecessor ends a
sentence and whose successor is not close enough for a forward merge survives
below the duration floor, so the unconditional claim fails. -/
theorem fix_timing_and_merge_min_duration_amended (subs : List Subtitle)
    (minDur : ℤ) (_hmin : 0 < minDur) :
    List.Chain' (MinDurOk minDur) (fix_timing_and_merge subs minDur).1 := by
  have h := pass2_chains minDur (pass1 minDur subs).1
  have hid := pass3_eq_of_chain minDur _ h.1
  show List.Chain' (MinDurOk minDur)
    (pass3 minDur (pass2 minDur (pass1 minDur subs).1).1).1
  rw [hid]
  exact h.2

/-- Witness for the amended C2 at a concrete input. -/
theorem fix_timing_and_merge_min_duration_amended_witness :
    (0 : ℤ) < 500 ∧
      List.Chain' (MinDurOk 500) (fix_timing_and_merge cexC2 500).1 :=
  ⟨by norm_num, fix_timing_and_merge_min_duration_amended cexC2 500 (by norm_num)⟩

theorem isWS_space : isWS ' ' = true := rfl

theorem tokenizeGo_allWS :
    ∀ (ys : List Char), (∀ c ∈ ys, isWS c = true) → ∀ (cur : List Char),
      tokenizeGo cur ys = if cur.isEmpty then [] else [cur.reverse] := by
  intro ys
  induction ys with
  | nil =>
    intro _ cur
    rfl
  | cons c cs ih =>
    intro h cur
    have hc : isWS c = true := h c (by simp)
    have hcs : ∀ x ∈ cs, isWS x = true := fun x hx => h x (by simp [hx])
    simp only [tokenizeGo, hc, if_true]
    cases hcur : cur.isEmpty <;> simp [hcur, ih hcs]

theorem tokenizeGo_append_ws (ys : List Char) (h : ∀ c ∈ ys, isWS c = true) :
    ∀ (xs cur : List Char), tokenizeGo cur (xs ++ ys) = tokenizeGo cur xs := by
  intro xs
  induction xs with
  | nil =>
    intro cur
    rw [List.nil_append, tokenizeGo_allWS ys h cur]
    rfl
  | cons c cs ih =>
    intro cur
    cases hc : isWS c with
    | true =>
      simp only [List.cons_append, tokenizeGo, hc, if_true]
      cases hcur : cur.isEmpty <;> simp [hcur, ih]
    | false =>
      simp only [List.cons_append, tokenizeGo, hc]
      exact ih (c :: cur)

theorem tokenizeGo_space (ys : List Char) :
    ∀ (xs cur : List Char),
      tokenizeGo cur (xs ++ ' ' :: ys) = tokenizeGo cur xs ++ tokenizeGo [] ys := by
  intro xs
  induction xs with
  | nil =>
    intro cur
    simp only [List.nil_append, tokenizeGo, isWS_space, if_true]
    cases hcur : cur.isEmpty <;> simp [hcur, tokenizeGo]
  | cons c cs ih =>
    intro cur
    cases hc : isWS c with
    | true =>
      simp only [List.cons_append, tokenizeGo, hc, if_true]
      cases hcur : cur.isEmpty <;> simp [hcur, ih]
    | false =>
      simp only [List.cons_append, tokenizeGo, hc]
      exact ih (c :: cur)

theorem tokenize_lstrip (xs : List Char) : tokenize (lstrip xs) = tokenize xs := by
  unfold tokenize lstrip
  induction xs with
  | nil => rfl
  | cons c cs ih =>
    cases hc : isWS c with
    | true =>
      rw [List.dropWhile_cons]
      simp only [hc, if_true]
      rw [ih]
      simp [tokenizeGo, hc]
    | false =>
      rw [List.dropWhile_cons]
      simp [hc]

theorem tokenize_rstrip (xs : List Char) : tokenize (rstrip xs) = tokenize xs := by
  have hsplit : List.takeWhile isWS xs.reverse ++ List.dropWhile isWS xs.reverse
      = xs.reverse := List.takeWhile_append_dropWhile isWS xs.reverse
  have hdecomp : xs = rstrip xs ++ (List.takeWhile isWS xs.reverse).reverse := by
    conv_lhs => rw [← List.reverse_reverse xs, ← hsplit]
    rw [List.reverse_append]
    rfl
  have hws : ∀ c ∈ (List.takeWhile isWS xs.reverse).reverse, isWS c = true := by
    intro c hc
    rw [List.mem_reverse] at hc
    exact List.mem_takeWhile_imp hc
  conv_rhs => rw [hdecomp]
  exact (tokenizeGo_append_ws _ hws (rstrip xs) []).symm

theorem tokenize_mergeText (a b : List Char) :
    tokenize (mergeText a b) = tokenize a ++ tokenize b := by
  unfold mergeText
  have h := tokenizeGo_space (lstrip b) (rstrip a) []
  calc tokenize (rstrip a ++ ' ' :: lstrip b)
      = tokenize (rstrip a) ++ tokenize (lstrip b) := h
    _ = tokenize a ++ tokenize b := by rw [tokenize_rstrip, tokenize_lstrip]

theorem tokensOf_append (l1 l2 : List Subtitle) :
    tokensOf (l1 ++ l2) = tokensOf l1 ++ tokensOf l2 := by
  simp [tokensOf]

theorem tokensOf_cons (s : Subtitle) (l : List Subtitle) :
    tokensOf (s :: l) = tokenize s.content ++ tokensOf l := by
  simp [tokensOf]

theorem tokensOf_nil : tokensOf [] = [] := rfl

theorem tokensOf_singleton (s : Subtitle) :
    tokensOf [s] = tokenize s.content := by
  simp [tokensOf]

theorem pass2go_tokens (minDur : ℤ) :
    ∀ (rest revOut : List Subtitle) (adj mrg : ℕ) (s : Subtitle),
      tokensOf (pass2go minDur rest revOut adj mrg s).1 =
        tokensOf revOut.reverse ++ tokenize s.content ++ tokensOf rest := by
  intro rest
  induction rest with
  | nil =>
    intro revOut adj mrg s
    cases revOut with
    | nil => simp [pass2go, tokensOf]
    | cons prev outTl =>
      simp only [pass2go]
      have hcon : ((shiftOverlap minDur prev.stop s).1).content = s.content :=
        shiftOverlap_content minDur prev.stop s
      by_cases hc : ((shiftOverlap minDur prev.stop s).1).stop -
          ((shiftOverlap minDur prev.stop s).1).start < minDur ∧
          endsWithPunct prev.content = false
      · rw [if_pos hc]
        simp [List.reverse_cons, tokensOf_append, tokensOf_singleton,
          tokensOf_nil, tokenize_mergeText, hcon, List.append_assoc]
      · rw [if_neg hc]
        simp [List.reverse_cons, tokensOf_append, tokensOf_singleton,
          tokensOf_cons, tokensOf_nil, hcon, List.append_assoc]
  | cons nxt rest2 ih =>
    intro revOut adj mrg s
    cases revOut with
    | nil =>
      simp only [pass2go]
      by_cases hc : s.stop - s.start < minDur ∧ nxt.start ≤ s.stop + minDur / 2
      · rw [if_pos hc, ih]
        simp [tokensOf_cons, tokensOf_nil, tokenize_mergeText,
          List.append_assoc]
      · rw [if_neg hc, ih]
        simp [tokensOf_cons, tokensOf_nil, tokensOf_singleton,
          List.append_assoc]
    | cons prev outTl =>
      simp only [pass2go]
      have hcon : ((shiftOverlap minDur prev.stop s).1).content = s.content :=
        shiftOverlap_content minDur prev.stop s
      by_cases hc : ((shiftOverlap minDur prev.stop s).1).stop -
          ((shiftOverlap minDur prev.stop s).1).start < minDur ∧
          endsWithPunct prev.content = false
      · rw [if_pos hc, ih]
        simp [List.reverse_cons, tokensOf_append, tokensOf_singleton,
          tokensOf_nil, tokensOf_cons, tokenize_mergeText, hcon,
          List.append_assoc]
      · rw [if_neg hc]
        by_cases hc2 : ((shiftOverlap minDur prev.stop s).1).stop -
            ((shiftOverlap minDur prev.stop s).1).start < minDur ∧
            nxt.start ≤ ((shiftOverlap minDur prev.stop s).1).stop + minDur / 2
        · rw [if_pos hc2, ih]
          simp [tokensOf_cons, tokensOf_nil, tokenize_mergeText, hcon,
            List.append_assoc]
        · rw [if_neg hc2, ih]
          simp [List.reverse_cons, tokensOf_append, tokensOf_singleton,
            tokensOf_nil, tokensOf_cons, hcon, List.append_assoc]

theorem pass2_tokens (minDur : ℤ) (l : List Subtitle) :
    tokensOf (pass2 minDur l).1 = tokensOf l := by
  cases l with
  | nil => rfl
  | cons s rest =>
    rw [show pass2 minDur (s :: rest) = pass2go minDur rest [] 0 0 s from rfl,
      pass2go_tokens, tokensOf_cons]
    simp [tokensOf_nil]

theorem pass1_tokens (minDur : ℤ) :
    ∀ (l : List Subtitle), tokensOf (pass1 minDur l).1 = tokensOf l := by
  intro l
  induction l with
  | nil => rfl
  | cons s rest ih =>
    simp only [pass1]
    by_cases h : s.stop ≤ s.start <;>
      simp [h, tokensOf_cons, ih]

theorem pass3go_tokens (minDur : ℤ) :
    ∀ (l : List Subtitle) (prev : Subtitle),
      tokensOf (pass3go minDur prev l).1 = tokenize prev.content ++ tokensOf l := by
  intro l
  induction l with
  | nil =>
    intro prev
    simp [pass3go, tokensOf_singleton, tokensOf_nil]
  | cons cur rest ih =>
    intro prev
    simp only [pass3go]
    by_cases h : cur.start < prev.stop <;>
      simp [h, tokensOf_cons, ih, List.append_assoc]

theorem pass3_tokens (minDur : ℤ) (l : List Subtitle) :
    tokensOf (pass3 minDur l).1 = tokensOf l := by
  cases l with
  | nil => rfl
  | cons c rest =>
    rw [show pass3 minDur (c :: rest) = pass3go minDur c rest from rfl,
      pass3go_tokens, tokensOf_cons]

/-- Claim C3: for every input cue list (and every `minDuration`), the
concatenation in original order of all input cues' text equals the
concatenation of all output cues' text of `fix_timing_and_merge` up to
whitespace normalization — formalized as equality of the concatenated
whitespace-separated word lists — so no cue's text is dropped by backward or
forward merging. -/
theorem fix_timing_and_merge_preserves_text (subs : List Subtitle)
    (minDur : ℤ) :
    tokensOf (fix_timing_and_merge subs minDur).1 = tokensOf subs := by
  show tokensOf (pass3 minDur (pass2 minDur (pass1 minDur subs).1).1).1 = _
  rw [pass3_tokens, pass2_tokens, pass1_tokens]

/-- Counterexample to claim C6 as stated: with a pluggable corrector whose
change is later undone by the whitespace normalization (it rewrites
`"你 好"` to `"你  好"`, which collapses back), `conservative_fix_text`
returns the input string byte-for-byte but `changed = True`. -/
theorem conservative_fix_text_changed_cex :
    ¬ (((conservative_fix_text (some fun _ => ['你', ' ', ' ', '好'])
          ['你', ' ', '好'] ['z', 'h'] true).2 = true) ↔
        (conservative_fix_text (some fun _ => ['你', ' ', ' ', '好'])
          ['你', ' ', '好'] ['z', 'h'] true).1 ≠ ['你', ' ', '好']) := by
  decide

/-- Claim C6 (amended): `changed` is true iff the returned string differs
byte-for-byte from the input OR the Chinese-typo correction step reported a
change (`changed = (text != orig) or pycorrector_changed` in the code); the
two conditions coincide except when a corrector change is exactly undone by
the subsequent normalization. -/
theorem conservative_fix_text_changed_amended
    (corr : Option (List Char → List Char)) (text lang : List Char)
    (up : Bool) :
    (conservative_fix_text corr text lang up).2 = true ↔
      ((conservative_fix_text corr text lang up).1 ≠ text ∨
        ((up && lang == ['z', 'h']) = true ∧
          (fix_chinese_typos corr text).2 = true)) := by
  unfold conservative_fix_text
  by_cases hc : (up && lang == ['z', 'h']) = true
  · simp only [hc, if_true, Bool.or_eq_true, decide_eq_true_eq]
    tauto
  · simp only [hc, if_false, Bool.or_eq_true, decide_eq_true_eq]
    simp only [Bool.not_eq_true] at hc
    simp [hc]

/-- Counterexample to claim C8 as stated: on `cexC8` with window size 3, the
context string passed for the second cue is built from the first cue's
already-normalized text (`"Hello, x"`), not from its original text
(`"hello ,x"`). -/
theorem fix_text_with_context_contexts_cex :
    contextsPassed [] 3 0 2 cexC8 ≠ contextsOriginal 3 cexC8 := by
  decide

theorem fixSubContent_context_irrelevant
    (tm : List (List Char × List Char)) (s : Subtitle) (ctx : List Char) :
    fixSubContent tm s ctx = fixSubContent tm s [] := rfl

theorem ftwcGo_map (tm : List (List Char × List Char)) (w : ℕ) :
    ∀ (k i : ℕ) (subs : List Subtitle), i + k = subs.length →
      (ftwcGo tm w i k subs).1 =
        subs.take i ++ (subs.drop i).map (fun s => fixSubContent tm s []) := by
  intro k
  induction k with
  | zero =>
    intro i subs h
    have hi : i = subs.length := by omega
    subst hi
    simp [ftwcGo]
  | succ k ih =>
    intro i subs h
    have hi : i < subs.length := by omega
    have hget : subs.get? i = some (subs.get ⟨i, hi⟩) := List.get?_eq_get hi
    simp only [ftwcGo, hget]
    have hset : subs.set i
        (fixSubContent tm (subs.get ⟨i, hi⟩) (contextAt subs w i)) =
        subs.take i ++
          fixSubContent tm (subs.get ⟨i, hi⟩) (contextAt subs w i) ::
            subs.drop (i + 1) :=
      List.set_eq_take_cons_drop _ hi
    have hlen : i + 1 + k = (subs.set i
        (fixSubContent tm (subs.get ⟨i, hi⟩) (contextAt subs w i))).length := by
      rw [List.length_set]
      omega
    rw [ih (i + 1) _ hlen, hset]
    have hlen_take : (subs.take i).length = i := by
      rw [List.length_take]
      omega
    have e1 : (subs.take i).take (i + 1) = subs.take i :=
      List.take_of_length_le (by rw [hlen_take]; omega)
    have e2 : (subs.take i).drop (i + 1) = [] :=
      List.drop_of_length_le (by rw [hlen_take]; omega)
    have h1 : i + 1 - (subs.take i).length = 1 := by rw [hlen_take]; omega
    rw [List.take_append_eq_append_take, List.drop_append_eq_append_drop,
      h1, e1, e2]
    simp only [List.take_succ_cons, List.take_zero, List.drop_succ_cons,
      List.drop_zero, List.nil_append]
    rw [List.drop_eq_getElem_cons hi]
    simp only [List.map_cons, List.get_eq_getElem]
    rw [List.append_assoc]
    rfl

/-- Claim C8 (amended): the context string for cue `i` is built from the cue
list in its current state, so already-processed neighbors contribute
normalized text (refuted original part); nevertheless the final cue list is
independent of the processing order, because the built-in correction hooks
ignore the context string: the loop result equals an independent per-cue
map. -/
theorem fix_text_with_context_order_independent
    (tm : List (List Char × List Char)) (subs : List Subtitle) (w : ℕ) :
    (fix_text_with_context tm subs w).1 =
      subs.map (fun s => fixSubContent tm s []) := by
  have h := ftwcGo_map tm w subs.length 0 subs (by omega)
  simpa [fix_text_with_context] using h

theorem digitVal?_digitChar (d : ℕ) (h : d < 10) :
    digitVal? (digitChar d) = some d := by
  interval_cases d <;> rfl

theorem isWS_digitChar (d : ℕ) (h : d < 10) : isWS (digitChar d) = false := by
  interval_cases d <;> decide

theorem lstrip_eq_self {cs : List Char}
    (h : ∀ c ∈ cs.head?, isWS c = false) : lstrip cs = cs := by
  cases cs with
  | nil => rfl
  | cons c rest =>
    have hc : isWS c = false := h c rfl
    unfold lstrip
    rw [List.dropWhile_cons, hc]
    simp

theorem rstrip_eq_self {cs : List Char}
    (h : ∀ c ∈ cs.reverse.head?, isWS c = false) : rstrip cs = cs := by
  unfold rstrip
  cases hrev : cs.reverse with
  | nil =>
    rw [List.dropWhile_nil, List.reverse_nil]
    exact (List.reverse_eq_nil_iff.mp hrev).symm
  | cons c rest =>
    have hc : isWS c = false := h c (by rw [hrev]; rfl)
    have hdw : List.dropWhile isWS (c :: rest) = c :: rest := by
      rw [List.dropWhile_cons, hc]
      simp
    rw [hdw, ← hrev, List.reverse_reverse]

theorem strip_eq_self {cs : List Char}
    (h1 : ∀ c ∈ cs.head?, isWS c = false)
    (h2 : ∀ c ∈ cs.reverse.head?, isWS c = false) : strip cs = cs := by
  unfold strip
  rw [lstrip_eq_self h1]
  exact rstrip_eq_self h2

theorem renderNatGo_zero (f : ℕ) : renderNatGo f 0 = [] := by
  cases f <;> rfl

theorem renderNatGo_small (f m : ℕ) (hm : 0 < m) (h10 : m < 10) (hf : 0 < f) :
    renderNatGo f m = [digitChar m] := by
  cases f with
  | zero => omega
  | succ g =>
    simp only [renderNatGo, if_neg (by omega : ¬ m = 0)]
    rw [Nat.div_eq_of_lt h10, renderNatGo_zero, Nat.mod_eq_of_lt h10]
    simp

theorem renderNatGo_2digit (f m : ℕ) (h1 : 10 ≤ m) (h2 : m < 100)
    (hf : m ≤ f) :
    renderNatGo f m = [digitChar (m / 10), digitChar (m % 10)] := by
  cases f with
  | zero => omega
  | succ g =>
    simp only [renderNatGo, if_neg (by omega : ¬ m = 0)]
    rw [renderNatGo_small g (m / 10) (by omega) (by omega) (by omega)]
    simp

theorem renderNat_lt10 (n : ℕ) (h : n < 10) : renderNat n = [digitChar n] := by
  by_cases h0 : n = 0
  · subst h0
    rfl
  · unfold renderNat
    rw [if_neg h0]
    exact renderNatGo_small n n (by omega) h (by omega)

theorem renderNat_2digit (n : ℕ) (h1 : 10 ≤ n) (h2 : n < 100) :
    renderNat n = [digitChar (n / 10), digitChar (n % 10)] := by
  unfold renderNat
  rw [if_neg (by omega)]
  exact renderNatGo_2digit n n h1 h2 (le_refl n)

theorem renderNat_3digit (n : ℕ) (h1 : 100 ≤ n) (h2 : n < 1000) :
    renderNat n =
      [digitChar (n / 100), digitChar (n / 10 % 10), digitChar (n % 10)] := by
  unfold renderNat
  rw [if_neg (by omega)]
  obtain ⟨f, rfl⟩ : ∃ f, n = f + 1 := ⟨n - 1, by omega⟩
  simp only [renderNatGo, if_neg (by omega : ¬ f + 1 = 0)]
  rw [renderNatGo_2digit f ((f + 1) / 10) (by omega) (by omega) (by omega)]
  have e : (f + 1) / 10 / 10 = (f + 1) / 100 := by
    rw [Nat.div_div_eq_div_mul]
  rw [e]
  simp

theorem pad2_digits (v1 v2 : ℕ) (h1 : v1 < 10) (h2 : v2 < 10) :
    padStr 2 (renderNat (10 * v1 + v2)) = [digitChar v1, digitChar v2] := by
  by_cases hv : v1 = 0
  · subst hv
    rw [show 10 * 0 + v2 = v2 by omega, renderNat_lt10 v2 h2]
    simp [padStr, List.replicate]
    rfl
  · rw [renderNat_2digit (10 * v1 + v2) (by omega) (by omega)]
    rw [show (10 * v1 + v2) / 10 = v1 by omega,
      show (10 * v1 + v2) % 10 = v2 by omega]
    simp [padStr]

theorem pad3_digits (y1 y2 y3 : ℕ) (h1 : y1 < 10) (h2 : y2 < 10)
    (h3 : y3 < 10) :
    padStr 3 (renderNat (100 * y1 + 10 * y2 + y3)) =
      [digitChar y1, digitChar y2, digitChar y3] := by
  by_cases hy1 : y1 = 0
  · subst hy1
    by_cases hy2 : y2 = 0
    · subst hy2
      rw [show 100 * 0 + 10 * 0 + y3 = y3 by omega, renderNat_lt10 y3 h3]
      simp [padStr, List.replicate]
      rfl
    · rw [show 100 * 0 + 10 * y2 + y3 = 10 * y2 + y3 by omega,
        renderNat_2digit (10 * y2 + y3) (by omega) (by omega)]
      rw [show (10 * y2 + y3) / 10 = y2 by omega,
        show (10 * y2 + y3) % 10 = y3 by omega]
      simp [padStr, List.replicate]
      rfl
  · rw [renderNat_3digit (100 * y1 + 10 * y2 + y3) (by omega) (by omega)]
    rw [show (100 * y1 + 10 * y2 + y3) / 100 = y1 by omega,
      show (100 * y1 + 10 * y2 + y3) / 10 % 10 = y2 by omega,
      show (100 * y1 + 10 * y2 + y3) % 10 = y3 by omega]
    simp [padStr]

theorem strip_tsStr (v1 v2 w1 w2 x1 x2 y1 y2 y3 : ℕ) (sep : Char)
    (hv1 : v1 < 10) (hy3 : y3 < 10) :
    strip (tsStr v1 v2 w1 w2 x1 x2 y1 y2 y3 sep) =
      tsStr v1 v2 w1 w2 x1 x2 y1 y2 y3 sep := by
  apply strip_eq_self
  · intro c hc
    simp only [tsStr, List.head?_cons, Option.mem_def, Option.some.injEq] at hc
    subst hc
    exact isWS_digitChar v1 hv1
  · intro c hc
    simp only [tsStr, List.reverse_cons, List.reverse_nil] at hc
    simp only [List.nil_append, List.cons_append, List.head?_cons,
      Option.mem_def, Option.some.injEq] at hc
    subst hc
    exact isWS_digitChar y3 hy3

theorem format_timestamp_tsVal (v1 v2 w1 w2 x1 x2 y1 y2 y3 : ℕ)
    (fmt : List Char) (hv1 : v1 < 10) (hv2 : v2 < 10) (hw1 : w1 < 6)
    (hw2 : w2 < 10) (hx1 : x1 < 6) (hx2 : x2 < 10) (hy1 : y1 < 10)
    (hy2 : y2 < 10) (hy3 : y3 < 10)
    (hpy : pyMs ((10 * v1 + v2) * 3600000 + (10 * w1 + w2) * 60000 +
        (10 * x1 + x2) * 1000 + (100 * y1 + 10 * y2 + y3)) =
      (10 * v1 + v2) * 3600000 + (10 * w1 + w2) * 60000 +
        (10 * x1 + x2) * 1000 + (100 * y1 + 10 * y2 + y3)) :
    format_timestamp (tsVal v1 v2 w1 w2 x1 x2 y1 y2 y3) fmt =
      tsStr v1 v2 w1 w2 x1 x2 y1 y2 y3
        (if fmt == ['v', 't', 't'] then '.' else ',') := by
  have hts : tsVal v1 v2 w1 w2 x1 x2 y1 y2 y3 =
      (((10 * v1 + v2) * 3600000 + (10 * w1 + w2) * 60000 +
        (10 * x1 + x2) * 1000 + (100 * y1 + 10 * y2 + y3) : ℕ) : ℤ) := by
    unfold tsVal
    push_cast
    ring
  have hneg : ((((10 * v1 + v2) * 3600000 + (10 * w1 + w2) * 60000 +
      (10 * x1 + x2) * 1000 + (100 * y1 + 10 * y2 + y3) : ℕ) : ℤ) < 0) =
      False :=
    eq_false (not_lt.mpr (Int.natCast_nonneg _))
  simp only [format_timestamp, hts, hneg, if_false, Int.toNat_natCast]
  rw [hpy]
  rw [show ((10 * v1 + v2) * 3600000 + (10 * w1 + w2) * 60000 +
        (10 * x1 + x2) * 1000 + (100 * y1 + 10 * y2 + y3)) % 1000 =
      100 * y1 + 10 * y2 + y3 by omega]
  rw [show ((10 * v1 + v2) * 3600000 + (10 * w1 + w2) * 60000 +
        (10 * x1 + x2) * 1000 + (100 * y1 + 10 * y2 + y3)) / 1000 % 60 =
      10 * x1 + x2 by omega]
  rw [show ((10 * v1 + v2) * 3600000 + (10 * w1 + w2) * 60000 +
        (10 * x1 + x2) * 1000 + (100 * y1 + 10 * y2 + y3)) / (1000 * 60) % 60 =
      10 * w1 + w2 by omega]
  rw [show ((10 * v1 + v2) * 3600000 + (10 * w1 + w2) * 60000 +
        (10 * x1 + x2) * 1000 + (100 * y1 + 10 * y2 + y3)) / (1000 * 60 * 60) =
      10 * v1 + v2 by omega]
  rw [pad2_digits v1 v2 hv1 hv2, pad2_digits w1 w2 (by omega) hw2,
    pad2_digits x1 x2 (by omega) hx2, pad3_digits y1 y2 y3 hy1 hy2 hy3]
  rfl

/-- Counterexample to claim C4 as stated, in two parts.  `"00:00:99,000"`
has the claimed valid shape (two-digit hour/minute/second, three-digit
milliseconds, comma separator), `parse_timestamp` accepts it, but
`timedelta` normalizes the 99 seconds, so the round trip renders
`"00:01:39,000"` instead of the canonical form of the input.  And
`"00:00:01,001"` has minute and second fields in range, parses to 1001 ms,
yet renders back as `"00:00:01,000"`: the float detour
`int(total_seconds() * 1000)` truncates 1001 ms to 1000. -/
theorem parse_format_roundtrip_cex :
    (parse_timestamp
        ['0', '0', ':', '0', '0', ':', '9', '9', ',', '0', '0', '0']
        ['s', 'r', 't'] = some 99000 ∧
      format_timestamp 99000 ['s', 'r', 't'] ≠
        canonicalTS ','
          ['0', '0', ':', '0', '0', ':', '9', '9', ',', '0', '0', '0']) ∧
    (parse_timestamp
        ['0', '0', ':', '0', '0', ':', '0', '1', ',', '0', '0', '1']
        ['s', 'r', 't'] = some 1001 ∧
      format_timestamp 1001 ['s', 'r', 't'] =
        ['0', '0', ':', '0', '0', ':', '0', '1', ',', '0', '0', '0']) := by
  decide

/-- Claim C4 (amended): for every timestamp string of either separator style
whose minute and second fields are at most 59 and whose millisecond value
survives the float detour `int(total_seconds() * 1000)` exactly, and each
format in `{srt, vtt}`, `parse_timestamp` accepts the string and
`format_timestamp` of the parsed value is the canonical rendering in the
format's separator style; and `format_timestamp` maps any negative duration
to `00:00:00` with zero milliseconds.  (Without the minute/second bound the
round trip fails because `timedelta` normalizes out-of-range fields, and
without the float-exactness condition it fails because the float detour
truncates many whole-millisecond values by one, e.g. 1001 ms.) -/
theorem parse_format_roundtrip_amended :
    (∀ (v1 v2 w1 w2 x1 x2 y1 y2 y3 : ℕ) (sep : Char) (fmt : List Char),
      v1 < 10 → v2 < 10 → w1 < 6 → w2 < 10 → x1 < 6 → x2 < 10 →
      y1 < 10 → y2 < 10 → y3 < 10 →
      pyMs (tsVal v1 v2 w1 w2 x1 x2 y1 y2 y3).toNat =
        (tsVal v1 v2 w1 w2 x1 x2 y1 y2 y3).toNat →
      sep = ',' ∨ sep = '.' →
      fmt = ['s', 'r', 't'] ∨ fmt = ['v', 't', 't'] →
      parse_timestamp (tsStr v1 v2 w1 w2 x1 x2 y1 y2 y3 sep) fmt =
          some (tsVal v1 v2 w1 w2 x1 x2 y1 y2 y3) ∧
        format_timestamp (tsVal v1 v2 w1 w2 x1 x2 y1 y2 y3) fmt =
          canonicalTS (if fmt == ['v', 't', 't'] then '.' else ',')
            (tsStr v1 v2 w1 w2 x1 x2 y1 y2 y3 sep)) ∧
    (∀ (t : ℤ) (fmt : List Char), t < 0 →
      format_timestamp t fmt =
        ['0', '0', ':', '0', '0', ':', '0', '0'] ++
          (if fmt == ['v', 't', 't'] then '.' else ',') ::
            ['0', '0', '0']) := by
  constructor
  · intro v1 v2 w1 w2 x1 x2 y1 y2 y3 sep fmt hv1 hv2 hw1 hw2 hx1 hx2 hy1
      hy2 hy3 hpy hsep hfmt
    have hNat : (tsVal v1 v2 w1 w2 x1 x2 y1 y2 y3).toNat =
        (10 * v1 + v2) * 3600000 + (10 * w1 + w2) * 60000 +
          (10 * x1 + x2) * 1000 + (100 * y1 + 10 * y2 + y3) := by
      unfold tsVal
      omega
    rw [hNat] at hpy
    have hstrip := strip_tsStr v1 v2 w1 w2 x1 x2 y1 y2 y3 sep hv1 hy3
    simp only [tsStr] at hstrip
    constructor
    · rcases hsep with rfl | rfl <;> rcases hfmt with rfl | rfl <;>
        · simp [parse_timestamp, hstrip, tsStr, matchTimestamp, digit2?,
            digit3?, digitVal?_digitChar v1 hv1, digitVal?_digitChar v2 hv2,
            digitVal?_digitChar w1 (by omega), digitVal?_digitChar w2 hw2,
            digitVal?_digitChar x1 (by omega), digitVal?_digitChar x2 hx2,
            digitVal?_digitChar y1 hy1, digitVal?_digitChar y2 hy2,
            digitVal?_digitChar y3 hy3, tsVal]
          try push_cast
          try ring
    · rw [format_timestamp_tsVal v1 v2 w1 w2 x1 x2 y1 y2 y3 fmt hv1 hv2 hw1
        hw2 hx1 hx2 hy1 hy2 hy3 hpy]
      rcases hfmt with rfl | rfl <;> simp [tsStr, canonicalTS]
  · intro t fmt h
    simp only [format_timestamp]
    rw [if_pos h]
    rfl

/-- Witness for the amended C4 at the concrete timestamp `"01:23:45,678"`
(both format targets) and at a negative duration. -/
theorem parse_format_roundtrip_amended_witness :
    (parse_timestamp (tsStr 0 1 2 3 4 5 6 7 8 ',') ['s', 'r', 't'] =
        some (tsVal 0 1 2 3 4 5 6 7 8) ∧
      format_timestamp (tsVal 0 1 2 3 4 5 6 7 8) ['s', 'r', 't'] =
        canonicalTS (if ['s', 'r', 't'] == ['v', 't', 't'] then '.' else ',')
          (tsStr 0 1 2 3 4 5 6 7 8 ',')) ∧
    format_timestamp (-5) ['v', 't', 't'] =
      ['0', '0', ':', '0', '0', ':', '0', '0'] ++
        (if ['v', 't', 't'] == ['v', 't', 't'] then '.' else ',') ::
          ['0', '0', '0'] :=
  ⟨parse_format_roundtrip_amended.1 0 1 2 3 4 5 6 7 8 ',' ['s', 'r', 't']
      (by norm_num) (by norm_num) (by norm_num) (by norm_num) (by norm_num)
      (by norm_num) (by norm_num) (by norm_num) (by norm_num) (by decide)
      (Or.inl rfl) (Or.inl rfl),
    parse_format_roundtrip_amended.2 (-5) ['v', 't', 't'] (by norm_num)⟩

/-- Witness for C1 at a concrete disordered input. -/
theorem fix_timing_and_merge_nonoverlap_witness :
    (0 : ℤ) < 500 ∧
      List.Chain' NonOverlap
        (fix_timing_and_merge
          [⟨1, 0, 400, ['H', 'i']⟩, ⟨2, 300, 1200, ['t', 'o']⟩,
           ⟨3, 900, 900, ['x']⟩] 500).1 :=
  ⟨by norm_num,
    fix_timing_and_merge_nonoverlap
      [⟨1, 0, 400, ['H', 'i']⟩, ⟨2, 300, 1200, ['t', 'o']⟩,
       ⟨3, 900, 900, ['x']⟩] 500 (by norm_num)⟩

/-- Claim C5 (counterexample): on a file whose middle block has the
malformed time line `00:00:03,000 --> bad`, `read_srt` returns no cue list
at all — the `ValueError` raised by `parse_timestamp` is not caught, so the
whole file is aborted instead of the block being skipped; the same file with
the malformed block removed reads fine, so the abort is attributable to that
block alone. -/
theorem read_srt_skip_malformed_cex :
    read_srt cexC5text ['s', 'r', 't'] = none ∧
      read_srt cexC5ok ['s', 'r', 't'] =
        some [⟨1, 1000, 2000, ['H', 'e', 'l', 'l', 'o']⟩,
          ⟨3, 5000, 6000, ['B', 'y', 'e']⟩] :=
  ⟨rfl, rfl⟩

/-- Claim C5 (amended): blocks with fewer than two lines and blocks whose
candidate time line contains no `-->` are locally skipped, but an
unparsable timestamp in a `-->` time line (or a time line that does not
split on `-->` into exactly two parts) aborts the whole read: the block
loop of `read_srt` returns no cue list exactly when some block of the file
is bad in this sense, whatever the position of that block. -/
theorem read_blocks_none_iff (format : List Char) :
    ∀ (n : ℕ) (parts : List (List Char)),
      (read_blocks format n parts = none ↔
        ∃ part ∈ parts, badBlock format part = true) := by
  intro n parts
  induction parts generalizing n with
  | nil => simp [read_blocks]
  | cons part parts ih =>
    cases hsp : splitlines (strip part) with
    | nil =>
      have hbad : badBlock format part = false := by simp [badBlock, hsp]
      simp [read_blocks, hsp, hbad, ih n]
    | cons l0 rest1 =>
      cases rest1 with
      | nil =>
        have hbad : badBlock format part = false := by simp [badBlock, hsp]
        simp [read_blocks, hsp, hbad, ih n]
      | cons l1 rest2 =>
        cases hpi : parseInt? (strip l0) with
        | none =>
          cases harv : containsSeq ['-', '-', '>'] l0 with
          | false =>
            have hbad : badBlock format part = false := by
              simp [badBlock, hsp, hpi, harv]
            simp [read_blocks, hsp, hpi, harv, hbad, ih n]
          | true =>
            cases hsa : splitArrow l0 with
            | nil =>
              have hbad : badBlock format part = true := by
                simp [badBlock, hsp, hpi, harv, hsa]
              simp [read_blocks, hsp, hpi, harv, hsa, hbad]
            | cons a rest3 =>
              cases rest3 with
              | nil =>
                have hbad : badBlock format part = true := by
                  simp [badBlock, hsp, hpi, harv, hsa]
                simp [read_blocks, hsp, hpi, harv, hsa, hbad]
              | cons b rest4 =>
                cases rest4 with
                | nil =>
                  cases hpa : parse_timestamp (strip a) format with
                  | none =>
                    have hbad : badBlock format part = true := by
                      simp [badBlock, hsp, hpi, harv, hsa, hpa]
                    simp [read_blocks, hsp, hpi, harv, hsa, hpa, hbad]
                  | some st =>
                    cases hpb : parse_timestamp (strip b) format with
                    | none =>
                      have hbad : badBlock format part = true := by
                        simp [badBlock, hsp, hpi, harv, hsa, hpa, hpb]
                      simp [read_blocks, hsp, hpi, harv, hsa, hpa, hpb, hbad]
                    | some en =>
                      have hbad : badBlock format part = false := by
                        simp [badBlock, hsp, hpi, harv, hsa, hpa, hpb]
                      simp [read_blocks, hsp, hpi, harv, hsa, hpa, hpb, hbad,
                        Option.map_eq_none', ih (n + 1)]
                | cons c rest5 =>
                  have hbad : badBlock format part = true := by
                    simp [badBlock, hsp, hpi, harv, hsa]
                  simp [read_blocks, hsp, hpi, harv, hsa, hbad]
        | some idx =>
          cases harv : containsSeq ['-', '-', '>'] l1 with
          | false =>
            have hbad : badBlock format part = false := by
              simp [badBlock, hsp, hpi, harv]
            simp [read_blocks, hsp, hpi, harv, hbad, ih n]
          | true =>
            cases hsa : splitArrow l1 with
            | nil =>
              have hbad : badBlock format part = true := by
                simp [badBlock, hsp, hpi, harv, hsa]
              simp [read_blocks, hsp, hpi, harv, hsa, hbad]
            | cons a rest3 =>
              cases rest3 with
              | nil =>
                have hbad : badBlock format part = true := by
                  simp [badBlock, hsp, hpi, harv, hsa]
                simp [read_blocks, hsp, hpi, harv, hsa, hbad]
              | cons b rest4 =>
                cases rest4 with
                | nil =>
                  cases hpa : parse_timestamp (strip a) format with
                  | none =>
                    have hbad : badBlock format part = true := by
                      simp [badBlock, hsp, hpi, harv, hsa, hpa]
                    simp [read_blocks, hsp, hpi, harv, hsa, hpa, hbad]
                  | some st =>
                    cases hpb : parse_timestamp (strip b) format with
                    | none =>
                      have hbad : badBlock format part = true := by
                        simp [badBlock, hsp, hpi, harv, hsa, hpa, hpb]
                      simp [read_blocks, hsp, hpi, harv, hsa, hpa, hpb, hbad]
                    | some en =>
                      have hbad : badBlock format part = false := by
                        simp [badBlock, hsp, hpi, harv, hsa, hpa, hpb]
                      simp [read_blocks, hsp, hpi, harv, hsa, hpa, hpb, hbad,
                        Option.map_eq_none', ih (n + 1)]
                | cons c rest5 =>
                  have hbad : badBlock format part = true := by
                    simp [badBlock, hsp, hpi, harv, hsa]
                  simp [read_blocks, hsp, hpi, harv, hsa, hbad]

end FixSrt

namespace SrtToVtt

open FixSrt

theorem isDigitB_digitChar (d : ℕ) (h : d < 10) :
    isDigitB (digitChar d) = true := by
  simp [isDigitB, digitVal?_digitChar d h]

theorem isDigitB_colon : isDigitB ':' = false := by decide

theorem isDigitB_space : isDigitB ' ' = false := by decide

theorem digitChar_beq_colon (d : ℕ) (h : d < 10) :
    (digitChar d == ':') = false := by
  interval_cases d <;> decide

theorem digitChar_beq_dot (d : ℕ) (h : d < 10) :
    (digitChar d == '.') = false := by
  interval_cases d <;> decide

theorem dot_beq_digitChar (d : ℕ) (h : d < 10) :
    (('.' : Char) == digitChar d) = false := by
  interval_cases d <;> decide

theorem digitChar_ne_comma (d : ℕ) (h : d < 10) : digitChar d ≠ ',' := by
  interval_cases d <;> decide

theorem colon_ne_comma : (':' : Char) ≠ ',' := by decide

theorem dot_ne_comma : ('.' : Char) ≠ ',' := by decide

theorem colon_beq_colon : ((':' : Char) == ':') = true := by decide

theorem dot_beq_colon : (('.' : Char) == ':') = false := by decide

theorem dot_beq_dot : (('.' : Char) == '.') = true := by decide

theorem wsSpace : isWS ' ' = true := by decide

theorem wsDash : isWS '-' = false := by decide

theorem matchSep_sep (sep : Char) (h : sep = ',' ∨ sep = '.') (r : List Char) :
    matchSep (sep :: r) = some (sep, r) := by
  rcases h with rfl | rfl <;> rfl

theorem matchColon2_ne (c : Char) (cs : List Char) (hc : ¬ c = ':') :
    matchColon2 (c :: cs) = none := by
  unfold matchColon2
  split
  · rename_i a b r heq
    injection heq with h1 _
    exact absurd h1 hc
  · rfl

theorem head_shape {α : Type} {l : List α} {a : α} (h : l.head? = some a) :
    ∃ r, l = a :: r := by
  cases l with
  | nil => exact absurd h (by simp)
  | cons b r =>
    simp only [List.head?_cons, Option.some.injEq] at h
    exact ⟨r, by rw [h]⟩

theorem chars_shape (t : LooseTS) (hok : t.Ok) :
    ∃ d r, d < 10 ∧ t.chars = digitChar d :: r := by
  obtain ⟨h1, h2, w1, w2, x1, x2, sep, y1, ytl⟩ := t
  obtain ⟨hd1, hh2, _⟩ := hok
  cases h1 with
  | none => exact ⟨h2, _, hh2, rfl⟩
  | some d => exact ⟨d, _, hd1 d rfl, rfl⟩

theorem matchTimeTok_head (t : LooseTS) (hok : t.Ok) (tail : List Char)
    (htail : tail = [] ∨ ∃ r, tail = ' ' :: r) :
    (matchTimeTok (t.chars ++ tail)).head? = some (t.chars, tail) := by
  obtain ⟨h1, h2, w1, w2, x1, x2, sep, y1, ytl⟩ := t
  obtain ⟨hd1, hh2, hw1, hw2, hx1, hx2, hy1, hytl, hlen, hsep⟩ := hok
  have hsepEq := matchSep_sep sep hsep
  have eh2 := isDigitB_digitChar h2 hh2
  have ew1 := isDigitB_digitChar w1 hw1
  have ew2 := isDigitB_digitChar w2 hw2
  have ex1 := isDigitB_digitChar x1 hx1
  have ex2 := isDigitB_digitChar x2 hx2
  have ey1 := isDigitB_digitChar y1 hy1
  rcases ytl with _ | ⟨a, _ | ⟨b, _ | ⟨c, ytl4⟩⟩⟩
  · rcases h1 with _ | d
    · rcases htail with rfl | ⟨r, rfl⟩
      · simp [LooseTS.chars, matchTimeTok, matchHH, matchMS, matchColon2,
          hsepEq, eh2, ew1, ew2, ex1, ex2, ey1, isDigitB_colon]
      · rcases r with _ | ⟨c2, r2⟩
        · simp [LooseTS.chars, matchTimeTok, matchHH, matchMS, matchColon2,
            hsepEq, eh2, ew1, ew2, ex1, ex2, ey1, isDigitB_colon,
            isDigitB_space]
        · simp [LooseTS.chars, matchTimeTok, matchHH, matchMS, matchColon2,
            hsepEq, eh2, ew1, ew2, ex1, ex2, ey1, isDigitB_colon,
            isDigitB_space]
    · have ed := isDigitB_digitChar d (hd1 d rfl)
      rcases htail with rfl | ⟨r, rfl⟩
      · simp [LooseTS.chars, matchTimeTok, matchHH, matchMS, matchColon2,
          hsepEq, eh2, ew1, ew2, ex1, ex2, ey1, ed, isDigitB_colon]
      · rcases r with _ | ⟨c2, r2⟩
        · simp [LooseTS.chars, matchTimeTok, matchHH, matchMS, matchColon2,
            hsepEq, eh2, ew1, ew2, ex1, ex2, ey1, ed, isDigitB_colon,
            isDigitB_space]
        · simp [LooseTS.chars, matchTimeTok, matchHH, matchMS, matchColon2,
            hsepEq, eh2, ew1, ew2, ex1, ex2, ey1, ed, isDigitB_colon,
            isDigitB_space]
  · have ea := isDigitB_digitChar a (hytl a (by simp))
    rcases h1 with _ | d
    · rcases htail with rfl | ⟨r, rfl⟩
      · simp [LooseTS.chars, matchTimeTok, matchHH, matchMS, matchColon2,
          hsepEq, eh2, ew1, ew2, ex1, ex2, ey1, ea, isDigitB_colon]
      · simp [LooseTS.chars, matchTimeTok, matchHH, matchMS, matchColon2,
          hsepEq, eh2, ew1, ew2, ex1, ex2, ey1, ea, isDigitB_colon,
          isDigitB_space]
    · have ed := isDigitB_digitChar d (hd1 d rfl)
      rcases htail with rfl | ⟨r, rfl⟩
      · simp [LooseTS.chars, matchTimeTok, matchHH, matchMS, matchColon2,
          hsepEq, eh2, ew1, ew2, ex1, ex2, ey1, ea, ed, isDigitB_colon]
      · simp [LooseTS.chars, matchTimeTok, matchHH, matchMS, matchColon2,
          hsepEq, eh2, ew1, ew2, ex1, ex2, ey1, ea, ed, isDigitB_colon,
          isDigitB_space]
  · have ea := isDigitB_digitChar a (hytl a (by simp))
    have eb := isDigitB_digitChar b (hytl b (by simp))
    rcases h1 with _ | d
    · rcases htail with rfl | ⟨r, rfl⟩
      · simp [LooseTS.chars, matchTimeTok, matchHH, matchMS, matchColon2,
          hsepEq, eh2, ew1, ew2, ex1, ex2, ey1, ea, eb, isDigitB_colon]
      · simp [LooseTS.chars, matchTimeTok, matchHH, matchMS, matchColon2,
          hsepEq, eh2, ew1, ew2, ex1, ex2, ey1, ea, eb, isDigitB_colon,
          isDigitB_space]
    · have ed := isDigitB_digitChar d (hd1 d rfl)
      rcases htail with rfl | ⟨r, rfl⟩
      · simp [LooseTS.chars, matchTimeTok, matchHH, matchMS, matchColon2,
          hsepEq, eh2, ew1, ew2, ex1, ex2, ey1, ea, eb, ed, isDigitB_colon]
      · simp [LooseTS.chars, matchTimeTok, matchHH, matchMS, matchColon2,
          hsepEq, eh2, ew1, ew2, ex1, ex2, ey1, ea, eb, ed, isDigitB_colon,
          isDigitB_space]
  · exact absurd hlen (by simp)

theorem matchTimePair_loose (A B : LooseTS) (hA : A.Ok) (hB : B.Ok) :
    matchTimePair (A.chars ++ ' ' :: '-' :: '-' :: '>' :: ' ' :: B.chars) =
      some (A.chars, B.chars) := by
  obtain ⟨e, rB, heB, hBc⟩ := chars_shape B hB
  have htokA := matchTimeTok_head A hA
    (' ' :: '-' :: '-' :: '>' :: ' ' :: B.chars) (Or.inr ⟨_, rfl⟩)
  obtain ⟨restA, hA2⟩ := head_shape htokA
  have htokB := matchTimeTok_head B hB [] (Or.inl rfl)
  rw [List.append_nil] at htokB
  obtain ⟨restB, hB2⟩ := head_shape htokB
  have harrow : matchArrowTail (' ' :: '-' :: '-' :: '>' :: ' ' :: B.chars) =
      some B.chars := by
    rw [hBc]
    simp [matchArrowTail, List.dropWhile, wsSpace, wsDash,
      isWS_digitChar e heB]
  unfold matchTimePair
  rw [hA2]
  simp only [List.findSome?_cons]
  rw [harrow]
  simp only [hB2]

theorem searchTimePair_loose (A B : LooseTS) (hA : A.Ok) (hB : B.Ok) :
    searchTimePair (A.chars ++ ' ' :: '-' :: '-' :: '>' :: ' ' :: B.chars) =
      some (A.chars, B.chars) := by
  obtain ⟨d, rA, hdA, hAc⟩ := chars_shape A hA
  have hm := matchTimePair_loose A B hA hB
  rw [hAc, List.cons_append] at hm ⊢
  simp only [searchTimePair]
  rw [hm]

theorem normalize_loose (t : LooseTS) (hok : t.Ok) :
    normalize_time t.chars = some t.norm := by
  obtain ⟨h1, h2, w1, w2, x1, x2, sep, y1, ytl⟩ := t
  obtain ⟨hd1, hh2, hw1, hw2, hx1, hx2, hy1, hytl, hlen, hsep⟩ := hok
  rcases ytl with _ | ⟨a, _ | ⟨b, _ | ⟨c, ytl4⟩⟩⟩
  · rcases h1 with _ | d
    · rcases hsep with rfl | rfl
      · simp [LooseTS.chars, LooseTS.norm, normalize_time, strip, lstrip,
          rstrip, List.dropWhile, List.splitOn, List.splitOnP_cons,
          List.splitOnP_nil, isWS_digitChar, digitChar_beq_colon,
          digitChar_beq_dot, dot_beq_digitChar, digitChar_ne_comma,
          colon_ne_comma, dot_ne_comma, colon_beq_colon, dot_beq_colon,
          dot_beq_dot, hh2, hw1, hw2, hx1, hx2, hy1]
      · simp [LooseTS.chars, LooseTS.norm, normalize_time, strip, lstrip,
          rstrip, List.dropWhile, List.splitOn, List.splitOnP_cons,
          List.splitOnP_nil, isWS_digitChar, digitChar_beq_colon,
          digitChar_beq_dot, dot_beq_digitChar, digitChar_ne_comma,
          colon_ne_comma, dot_ne_comma, colon_beq_colon, dot_beq_colon,
          dot_beq_dot, hh2, hw1, hw2, hx1, hx2, hy1]
    · have hd : d < 10 := hd1 d rfl
      rcases hsep with rfl | rfl
      · simp [LooseTS.chars, LooseTS.norm, normalize_time, strip, lstrip,
          rstrip, List.dropWhile, List.splitOn, List.splitOnP_cons,
          List.splitOnP_nil, isWS_digitChar, digitChar_beq_colon,
          digitChar_beq_dot, dot_beq_digitChar, digitChar_ne_comma,
          colon_ne_comma, dot_ne_comma, colon_beq_colon, dot_beq_colon,
          dot_beq_dot, hh2, hw1, hw2, hx1, hx2, hy1, hd]
      · simp [LooseTS.chars, LooseTS.norm, normalize_time, strip, lstrip,
          rstrip, List.dropWhile, List.splitOn, List.splitOnP_cons,
          List.splitOnP_nil, isWS_digitChar, digitChar_beq_colon,
          digitChar_beq_dot, dot_beq_digitChar, digitChar_ne_comma,
          colon_ne_comma, dot_ne_comma, colon_beq_colon, dot_beq_colon,
          dot_beq_dot, hh2, hw1, hw2, hx1, hx2, hy1, hd]
  · have ha : a < 10 := hytl a (by simp)
    rcases h1 with _ | d
    · rcases hsep with rfl | rfl
      · simp [LooseTS.chars, LooseTS.norm, normalize_time, strip, lstrip,
          rstrip, List.dropWhile, List.splitOn, List.splitOnP_cons,
          List.splitOnP_nil, isWS_digitChar, digitChar_beq_colon,
          digitChar_beq_dot, dot_beq_digitChar, digitChar_ne_comma,
          colon_ne_comma, dot_ne_comma, colon_beq_colon, dot_beq_colon,
          dot_beq_dot, hh2, hw1, hw2, hx1, hx2, hy1, ha]
      · simp [LooseTS.chars, LooseTS.norm, normalize_time, strip, lstrip,
          rstrip, List.dropWhile, List.splitOn, List.splitOnP_cons,
          List.splitOnP_nil, isWS_digitChar, digitChar_beq_colon,
          digitChar_beq_dot, dot_beq_digitChar, digitChar_ne_comma,
          colon_ne_comma, dot_ne_comma, colon_beq_colon, dot_beq_colon,
          dot_beq_dot, hh2, hw1, hw2, hx1, hx2, hy1, ha]
    · have hd : d < 10 := hd1 d rfl
      rcases hsep with rfl | rfl
      · simp [LooseTS.chars, LooseTS.norm, normalize_time, strip, lstrip,
          rstrip, List.dropWhile, List.splitOn, List.splitOnP_cons,
          List.splitOnP_nil, isWS_digitChar, digitChar_beq_colon,
          digitChar_beq_dot, dot_beq_digitChar, digitChar_ne_comma,
          colon_ne_comma, dot_ne_comma, colon_beq_colon, dot_beq_colon,
          dot_beq_dot, hh2, hw1, hw2, hx1, hx2, hy1, ha, hd]
      · simp [LooseTS.chars, LooseTS.norm, normalize_time, strip, lstrip,
          rstrip, List.dropWhile, List.splitOn, List.splitOnP_cons,
          List.splitOnP_nil, isWS_digitChar, digitChar_beq_colon,
          digitChar_beq_dot, dot_beq_digitChar, digitChar_ne_comma,
          colon_ne_comma, dot_ne_comma, colon_beq_colon, dot_beq_colon,
          dot_beq_dot, hh2, hw1, hw2, hx1, hx2, hy1, ha, hd]
  · have ha : a < 10 := hytl a (by simp)
    have hb : b < 10 := hytl b (by simp)
    rcases h1 with _ | d
    · rcases hsep with rfl | rfl
      · simp [LooseTS.chars, LooseTS.norm, normalize_time, strip, lstrip,
          rstrip, List.dropWhile, List.splitOn, List.splitOnP_cons,
          List.splitOnP_nil, isWS_digitChar, digitChar_beq_colon,
          digitChar_beq_dot, dot_beq_digitChar, digitChar_ne_comma,
          colon_ne_comma, dot_ne_comma, colon_beq_colon, dot_beq_colon,
          dot_beq_dot, hh2, hw1, hw2, hx1, hx2, hy1, ha, hb]
      · simp [LooseTS.chars, LooseTS.norm, normalize_time, strip, lstrip,
          rstrip, List.dropWhile, List.splitOn, List.splitOnP_cons,
          List.splitOnP_nil, isWS_digitChar, digitChar_beq_colon,
          digitChar_beq_dot, dot_beq_digitChar, digitChar_ne_comma,
          colon_ne_comma, dot_ne_comma, colon_beq_colon, dot_beq_colon,
          dot_beq_dot, hh2, hw1, hw2, hx1, hx2, hy1, ha, hb]
    · have hd : d < 10 := hd1 d rfl
      rcases hsep with rfl | rfl
      · simp [LooseTS.chars, LooseTS.norm, normalize_time, strip, lstrip,
          rstrip, List.dropWhile, List.splitOn, List.splitOnP_cons,
          List.splitOnP_nil, isWS_digitChar, digitChar_beq_colon,
          digitChar_beq_dot, dot_beq_digitChar, digitChar_ne_comma,
          colon_ne_comma, dot_ne_comma, colon_beq_colon, dot_beq_colon,
          dot_beq_dot, hh2, hw1, hw2, hx1, hx2, hy1, ha, hb, hd]
      · simp [LooseTS.chars, LooseTS.norm, normalize_time, strip, lstrip,
          rstrip, List.dropWhile, List.splitOn, List.splitOnP_cons,
          List.splitOnP_nil, isWS_digitChar, digitChar_beq_colon,
          digitChar_beq_dot, dot_beq_digitChar, digitChar_ne_comma,
          colon_ne_comma, dot_ne_comma, colon_beq_colon, dot_beq_colon,
          dot_beq_dot, hh2, hw1, hw2, hx1, hx2, hy1, ha, hb, hd]
  · exact absurd hlen (by simp)

/-- Claim C10: the standalone SRT-to-VTT converter accepts looser timestamps
than the fixer: its time regex recognizes `-->` lines whose hour field has
one or two digits and whose millisecond field has one to three digits with
either `','` or `'.'` separator (both timestamps of the line are captured
exactly), and `normalize_time` renders every such token with a two-digit
zero-padded hour, a `'.'` separator, and exactly three millisecond digits,
zero-padded on the right. -/
theorem srt_to_vtt_loose_timestamps (A B : LooseTS) (hA : A.Ok) (hB : B.Ok) :
    searchTimePair (A.chars ++ ' ' :: '-' :: '-' :: '>' :: ' ' :: B.chars) =
      some (A.chars, B.chars) ∧
      normalize_time A.chars = some A.norm ∧
      normalize_time B.chars = some B.norm :=
  ⟨searchTimePair_loose A B hA hB, normalize_loose A hA, normalize_loose B hB⟩

theorem srt_to_vtt_loose_timestamps_witness :
    (⟨none, 1, 0, 2, 0, 3, ',', 5, []⟩ : LooseTS).Ok ∧
    (⟨some 0, 2, 0, 3, 0, 4, '.', 4, [5]⟩ : LooseTS).Ok ∧
    (searchTimePair
        ((⟨none, 1, 0, 2, 0, 3, ',', 5, []⟩ : LooseTS).chars ++
          ' ' :: '-' :: '-' :: '>' :: ' ' ::
            (⟨some 0, 2, 0, 3, 0, 4, '.', 4, [5]⟩ : LooseTS).chars) =
        some ((⟨none, 1, 0, 2, 0, 3, ',', 5, []⟩ : LooseTS).chars,
          (⟨some 0, 2, 0, 3, 0, 4, '.', 4, [5]⟩ : LooseTS).chars) ∧
      normalize_time (⟨none, 1, 0, 2, 0, 3, ',', 5, []⟩ : LooseTS).chars =
        some (⟨none, 1, 0, 2, 0, 3, ',', 5, []⟩ : LooseTS).norm ∧
      normalize_time (⟨some 0, 2, 0, 3, 0, 4, '.', 4, [5]⟩ : LooseTS).chars =
        some (⟨some 0, 2, 0, 3, 0, 4, '.', 4, [5]⟩ : LooseTS).norm) := by
  have hA : (⟨none, 1, 0, 2, 0, 3, ',', 5, []⟩ : LooseTS).Ok := by
    simp [LooseTS.Ok]
  have hB : (⟨some 0, 2, 0, 3, 0, 4, '.', 4, [5]⟩ : LooseTS).Ok := by
    simp [LooseTS.Ok]
  exact ⟨hA, hB, srt_to_vtt_loose_timestamps _ _ hA hB⟩

end SrtToVtt

namespace FixSrt

theorem isWS_eq_true_iff {c : Char} :
    isWS c = true ↔ c = ' ' ∨ c = '\t' ∨ c = '\n' ∨ c = '\r' ∨
      c = '\x0B' ∨ c = '\x0C' ∨ c = ' ' := by
  simp only [isWS, Bool.or_eq_true, beq_iff_eq]
  tauto

theorem isDigitB_not_ws {c : Char} (h : isDigitB c = true) : isWS c = false := by
  cases hw : isWS c with
  | false => rfl
  | true =>
    exfalso
    rw [isWS_eq_true_iff] at hw
    rcases hw with rfl | rfl | rfl | rfl | rfl | rfl | rfl <;>
      exact absurd h (by decide)

theorem isDigitB_not_nl {c : Char} (h : isDigitB c = true) : c ≠ '\n' := by
  rintro rfl
  exact absurd h (by decide)

theorem isDigitB_not_dash {c : Char} (h : isDigitB c = true) : c ≠ '-' := by
  rintro rfl
  exact absurd h (by decide)

theorem not_nl_of_not_ws {c : Char} (h : isWS c = false) : c ≠ '\n' := by
  rintro rfl
  exact absurd h (by decide)

theorem isLineBreak_eq_true_iff {c : Char} :
    isLineBreak c = true ↔ c = '\n' ∨ c = '\r' ∨ c = '\x0B' ∨ c = '\x0C' ∨
      c = '\x1C' ∨ c = '\x1D' ∨ c = '\x1E' ∨ c = '\x85' ∨ c = '\u2028' ∨
      c = '\u2029' := by
  simp only [isLineBreak, Bool.or_eq_true, beq_iff_eq]
  tauto

theorem isDigitB_not_break {c : Char} (h : isDigitB c = true) :
    isLineBreak c = false := by
  cases hb : isLineBreak c with
  | false => rfl
  | true =>
    exfalso
    rw [isLineBreak_eq_true_iff] at hb
    rcases hb with rfl | rfl | rfl | rfl | rfl | rfl | rfl | rfl | rfl |
      rfl <;> exact absurd h (by decide)

theorem dropWhile_self_head {p : Char → Bool} {l : List Char}
    (h : List.dropWhile p l = l) : ∀ x ∈ l.head?, p x = false := by
  cases l with
  | nil => intro x hx; simp at hx
  | cons c cs =>
    intro x hx
    have hxc : c = x := by simpa using hx
    rw [← hxc]
    cases hp : p c with
    | false => rfl
    | true =>
      exfalso
      rw [List.dropWhile_cons, hp] at h
      simp only [if_true] at h
      have h1 : (List.dropWhile p cs).length ≤ cs.length :=
        (List.dropWhile_sublist _).length_le
      have h2 := congrArg List.length h
      simp only [List.length_cons] at h2
      omega

theorem lstrip_self_of_strip {cs : List Char} (h : strip cs = cs) :
    lstrip cs = cs := by
  have h1 : (lstrip cs).length ≤ cs.length := (List.dropWhile_sublist _).length_le
  have h2 : (strip cs).length ≤ (lstrip cs).length := by
    unfold strip rstrip
    rw [List.length_reverse]
    calc ((lstrip cs).reverse.dropWhile isWS).length
        ≤ (lstrip cs).reverse.length := (List.dropWhile_sublist _).length_le
      _ = (lstrip cs).length := List.length_reverse _
  have h3 := congrArg List.length h
  simp only [lstrip] at h1 h2
  exact (List.dropWhile_sublist _).eq_of_length (by omega)

theorem rstrip_self_of_strip {cs : List Char} (h : strip cs = cs) :
    rstrip cs = cs := by
  have h1 := lstrip_self_of_strip h
  unfold strip at h
  rw [h1] at h
  exact h

theorem strip_self_head {cs : List Char} (h : strip cs = cs) :
    ∀ x ∈ cs.head?, isWS x = false := by
  have h1 := lstrip_self_of_strip h
  exact dropWhile_self_head h1

theorem strip_self_last {cs : List Char} (h : strip cs = cs) :
    ∀ x ∈ cs.reverse.head?, isWS x = false := by
  have h1 := rstrip_self_of_strip h
  unfold rstrip at h1
  have h2 : List.dropWhile isWS cs.reverse = cs.reverse := by
    have := congrArg List.reverse h1
    rwa [List.reverse_reverse] at this
  exact dropWhile_self_head h2

theorem renderNatGo_digits : ∀ (fuel n : ℕ), ∀ c ∈ renderNatGo fuel n,
    isDigitB c = true := by
  intro fuel
  induction fuel with
  | zero => intro n c hc; simp [renderNatGo] at hc
  | succ f ih =>
    intro n c hc
    by_cases hn : n = 0
    · subst hn; simp [renderNatGo] at hc
    · rw [renderNatGo, if_neg hn] at hc
      rcases List.mem_append.mp hc with h1 | h2
      · exact ih _ _ h1
      · simp only [List.mem_singleton] at h2
        subst h2
        exact SrtToVtt.isDigitB_digitChar _ (Nat.mod_lt _ (by norm_num))

theorem renderNat_digits (n : ℕ) : ∀ c ∈ renderNat n, isDigitB c = true := by
  intro c hc
  unfold renderNat at hc
  by_cases hn : n = 0
  · rw [if_pos hn] at hc
    simp only [List.mem_singleton] at hc
    subst hc
    decide
  · rw [if_neg hn] at hc
    exact renderNatGo_digits n n c hc

theorem renderNat_ne_nil (n : ℕ) : renderNat n ≠ [] := by
  unfold renderNat
  by_cases hn : n = 0
  · rw [if_pos hn]; simp
  · rw [if_neg hn]
    cases n with
    | zero => exact absurd rfl hn
    | succ m =>
      rw [renderNatGo, if_neg hn]
      simp

theorem digitValD_digitChar (d : ℕ) (h : d < 10) :
    digitValD (digitChar d) = d := by
  simp [digitValD, digitVal?_digitChar d h]

theorem renderNatGo_foldl : ∀ (fuel n a : ℕ), n ≤ fuel →
    (renderNatGo fuel n).foldl (fun acc c => 10 * acc + digitValD c) a =
      a * 10 ^ (renderNatGo fuel n).length + n := by
  intro fuel
  induction fuel with
  | zero =>
    intro n a h
    interval_cases n
    simp [renderNatGo]
  | succ f ih =>
    intro n a h
    by_cases hn : n = 0
    · subst hn; simp [renderNatGo]
    · rw [renderNatGo, if_neg hn]
      have hrec := ih (n / 10) a (by omega)
      rw [List.foldl_append, hrec]
      have hdm : 10 * (n / 10) + n % 10 = n := by omega
      simp only [List.foldl_cons, List.foldl_nil, List.length_append,
        List.length_singleton]
      rw [digitValD_digitChar (n % 10) (Nat.mod_lt _ (by norm_num))]
      calc 10 * (a * 10 ^ (renderNatGo f (n / 10)).length + n / 10) + n % 10
          = a * (10 ^ (renderNatGo f (n / 10)).length * 10) +
            (10 * (n / 10) + n % 10) := by ring
        _ = a * 10 ^ ((renderNatGo f (n / 10)).length + 1) + n := by
            rw [hdm, pow_succ]

theorem parseNatDigits?_renderNat (n : ℕ) :
    parseNatDigits? (renderNat n) = some n := by
  unfold parseNatDigits?
  rw [if_pos ⟨renderNat_ne_nil n, by
    rw [List.all_eq_true]; exact renderNat_digits n⟩]
  congr 1
  unfold renderNat
  by_cases hn : n = 0
  · rw [if_pos hn]; subst hn; decide
  · rw [if_neg hn]
    have := renderNatGo_foldl n n 0 le_rfl
    simpa using this

theorem strip_renderNat (n : ℕ) : strip (renderNat n) = renderNat n := by
  apply strip_eq_self
  · intro c hc
    exact isDigitB_not_ws
      (renderNat_digits n c (List.mem_of_mem_head? hc))
  · intro c hc
    have : c ∈ (renderNat n).reverse := List.mem_of_mem_head? hc
    rw [List.mem_reverse] at this
    exact isDigitB_not_ws (renderNat_digits n c this)

theorem parseInt?_renderNat (n : ℕ) :
    parseInt? (renderNat n) = some (n : ℤ) := by
  have hs := strip_renderNat n
  unfold parseInt?
  simp only [hs]
  split
  · rename_i rest heq
    have : '+' ∈ renderNat n := by rw [heq]; simp
    exact absurd (renderNat_digits n '+' this) (by decide)
  · rename_i rest heq
    have : '-' ∈ renderNat n := by rw [heq]; simp
    exact absurd (renderNat_digits n '-' this) (by decide)
  · rw [parseNatDigits?_renderNat]
    rfl

end FixSrt

namespace FixSrt

theorem splitlinesGo_cons_ne {c : Char} (hc : isLineBreak c = false)
    (cur rest : List Char) :
    splitlinesGo cur (c :: rest) = splitlinesGo (c :: cur) rest := by
  have hr : c ≠ '\r' := by
    intro h
    rw [h] at hc
    exact absurd hc (by decide)
  cases rest with
  | nil => simp [splitlinesGo, hc]
  | cons d rest2 => simp [splitlinesGo, hc, hr]

theorem splitlinesGo_cons_nl (cur rest : List Char) :
    splitlinesGo cur ('\n' :: rest) = cur.reverse :: splitlinesGo [] rest := by
  cases rest with
  | nil => simp [splitlinesGo, show isLineBreak '\n' = true from by decide]
  | cons d r2 =>
    simp [splitlinesGo, show isLineBreak '\n' = true from by decide]

theorem splitlinesGo_no_nl (a : List Char)
    (ha : ∀ c ∈ a, isLineBreak c = false) :
    ∀ (cur rest : List Char),
      splitlinesGo cur (a ++ '\n' :: rest) =
        (cur.reverse ++ a) :: splitlinesGo [] rest := by
  induction a with
  | nil => intro cur rest; simp [splitlinesGo_cons_nl]
  | cons c a2 ih =>
    intro cur rest
    rw [List.cons_append, splitlinesGo_cons_ne (ha c (by simp)),
      ih (fun x hx => ha x (by simp [hx])) (c :: cur) rest]
    simp

theorem sbGo_false_ne {c : Char} (hc : c ≠ '\n') (cur rest : List Char) :
    splitBlocksGo false cur (c :: rest) =
      splitBlocksGo false (c :: cur) rest := by
  simp [splitBlocksGo, hc]

theorem sbGo_false_nl_ne {d : Char} (hd : d ≠ '\n') (cur rest : List Char) :
    splitBlocksGo false cur ('\n' :: d :: rest) =
      splitBlocksGo false ('\n' :: cur) (d :: rest) := by
  simp [splitBlocksGo, hd]

theorem sbGo_true_ne {c : Char} (hc : c ≠ '\n') (cur rest : List Char) :
    splitBlocksGo true cur (c :: rest) = splitBlocksGo false [c] rest := by
  simp [splitBlocksGo, hc]

theorem sbGo_end (b : List Char)
    (hch : List.Chain' (fun x y => ¬(x = '\n' ∧ y = '\n')) b) :
    ∀ cur, splitBlocksGo false cur b = [cur.reverse ++ b] := by
  induction b with
  | nil => intro cur; simp [splitBlocksGo]
  | cons c b2 ih =>
    intro cur
    rw [List.chain'_cons'] at hch
    by_cases hc : c = '\n'
    · subst hc
      cases b2 with
      | nil =>
        rw [show splitBlocksGo false cur ['\n'] =
          [('\n' :: cur).reverse] from rfl]
        simp
      | cons d b3 =>
        have hd : d ≠ '\n' := by
          have h1 := hch.1 d rfl
          simp at h1
          exact h1
        rw [sbGo_false_nl_ne hd, ih hch.2 ('\n' :: cur)]
        simp
    · rw [sbGo_false_ne hc, ih hch.2 (c :: cur)]
      simp

theorem sbGo_mid (b : List Char)
    (hch : List.Chain' (fun x y => ¬(x = '\n' ∧ y = '\n')) b)
    (hlast : ∀ x ∈ b.getLast?, x ≠ '\n') :
    ∀ (cur tail : List Char),
      splitBlocksGo false cur (b ++ '\n' :: '\n' :: tail) =
        (cur.reverse ++ b) :: splitBlocksGo true [] tail := by
  induction b with
  | nil => intro cur tail; simp [splitBlocksGo]
  | cons c b2 ih =>
    intro cur tail
    rw [List.chain'_cons'] at hch
    have hlast2 : ∀ x ∈ b2.getLast?, x ≠ '\n' := by
      cases b2 with
      | nil => simp
      | cons d b3 => rw [List.getLast?_cons_cons] at hlast; exact hlast
    by_cases hc : c = '\n'
    · subst hc
      cases b2 with
      | nil =>
        exact absurd (hlast '\n' rfl) (by simp)
      | cons d b3 =>
        have hd : d ≠ '\n' := by
          have h1 := hch.1 d rfl
          simp at h1
          exact h1
        have ih3 := ih hch.2 hlast2 ('\n' :: cur) tail
        simp only [List.cons_append] at ih3 ⊢
        rw [sbGo_false_nl_ne hd, ih3]
        simp
    · rw [List.cons_append, sbGo_false_ne hc, ih hch.2 hlast2 (c :: cur) tail]
      simp

theorem sb_join : ∀ (bs : List (List Char)), bs ≠ [] →
    (∀ b ∈ bs, b ≠ [] ∧ (∀ x ∈ b.head?, x ≠ '\n') ∧
      (∀ x ∈ b.getLast?, x ≠ '\n') ∧
      List.Chain' (fun x y => ¬(x = '\n' ∧ y = '\n')) b) →
    splitBlocksGo false [] (joinNN bs) = bs := by
  intro bs
  induction bs with
  | nil => intro h; exact absurd rfl h
  | cons b bs ih =>
    intro hne h
    obtain ⟨hbne, hbh, hbl, hbch⟩ := h b (by simp)
    cases bs with
    | nil =>
      show splitBlocksGo false [] (joinNN [b]) = [b]
      rw [show joinNN [b] = b from rfl, sbGo_end b hbch []]
      simp
    | cons b2 bs2 =>
      have ih2 := ih (by simp) (fun x hx => h x (List.mem_cons_of_mem _ hx))
      obtain ⟨c, r, hb2⟩ : ∃ c r, b2 = c :: r := by
        obtain ⟨hb2ne, -, -, -⟩ := h b2 (by simp)
        cases b2 with
        | nil => exact absurd rfl hb2ne
        | cons c r => exact ⟨c, r, rfl⟩
      have hc : c ≠ '\n' := by
        obtain ⟨-, hh, -, -⟩ := h b2 (by simp)
        rw [hb2] at hh
        exact hh c rfl
      obtain ⟨R, hR⟩ : ∃ R, joinNN (b2 :: bs2) = c :: R := by
        cases bs2 with
        | nil => exact ⟨r, by rw [show joinNN [b2] = b2 from rfl, hb2]⟩
        | cons b3 bs3 =>
          refine ⟨r ++ '\n' :: '\n' :: joinNN (b3 :: bs3), ?_⟩
          rw [show joinNN (b2 :: b3 :: bs3) =
            b2 ++ '\n' :: '\n' :: joinNN (b3 :: bs3) from rfl, hb2]
          rfl
      have htail : splitBlocksGo true [] (joinNN (b2 :: bs2)) = b2 :: bs2 := by
        rw [hR, sbGo_true_ne hc]
        rw [hR, sbGo_false_ne hc] at ih2
        simpa using ih2
      rw [show joinNN (b :: b2 :: bs2) =
        b ++ '\n' :: '\n' :: joinNN (b2 :: bs2) from rfl,
        sbGo_mid b hbch hbl [] (joinNN (b2 :: bs2)), htail]
      simp

end FixSrt

namespace FixSrt

theorem splitArrowGo_cons_ne {c : Char} (hc : c ≠ '-') (cur rest : List Char) :
    splitArrowGo cur (c :: rest) = splitArrowGo (c :: cur) rest := by
  simp [splitArrowGo, hc]

theorem splitArrowGo_scan (a : List Char) (ha : ∀ c ∈ a, c ≠ '-') :
    ∀ (cur rest : List Char),
      splitArrowGo cur (a ++ '-' :: '-' :: '>' :: rest) =
        (cur.reverse ++ a) :: splitArrowGo [] rest := by
  induction a with
  | nil => intro cur rest; simp [splitArrowGo]
  | cons c a2 ih =>
    intro cur rest
    rw [List.cons_append, splitArrowGo_cons_ne (ha c (by simp)),
      ih (fun x hx => ha x (by simp [hx])) (c :: cur) rest]
    simp

theorem splitArrowGo_stop (a : List Char) (ha : ∀ c ∈ a, c ≠ '-') :
    ∀ cur, splitArrowGo cur a = [cur.reverse ++ a] := by
  induction a with
  | nil => intro cur; simp [splitArrowGo]
  | cons c a2 ih =>
    intro cur
    rw [splitArrowGo_cons_ne (ha c (by simp)),
      ih (fun x hx => ha x (by simp [hx])) (c :: cur)]
    simp

theorem splitArrow_timeline (fa fb : List Char)
    (hfa : ∀ c ∈ fa, c ≠ '-') (hfb : ∀ c ∈ fb, c ≠ '-') :
    splitArrow (fa ++ ' ' :: '-' :: '-' :: '>' :: ' ' :: fb) =
      [fa ++ [' '], ' ' :: fb] := by
  unfold splitArrow
  have hsh : fa ++ ' ' :: '-' :: '-' :: '>' :: ' ' :: fb =
      (fa ++ [' ']) ++ '-' :: '-' :: '>' :: (' ' :: fb) := by simp
  rw [hsh, splitArrowGo_scan (fa ++ [' '])
    (by intro c hc
        rcases List.mem_append.mp hc with h1 | h2
        · exact hfa c h1
        · simp only [List.mem_singleton] at h2; subst h2; decide) [] (' ' :: fb),
    splitArrowGo_stop (' ' :: fb)
    (by intro c hc
        rcases List.mem_cons.mp hc with h1 | h2
        · subst h1; decide
        · exact hfb c h2) []]
  simp

theorem containsSeq_append_right (p : List Char) (a : List Char)
    {cs : List Char} (h : containsSeq p cs = true) :
    containsSeq p (a ++ cs) = true := by
  induction a with
  | nil => simpa using h
  | cons c a2 ih =>
    rw [List.cons_append]
    unfold containsSeq
    rw [ih]
    simp

theorem containsSeq_arrow (rest : List Char) :
    containsSeq ['-', '-', '>'] ('-' :: '-' :: '>' :: rest) = true := by
  unfold containsSeq
  simp [stripPat]

theorem containsSeq_timeline (fa rest : List Char) :
    containsSeq ['-', '-', '>'] (fa ++ ' ' :: '-' :: '-' :: '>' :: rest) =
      true := by
  have hsh : fa ++ ' ' :: '-' :: '-' :: '>' :: rest =
      (fa ++ [' ']) ++ '-' :: '-' :: '>' :: rest := by simp
  rw [hsh]
  exact containsSeq_append_right _ _ (containsSeq_arrow rest)

theorem splitlinesGo_ne_nil :
    ∀ (cs cur : List Char), cs ≠ [] → splitlinesGo cur cs ≠ [] := by
  intro cs
  induction cs with
  | nil => intro cur h; exact absurd rfl h
  | cons c cs2 ih =>
    intro cur h
    by_cases hc : isLineBreak c = true
    · cases cs2 with
      | nil => simp [splitlinesGo, hc]
      | cons d cs3 =>
        by_cases hrn : c = '\r' ∧ d = '\n'
        · simp [splitlinesGo, hrn]
        · simp [splitlinesGo, hrn, hc]
    · rw [splitlinesGo_cons_ne (by simpa using hc)]
      cases cs2 with
      | nil => simp [splitlinesGo]
      | cons d cs3 => exact ih (c :: cur) (by simp)

theorem intercalate_cons2 (sep a : List Char) (l : List (List Char))
    (h : l ≠ []) :
    List.intercalate sep (a :: l) = a ++ sep ++ List.intercalate sep l := by
  cases l with
  | nil => exact absurd rfl h
  | cons b l2 => simp [List.intercalate, List.intersperse]

theorem intercalate_splitlinesGo :
    ∀ (cs : List Char), (∀ c ∈ cs, isLineBreak c = true → c = '\n') →
      (∀ x ∈ cs.getLast?, x ≠ '\n') →
      ∀ cur, List.intercalate ['\n'] (splitlinesGo cur cs) =
        cur.reverse ++ cs := by
  intro cs
  induction cs with
  | nil =>
    intro _ h cur
    cases cur with
    | nil => simp [splitlinesGo, List.intercalate]
    | cons c cur2 => simp [splitlinesGo, List.intercalate]
  | cons c cs2 ih =>
    intro h1 h cur
    have h12 : ∀ c ∈ cs2, isLineBreak c = true → c = '\n' :=
      fun x hx => h1 x (List.mem_cons_of_mem _ hx)
    have h2 : ∀ x ∈ cs2.getLast?, x ≠ '\n' := by
      cases cs2 with
      | nil => simp
      | cons d cs3 => rw [List.getLast?_cons_cons] at h; exact h
    by_cases hc : c = '\n'
    · subst hc
      cases cs2 with
      | nil => exact absurd (h '\n' rfl) (by simp)
      | cons d cs3 =>
        rw [splitlinesGo_cons_nl]
        rw [intercalate_cons2 _ _ _
          (splitlinesGo_ne_nil (d :: cs3) [] (by simp))]
        rw [ih h12 h2 []]
        simp
    · have hcb : isLineBreak c = false := by
        cases hb : isLineBreak c with
        | false => rfl
        | true => exact absurd (h1 c (by simp) hb) hc
      rw [splitlinesGo_cons_ne hcb, ih h12 h2 (c :: cur)]
      simp

theorem intercalate_splitlines (cs : List Char)
    (h1 : ∀ c ∈ cs, isLineBreak c = true → c = '\n')
    (h : ∀ x ∈ cs.getLast?, x ≠ '\n') :
    List.intercalate ['\n'] (splitlines cs) = cs := by
  unfold splitlines
  rw [intercalate_splitlinesGo cs h1 h []]
  simp

end FixSrt

namespace FixSrt

theorem parse_tsStr_srt (v1 v2 w1 w2 x1 x2 y1 y2 y3 : ℕ)
    (hv1 : v1 < 10) (hv2 : v2 < 10) (hw1 : w1 < 10) (hw2 : w2 < 10)
    (hx1 : x1 < 10) (hx2 : x2 < 10) (hy1 : y1 < 10) (hy2 : y2 < 10)
    (hy3 : y3 < 10) :
    parse_timestamp (tsStr v1 v2 w1 w2 x1 x2 y1 y2 y3 ',') ['s', 'r', 't'] =
      some (tsVal v1 v2 w1 w2 x1 x2 y1 y2 y3) := by
  have hstrip := strip_tsStr v1 v2 w1 w2 x1 x2 y1 y2 y3 ',' hv1 hy3
  simp only [tsStr] at hstrip
  simp [parse_timestamp, hstrip, tsStr, matchTimestamp, digit2?, digit3?,
    digitVal?_digitChar v1 hv1, digitVal?_digitChar v2 hv2,
    digitVal?_digitChar w1 hw1, digitVal?_digitChar w2 hw2,
    digitVal?_digitChar x1 hx1, digitVal?_digitChar x2 hx2,
    digitVal?_digitChar y1 hy1, digitVal?_digitChar y2 hy2,
    digitVal?_digitChar y3 hy3, tsVal]
  try push_cast
  try ring

theorem tsStr_chars (v1 v2 w1 w2 x1 x2 y1 y2 y3 : ℕ)
    (hv1 : v1 < 10) (hv2 : v2 < 10) (hw1 : w1 < 10) (hw2 : w2 < 10)
    (hx1 : x1 < 10) (hx2 : x2 < 10) (hy1 : y1 < 10) (hy2 : y2 < 10)
    (hy3 : y3 < 10) :
    ∀ c ∈ tsStr v1 v2 w1 w2 x1 x2 y1 y2 y3 ',',
      isDigitB c = true ∨ c = ':' ∨ c = ',' := by
  intro c hc
  simp only [tsStr, List.mem_cons, List.mem_singleton, List.not_mem_nil,
    or_false] at hc
  rcases hc with rfl | rfl | rfl | rfl | rfl | rfl | rfl | rfl | rfl | rfl |
    rfl | rfl
  · exact Or.inl (SrtToVtt.isDigitB_digitChar v1 hv1)
  · exact Or.inl (SrtToVtt.isDigitB_digitChar v2 hv2)
  · exact Or.inr (Or.inl rfl)
  · exact Or.inl (SrtToVtt.isDigitB_digitChar w1 hw1)
  · exact Or.inl (SrtToVtt.isDigitB_digitChar w2 hw2)
  · exact Or.inr (Or.inl rfl)
  · exact Or.inl (SrtToVtt.isDigitB_digitChar x1 hx1)
  · exact Or.inl (SrtToVtt.isDigitB_digitChar x2 hx2)
  · exact Or.inr (Or.inr rfl)
  · exact Or.inl (SrtToVtt.isDigitB_digitChar y1 hy1)
  · exact Or.inl (SrtToVtt.isDigitB_digitChar y2 hy2)
  · exact Or.inl (SrtToVtt.isDigitB_digitChar y3 hy3)

theorem format_parse_srt (v : ℤ) (h0 : 0 ≤ v) (h1 : v < 360000000)
    (hpy : pyMs v.toNat = v.toNat) :
    parse_timestamp (format_timestamp v ['s', 'r', 't']) ['s', 'r', 't'] =
        some v ∧
      strip (format_timestamp v ['s', 'r', 't']) =
        format_timestamp v ['s', 'r', 't'] ∧
      format_timestamp v ['s', 'r', 't'] ≠ [] ∧
      (∀ c ∈ format_timestamp v ['s', 'r', 't'],
        isDigitB c = true ∨ c = ':' ∨ c = ',') := by
  have hveq : v = tsVal (v.toNat / 3600000 / 10) (v.toNat / 3600000 % 10)
      (v.toNat / 60000 % 60 / 10) (v.toNat / 60000 % 60 % 10)
      (v.toNat / 1000 % 60 / 10) (v.toNat / 1000 % 60 % 10)
      (v.toNat % 1000 / 100) (v.toNat % 1000 / 10 % 10)
      (v.toNat % 1000 % 10) := by
    unfold tsVal
    omega
  have hv1 : v.toNat / 3600000 / 10 < 10 := by omega
  have hv2 : v.toNat / 3600000 % 10 < 10 := by omega
  have hw1 : v.toNat / 60000 % 60 / 10 < 6 := by omega
  have hw2 : v.toNat / 60000 % 60 % 10 < 10 := by omega
  have hx1 : v.toNat / 1000 % 60 / 10 < 6 := by omega
  have hx2 : v.toNat / 1000 % 60 % 10 < 10 := by omega
  have hy1 : v.toNat % 1000 / 100 < 10 := by omega
  have hy2 : v.toNat % 1000 / 10 % 10 < 10 := by omega
  have hy3 : v.toNat % 1000 % 10 < 10 := by omega
  have hN : (10 * (v.toNat / 3600000 / 10) + v.toNat / 3600000 % 10) *
      3600000 +
      (10 * (v.toNat / 60000 % 60 / 10) + v.toNat / 60000 % 60 % 10) *
        60000 +
      (10 * (v.toNat / 1000 % 60 / 10) + v.toNat / 1000 % 60 % 10) * 1000 +
      (100 * (v.toNat % 1000 / 100) + 10 * (v.toNat % 1000 / 10 % 10) +
        v.toNat % 1000 % 10) = v.toNat := by
    omega
  have hpyN : pyMs ((10 * (v.toNat / 3600000 / 10) + v.toNat / 3600000 % 10) *
      3600000 +
      (10 * (v.toNat / 60000 % 60 / 10) + v.toNat / 60000 % 60 % 10) *
        60000 +
      (10 * (v.toNat / 1000 % 60 / 10) + v.toNat / 1000 % 60 % 10) * 1000 +
      (100 * (v.toNat % 1000 / 100) + 10 * (v.toNat % 1000 / 10 % 10) +
        v.toNat % 1000 % 10)) =
      (10 * (v.toNat / 3600000 / 10) + v.toNat / 3600000 % 10) * 3600000 +
      (10 * (v.toNat / 60000 % 60 / 10) + v.toNat / 60000 % 60 % 10) *
        60000 +
      (10 * (v.toNat / 1000 % 60 / 10) + v.toNat / 1000 % 60 % 10) * 1000 +
      (100 * (v.toNat % 1000 / 100) + 10 * (v.toNat % 1000 / 10 % 10) +
        v.toNat % 1000 % 10) := by
    rw [hN]
    exact hpy
  have hfmt : format_timestamp v ['s', 'r', 't'] =
      tsStr (v.toNat / 3600000 / 10) (v.toNat / 3600000 % 10)
        (v.toNat / 60000 % 60 / 10) (v.toNat / 60000 % 60 % 10)
        (v.toNat / 1000 % 60 / 10) (v.toNat / 1000 % 60 % 10)
        (v.toNat % 1000 / 100) (v.toNat % 1000 / 10 % 10)
        (v.toNat % 1000 % 10) ',' := by
    conv_lhs => rw [hveq]
    rw [format_timestamp_tsVal _ _ _ _ _ _ _ _ _ _ hv1 hv2 hw1 hw2 hx1 hx2
      hy1 hy2 hy3 hpyN]
    simp
  rw [hfmt]
  refine ⟨?_, ?_, ?_, ?_⟩
  · rw [parse_tsStr_srt _ _ _ _ _ _ _ _ _ hv1 hv2 (by omega) hw2 (by omega)
      hx2 hy1 hy2 hy3, ← hveq]
  · exact strip_tsStr _ _ _ _ _ _ _ _ _ _ hv1 hy3
  · simp [tsStr]
  · exact tsStr_chars _ _ _ _ _ _ _ _ _ hv1 hv2 (by omega) hw2 (by omega)
      hx2 hy1 hy2 hy3

end FixSrt

namespace FixSrt

theorem chain_no_nl {l : List Char} (h : ∀ c ∈ l, c ≠ '\n') :
    List.Chain' (fun x y => ¬(x = '\n' ∧ y = '\n')) l := by
  induction l with
  | nil => simp
  | cons c l2 ih =>
    rw [List.chain'_cons']
    exact ⟨fun b _ hb => absurd hb.1 (h c (by simp)),
      ih (fun x hx => h x (by simp [hx]))⟩

theorem mem_of_getLast? {α : Type} {l : List α} {x : α}
    (h : x ∈ l.getLast?) : x ∈ l := by
  rw [← List.head?_reverse] at h
  have h2 := List.mem_of_mem_head? h
  rwa [List.mem_reverse] at h2

theorem chain_glue {A B : List Char} (hA : ∀ c ∈ A, c ≠ '\n')
    (hBh : ∀ x ∈ B.head?, x ≠ '\n')
    (hB : List.Chain' (fun x y => ¬(x = '\n' ∧ y = '\n')) B) :
    List.Chain' (fun x y => ¬(x = '\n' ∧ y = '\n')) (A ++ '\n' :: B) := by
  rw [List.chain'_append]
  refine ⟨chain_no_nl hA, ?_, ?_⟩
  · rw [List.chain'_cons']
    exact ⟨fun y hy hc => absurd hc.2 (hBh y hy), hB⟩
  · intro x hx y hy hc
    exact absurd hc.1 (hA x (mem_of_getLast? hx))

theorem ts_chars_not_nl {F : List Char}
    (h : ∀ c ∈ F, isDigitB c = true ∨ c = ':' ∨ c = ',') :
    ∀ c ∈ F, c ≠ '\n' := by
  intro c hc
  rcases h c hc with hd | rfl | rfl
  · exact isDigitB_not_nl hd
  · decide
  · decide

theorem ts_chars_not_dash {F : List Char}
    (h : ∀ c ∈ F, isDigitB c = true ∨ c = ':' ∨ c = ',') :
    ∀ c ∈ F, c ≠ '-' := by
  intro c hc
  rcases h c hc with hd | rfl | rfl
  · exact isDigitB_not_dash hd
  · decide
  · decide

theorem ts_chars_not_break {F : List Char}
    (h : ∀ c ∈ F, isDigitB c = true ∨ c = ':' ∨ c = ',') :
    ∀ c ∈ F, isLineBreak c = false := by
  intro c hc
  rcases h c hc with hd | rfl | rfl
  · exact isDigitB_not_break hd
  · decide
  · decide

theorem strip_cons_space {l : List Char} (hstrip : strip l = l) :
    strip (' ' :: l) = l := by
  unfold strip
  have h1 : lstrip (' ' :: l) = lstrip l := by
    unfold lstrip
    rw [List.dropWhile_cons]
    simp [show isWS ' ' = true from by decide]
  rw [h1, lstrip_self_of_strip hstrip]
  exact rstrip_self_of_strip hstrip

theorem strip_append_space {l : List Char} (hstrip : strip l = l)
    (hne : l ≠ []) : strip (l ++ [' ']) = l := by
  obtain ⟨c, r, rfl⟩ : ∃ c r, l = c :: r := by
    cases l with
    | nil => exact absurd rfl hne
    | cons c r => exact ⟨c, r, rfl⟩
  have hc : isWS c = false := strip_self_head hstrip c rfl
  have hdw : List.dropWhile isWS (c :: r).reverse = (c :: r).reverse := by
    have h1 := rstrip_self_of_strip hstrip
    unfold rstrip at h1
    have h2 := congrArg List.reverse h1
    rwa [List.reverse_reverse] at h2
  unfold strip lstrip rstrip
  rw [List.cons_append, List.dropWhile_cons, hc]
  simp only [Bool.false_eq_true, if_false]
  rw [show (c :: (r ++ [' '])).reverse = ' ' :: (c :: r).reverse by simp,
    List.dropWhile_cons, show isWS ' ' = true from by decide]
  simp only [if_true]
  rw [hdw, List.reverse_reverse]

end FixSrt

namespace FixSrt

theorem read_blocks_bodies :
    ∀ (subs : List Subtitle),
      (∀ s ∈ subs, s.content ≠ [] ∧ strip s.content = s.content ∧
        List.Chain' (fun x y => ¬(x = '\n' ∧ y = '\n')) s.content ∧
        (∀ c ∈ s.content, isLineBreak c = true → c = '\n') ∧
        0 ≤ s.start ∧ s.start < 360000000 ∧
        0 ≤ s.stop ∧ s.stop < 360000000 ∧
        pyMs s.start.toNat = s.start.toNat ∧
        pyMs s.stop.toNat = s.stop.toNat) →
      ∀ (i n : ℕ), read_blocks ['s', 'r', 't'] n (blockBodies i subs) =
        some (reindex i subs) := by
  intro subs
  induction subs with
  | nil => intro h i n; rfl
  | cons s rest ih =>
    intro h i n
    obtain ⟨hne, hstr, hch, hbrk, hs0, hs1, he0, he1, hpyA, hpyB⟩ :=
      h s (by simp)
    obtain ⟨hparseA, hstripA, hneA, hchA⟩ :=
      format_parse_srt s.start hs0 hs1 hpyA
    obtain ⟨hparseB, hstripB, hneB, hchB⟩ :=
      format_parse_srt s.stop he0 he1 hpyB
    have hAnl := ts_chars_not_nl hchA
    have hBnl := ts_chars_not_nl hchB
    have hAbrk := ts_chars_not_break hchA
    have hBbrk := ts_chars_not_break hchB
    have hbody : blockBody i s =
        renderNat i ++ '\n' ::
          ((format_timestamp s.start ['s', 'r', 't'] ++
            ' ' :: '-' :: '-' :: '>' :: ' ' ::
              format_timestamp s.stop ['s', 'r', 't']) ++
            '\n' :: s.content) := by
      simp [blockBody]
    have hTLnl : ∀ c ∈ format_timestamp s.start ['s', 'r', 't'] ++
        ' ' :: '-' :: '-' :: '>' :: ' ' ::
          format_timestamp s.stop ['s', 'r', 't'], isLineBreak c = false := by
      intro c hc
      rcases List.mem_append.mp hc with h1 | h2
      · exact hAbrk c h1
      · rcases List.mem_cons.mp h2 with rfl | h3
        · decide
        rcases List.mem_cons.mp h3 with rfl | h4
        · decide
        rcases List.mem_cons.mp h4 with rfl | h5
        · decide
        rcases List.mem_cons.mp h5 with rfl | h6
        · decide
        rcases List.mem_cons.mp h6 with rfl | h7
        · decide
        · exact hBbrk c h7
    have hrnl : ∀ c ∈ renderNat i, isLineBreak c = false := fun c hc =>
      isDigitB_not_break (renderNat_digits i c hc)
    have hsl : splitlines (blockBody i s) =
        renderNat i ::
          (format_timestamp s.start ['s', 'r', 't'] ++
            ' ' :: '-' :: '-' :: '>' :: ' ' ::
              format_timestamp s.stop ['s', 'r', 't']) ::
            splitlines s.content := by
      rw [hbody]
      unfold splitlines
      rw [splitlinesGo_no_nl (renderNat i) hrnl [] _,
        splitlinesGo_no_nl _ hTLnl [] _]
      simp
    obtain ⟨d0, e2, hcr⟩ : ∃ d0 e2, s.content.reverse = d0 :: e2 := by
      cases hx : s.content.reverse with
      | nil => exact absurd (List.reverse_eq_nil_iff.mp hx) hne
      | cons d0 e2 => exact ⟨d0, e2, rfl⟩
    have hstripBody : strip (blockBody i s) = blockBody i s := by
      apply strip_eq_self
      · intro x hx
        obtain ⟨c0, r0, hrn⟩ : ∃ c0 r0, renderNat i = c0 :: r0 := by
          cases hx2 : renderNat i with
          | nil => exact absurd hx2 (renderNat_ne_nil i)
          | cons c0 r0 => exact ⟨c0, r0, rfl⟩
        rw [hbody, hrn] at hx
        have hxc : c0 = x := by simpa using hx
        rw [← hxc]
        exact isDigitB_not_ws (renderNat_digits i c0 (by rw [hrn]; simp))
      · intro x hx
        rw [hbody] at hx
        simp only [List.reverse_append, List.reverse_cons, List.append_assoc,
          hcr] at hx
        have hxd : d0 = x := by simpa using hx
        rw [← hxd]
        exact strip_self_last hstr d0 (by rw [hcr]; rfl)
    have hlastc : ∀ x ∈ s.content.getLast?, x ≠ '\n' := by
      intro x hx
      have hx2 : x ∈ s.content.reverse.head? := by
        rw [List.head?_reverse]
        exact hx
      exact not_nl_of_not_ws (strip_self_last hstr x hx2)
    have harr := containsSeq_timeline (format_timestamp s.start ['s', 'r', 't'])
      (' ' :: format_timestamp s.stop ['s', 'r', 't'])
    have hsa := splitArrow_timeline (format_timestamp s.start ['s', 'r', 't'])
      (format_timestamp s.stop ['s', 'r', 't'])
      (ts_chars_not_dash hchA) (ts_chars_not_dash hchB)
    have hih := ih (fun x hx => h x (List.mem_cons_of_mem _ hx)) (i + 1) (n + 1)
    show read_blocks ['s', 'r', 't'] n
      (blockBody i s :: blockBodies (i + 1) rest) = _
    rw [read_blocks, hstripBody, hsl]
    simp only [strip_renderNat, parseInt?_renderNat, harr, hsa, Bool.true_eq_false,
      if_false, strip_append_space hstripA hneA, strip_cons_space hstripB,
      hparseA, hparseB, hih, Option.map_some]
    rw [intercalate_splitlines s.content hbrk hlastc]
    simp [mkSubtitle, hstr, reindex]

end FixSrt

namespace FixSrt

theorem dropWhile_self_of_head {p : Char → Bool} {l : List Char}
    (h : ∀ x ∈ l.head?, p x = false) : List.dropWhile p l = l := by
  cases l with
  | nil => rfl
  | cons c r =>
    rw [List.dropWhile_cons, h c rfl]
    simp

theorem strip_join_nn {l : List Char}
    (hhead : ∀ x ∈ l.head?, isWS x = false)
    (hlast : ∀ x ∈ l.reverse.head?, isWS x = false) :
    strip (l ++ ['\n', '\n']) = l := by
  cases l with
  | nil => decide
  | cons c r =>
    have hc := hhead c rfl
    unfold strip lstrip rstrip
    rw [List.cons_append, List.dropWhile_cons, hc]
    simp only [Bool.false_eq_true, if_false]
    rw [show (c :: (r ++ ['\n', '\n'])).reverse =
      '\n' :: '\n' :: (c :: r).reverse by simp]
    rw [List.dropWhile_cons, show isWS '\n' = true from by decide]
    simp only [if_true]
    rw [List.dropWhile_cons, show isWS '\n' = true from by decide]
    simp only [if_true]
    rw [dropWhile_self_of_head hlast, List.reverse_reverse]

theorem joinNN_head {P : Char → Prop} (b : List Char)
    (bs : List (List Char)) (hb : b ≠ []) (hP : ∀ x ∈ b.head?, P x) :
    ∀ x ∈ (joinNN (b :: bs)).head?, P x := by
  obtain ⟨c, r, rfl⟩ : ∃ c r, b = c :: r := by
    cases b with
    | nil => exact absurd rfl hb
    | cons c r => exact ⟨c, r, rfl⟩
  cases bs with
  | nil => exact hP
  | cons b2 bs2 =>
    intro x hx
    have hxc : c = x := by
      have : joinNN ((c :: r) :: b2 :: bs2) =
          c :: (r ++ '\n' :: '\n' :: joinNN (b2 :: bs2)) := rfl
      rw [this] at hx
      simpa using hx
    rw [← hxc]
    exact hP c rfl

theorem joinNN_ne_nil (b : List Char) (bs : List (List Char)) (hb : b ≠ []) :
    joinNN (b :: bs) ≠ [] := by
  obtain ⟨c, r, rfl⟩ : ∃ c r, b = c :: r := by
    cases b with
    | nil => exact absurd rfl hb
    | cons c r => exact ⟨c, r, rfl⟩
  cases bs with
  | nil => simp [joinNN]
  | cons b2 bs2 =>
    rw [show joinNN ((c :: r) :: b2 :: bs2) =
      c :: (r ++ '\n' :: '\n' :: joinNN (b2 :: bs2)) from rfl]
    simp

theorem joinNN_getLast {P : Char → Prop} :
    ∀ (bs : List (List Char)),
      (∀ b ∈ bs, b ≠ [] ∧ ∀ x ∈ b.getLast?, P x) →
      ∀ x ∈ (joinNN bs).getLast?, P x := by
  intro bs
  induction bs with
  | nil => intro _ x hx; simp [joinNN] at hx
  | cons b bs ih =>
    intro h
    cases bs with
    | nil =>
      rw [show joinNN [b] = b from rfl]
      exact (h b (by simp)).2
    | cons b2 bs2 =>
      rw [show joinNN (b :: b2 :: bs2) =
        b ++ '\n' :: '\n' :: joinNN (b2 :: bs2) from rfl]
      intro x hx
      rw [List.getLast?_append_of_ne_nil _ (by simp)] at hx
      have hJ : joinNN (b2 :: bs2) ≠ [] :=
        joinNN_ne_nil b2 bs2 (h b2 (by simp)).1
      obtain ⟨j, J, hJ2⟩ : ∃ j J, joinNN (b2 :: bs2) = j :: J := by
        cases hx2 : joinNN (b2 :: bs2) with
        | nil => exact absurd hx2 hJ
        | cons j J => exact ⟨j, J, rfl⟩
      rw [hJ2, List.getLast?_cons_cons, List.getLast?_cons_cons, ← hJ2] at hx
      exact ih (fun y hy => h y (List.mem_cons_of_mem _ hy)) x hx

theorem write_block_eq (i : ℕ) (s : Subtitle) :
    write_block ['s', 'r', 't'] i s = blockBody i s ++ ['\n', '\n'] := by
  simp [write_block, blockBody]

theorem write_blocks_join :
    ∀ (subs : List Subtitle) (i : ℕ), subs ≠ [] →
      write_blocks ['s', 'r', 't'] i subs =
        joinNN (blockBodies i subs) ++ ['\n', '\n'] := by
  intro subs
  induction subs with
  | nil => intro i h; exact absurd rfl h
  | cons s rest ih =>
    intro i h
    cases rest with
    | nil =>
      rw [show write_blocks ['s', 'r', 't'] i [s] =
        write_block ['s', 'r', 't'] i s ++ write_blocks ['s', 'r', 't'] (i + 1) []
        from rfl]
      rw [write_block_eq]
      rw [show blockBodies i [s] = [blockBody i s] from rfl,
        show joinNN [blockBody i s] = blockBody i s from rfl]
      simp [write_blocks]
    | cons s2 rest2 =>
      rw [show write_blocks ['s', 'r', 't'] i (s :: s2 :: rest2) =
        write_block ['s', 'r', 't'] i s ++
          write_blocks ['s', 'r', 't'] (i + 1) (s2 :: rest2) from rfl]
      rw [write_block_eq, ih (i + 1) (by simp)]
      rw [show blockBodies i (s :: s2 :: rest2) =
        blockBody i s :: blockBodies (i + 1) (s2 :: rest2) from rfl]
      rw [show blockBodies (i + 1) (s2 :: rest2) =
        blockBody (i + 1) s2 :: blockBodies (i + 2) rest2 from rfl]
      rw [show joinNN (blockBody i s :: blockBody (i + 1) s2 ::
          blockBodies (i + 2) rest2) =
        blockBody i s ++ '\n' :: '\n' ::
          joinNN (blockBody (i + 1) s2 :: blockBodies (i + 2) rest2) from rfl]
      simp

theorem blockBodies_mem :
    ∀ (subs : List Subtitle) (i : ℕ) (b : List Char),
      b ∈ blockBodies i subs → ∃ j s, s ∈ subs ∧ b = blockBody j s := by
  intro subs
  induction subs with
  | nil => intro i b hb; simp [blockBodies] at hb
  | cons s rest ih =>
    intro i b hb
    rw [show blockBodies i (s :: rest) =
      blockBody i s :: blockBodies (i + 1) rest from rfl] at hb
    rcases List.mem_cons.mp hb with rfl | h2
    · exact ⟨i, s, by simp, rfl⟩
    · obtain ⟨j, s2, hs2, hb2⟩ := ih (i + 1) b h2
      exact ⟨j, s2, List.mem_cons_of_mem _ hs2, hb2⟩

theorem blockBody_good (i : ℕ) (s : Subtitle) (hne : s.content ≠ [])
    (hstr : strip s.content = s.content)
    (hch : List.Chain' (fun x y => ¬(x = '\n' ∧ y = '\n')) s.content)
    (hs0 : 0 ≤ s.start) (hs1 : s.start < 360000000)
    (he0 : 0 ≤ s.stop) (he1 : s.stop < 360000000)
    (hpyA : pyMs s.start.toNat = s.start.toNat)
    (hpyB : pyMs s.stop.toNat = s.stop.toNat) :
    blockBody i s ≠ [] ∧
      (∀ x ∈ (blockBody i s).head?, isWS x = false) ∧
      (∀ x ∈ (blockBody i s).getLast?, isWS x = false) ∧
      List.Chain' (fun x y => ¬(x = '\n' ∧ y = '\n')) (blockBody i s) := by
  obtain ⟨hparseA, hstripA, hneA, hchA⟩ :=
    format_parse_srt s.start hs0 hs1 hpyA
  obtain ⟨hparseB, hstripB, hneB, hchB⟩ :=
    format_parse_srt s.stop he0 he1 hpyB
  have hAnl := ts_chars_not_nl hchA
  have hBnl := ts_chars_not_nl hchB
  have hrnl : ∀ c ∈ renderNat i, c ≠ '\n' := fun c hc =>
    isDigitB_not_nl (renderNat_digits i c hc)
  have hbody : blockBody i s =
      renderNat i ++ '\n' ::
        ((format_timestamp s.start ['s', 'r', 't'] ++
          ' ' :: '-' :: '-' :: '>' :: ' ' ::
            format_timestamp s.stop ['s', 'r', 't']) ++
          '\n' :: s.content) := by
    simp [blockBody]
  have hTLnl : ∀ c ∈ format_timestamp s.start ['s', 'r', 't'] ++
      ' ' :: '-' :: '-' :: '>' :: ' ' ::
        format_timestamp s.stop ['s', 'r', 't'], c ≠ '\n' := by
    intro c hc
    rcases List.mem_append.mp hc with h1 | h2
    · exact hAnl c h1
    · rcases List.mem_cons.mp h2 with rfl | h3
      · decide
      rcases List.mem_cons.mp h3 with rfl | h4
      · decide
      rcases List.mem_cons.mp h4 with rfl | h5
      · decide
      rcases List.mem_cons.mp h5 with rfl | h6
      · decide
      rcases List.mem_cons.mp h6 with rfl | h7
      · decide
      · exact hBnl c h7
  obtain ⟨c0, r0, hrn⟩ : ∃ c0 r0, renderNat i = c0 :: r0 := by
    cases hx2 : renderNat i with
    | nil => exact absurd hx2 (renderNat_ne_nil i)
    | cons c0 r0 => exact ⟨c0, r0, rfl⟩
  obtain ⟨d0, e2, hcr⟩ : ∃ d0 e2, s.content.reverse = d0 :: e2 := by
    cases hx2 : s.content.reverse with
    | nil => exact absurd (List.reverse_eq_nil_iff.mp hx2) hne
    | cons d0 e2 => exact ⟨d0, e2, rfl⟩
  refine ⟨?_, ?_, ?_, ?_⟩
  · rw [hbody, hrn]
    simp
  · intro x hx
    rw [hbody, hrn] at hx
    have hxc : c0 = x := by simpa using hx
    rw [← hxc]
    exact isDigitB_not_ws (renderNat_digits i c0 (by rw [hrn]; simp))
  · intro x hx
    rw [← List.head?_reverse, hbody] at hx
    simp only [List.reverse_append, List.reverse_cons, List.append_assoc,
      hcr] at hx
    have hxd : d0 = x := by simpa using hx
    rw [← hxd]
    exact strip_self_last hstr d0 (by rw [hcr]; rfl)
  · rw [hbody]
    apply chain_glue hrnl
    · obtain ⟨a0, fr, hfa⟩ : ∃ a0 fr,
          format_timestamp s.start ['s', 'r', 't'] = a0 :: fr := by
        cases hx2 : format_timestamp s.start ['s', 'r', 't'] with
        | nil => exact absurd hx2 hneA
        | cons a0 fr => exact ⟨a0, fr, rfl⟩
      intro x hx
      rw [hfa] at hx
      have hxa : a0 = x := by simpa using hx
      rw [← hxa]
      exact hAnl a0 (by rw [hfa]; simp)
    · apply chain_glue hTLnl
      · intro x hx
        exact not_nl_of_not_ws (strip_self_head hstr x hx)
      · exact hch

end FixSrt

namespace FixSrt

set_option maxRecDepth 4000 in
/-- Counterexample to claim C9 as stated: a one-cue list whose cue ends at
1001 ms satisfies every shape condition of the claim (non-empty trimmed
single-line text, non-negative whole-millisecond timestamps below 100
hours), yet `format_timestamp`'s float detour writes the end as
`00:00:01,000`, so re-reading returns a cue ending at 1000 ms, not 1001. -/
theorem write_read_roundtrip_cex :
    read_srt (write_srt [⟨1, 0, 1001, ['a']⟩] ['s', 'r', 't'])
        ['s', 'r', 't'] =
      some [⟨1, 0, 1000, ['a']⟩] ∧ (1000 : ℤ) ≠ 1001 := by
  decide

/-- Claim C9 (amended): writing a cue list to SRT text with `write_srt` and
re-reading that text with `read_srt` yields a cue list of the same length
whose cues have equal `start`, `end`, and text, and whose indices are `1..N`
in order — provided each cue's text is non-empty, whitespace-trimmed, free
of blank lines, and contains no line-boundary character other than `\n`
(`str.splitlines` also breaks lines at `\v`, `\f`, `\r` and five other
code points), and each cue's `start` and `end` are non-negative
whole-millisecond values below 100 hours whose rendering survives the float
detour `int(total_seconds() * 1000)` exactly (values such as 1001 ms are
truncated by one by that detour and re-read one lower). -/
theorem write_read_roundtrip (subs : List Subtitle)
    (h : ∀ s ∈ subs, s.content ≠ [] ∧ strip s.content = s.content ∧
      List.Chain' (fun x y => ¬(x = '\n' ∧ y = '\n')) s.content ∧
      (∀ c ∈ s.content, isLineBreak c = true → c = '\n') ∧
      0 ≤ s.start ∧ s.start < 360000000 ∧ 0 ≤ s.stop ∧ s.stop < 360000000 ∧
      pyMs s.start.toNat = s.start.toNat ∧
      pyMs s.stop.toNat = s.stop.toNat) :
    read_srt (write_srt subs ['s', 'r', 't']) ['s', 'r', 't'] =
      some (reindex 1 subs) := by
  cases subs with
  | nil => rfl
  | cons s0 rest =>
    have hwsrt : write_srt (s0 :: rest) ['s', 'r', 't'] =
        joinNN (blockBodies 1 (s0 :: rest)) ++ ['\n', '\n'] := by
      rw [write_srt, write_blocks_join (s0 :: rest) 1 (by simp)]
      simp
    have hgoodWS : ∀ b ∈ blockBodies 1 (s0 :: rest), b ≠ [] ∧
        (∀ x ∈ b.head?, isWS x = false) ∧
        (∀ x ∈ b.getLast?, isWS x = false) ∧
        List.Chain' (fun x y => ¬(x = '\n' ∧ y = '\n')) b := by
      intro b hb
      obtain ⟨j, s, hs, rfl⟩ := blockBodies_mem (s0 :: rest) 1 b hb
      obtain ⟨h1, h2, h3, h3b, h4, h5, h6, h7, h8, h9⟩ := h s hs
      exact blockBody_good j s h1 h2 h3 h4 h5 h6 h7 h8 h9
    have hbodies : blockBodies 1 (s0 :: rest) =
        blockBody 1 s0 :: blockBodies 2 rest := rfl
    have hmem0 : blockBody 1 s0 ∈ blockBodies 1 (s0 :: rest) := by
      rw [hbodies]
      simp
    have hstriptext : strip (write_srt (s0 :: rest) ['s', 'r', 't']) =
        joinNN (blockBodies 1 (s0 :: rest)) := by
      rw [hwsrt]
      apply strip_join_nn
      · rw [hbodies]
        exact joinNN_head (blockBody 1 s0) (blockBodies 2 rest)
          (hgoodWS (blockBody 1 s0) hmem0).1
          (hgoodWS (blockBody 1 s0) hmem0).2.1
      · intro x hx
        rw [List.head?_reverse] at hx
        exact joinNN_getLast (blockBodies 1 (s0 :: rest))
          (fun b hb => ⟨(hgoodWS b hb).1, (hgoodWS b hb).2.2.1⟩) x hx
    have hsplit : splitBlocks
        (strip (write_srt (s0 :: rest) ['s', 'r', 't'])) =
        blockBodies 1 (s0 :: rest) := by
      rw [hstriptext]
      unfold splitBlocks
      apply sb_join _ (by rw [hbodies]; simp)
      intro b hb
      obtain ⟨h1, h2, h3, h4⟩ := hgoodWS b hb
      exact ⟨h1, fun x hx => not_nl_of_not_ws (h2 x hx),
        fun x hx => not_nl_of_not_ws (h3 x hx), h4⟩
    simp only [read_srt,
      show ((['s', 'r', 't'] : List Char) == ['v', 't', 't']) = false from
        by decide, Bool.false_eq_true, if_false]
    rw [hsplit]
    exact read_blocks_bodies (s0 :: rest) h 1 0

/-- Witness for C9 at a concrete two-cue list (an out-of-order index `7`, a
two-line text, and timestamps exercising hours, minutes, and odd
milliseconds). -/
theorem write_read_roundtrip_witness :
    (∀ s ∈ ([⟨7, 0, 1000, ['H', 'i']⟩,
        ⟨2, 61000, 3661001, ['a', '\n', 'b']⟩] : List Subtitle),
      s.content ≠ [] ∧ strip s.content = s.content ∧
      List.Chain' (fun x y => ¬(x = '\n' ∧ y = '\n')) s.content ∧
      (∀ c ∈ s.content, isLineBreak c = true → c = '\n') ∧
      0 ≤ s.start ∧ s.start < 360000000 ∧
      0 ≤ s.stop ∧ s.stop < 360000000 ∧
      pyMs s.start.toNat = s.start.toNat ∧
      pyMs s.stop.toNat = s.stop.toNat) ∧
    read_srt (write_srt [⟨7, 0, 1000, ['H', 'i']⟩,
        ⟨2, 61000, 3661001, ['a', '\n', 'b']⟩] ['s', 'r', 't'])
      ['s', 'r', 't'] =
      some (reindex 1 [⟨7, 0, 1000, ['H', 'i']⟩,
        ⟨2, 61000, 3661001, ['a', '\n', 'b']⟩]) := by
  have hh : ∀ s ∈ ([⟨7, 0, 1000, ['H', 'i']⟩,
      ⟨2, 61000, 3661001, ['a', '\n', 'b']⟩] : List Subtitle),
      s.content ≠ [] ∧ strip s.content = s.content ∧
      List.Chain' (fun x y => ¬(x = '\n' ∧ y = '\n')) s.content ∧
      (∀ c ∈ s.content, isLineBreak c = true → c = '\n') ∧
      0 ≤ s.start ∧ s.start < 360000000 ∧
      0 ≤ s.stop ∧ s.stop < 360000000 ∧
      pyMs s.start.toNat = s.start.toNat ∧
      pyMs s.stop.toNat = s.stop.toNat := by
    intro s hs
    rcases List.mem_cons.mp hs with rfl | hs2
    · exact ⟨by decide, by decide, by simp [List.chain'_cons], by decide,
        by decide, by decide, by decide, by decide, by decide, by decide⟩
    rcases List.mem_cons.mp hs2 with rfl | hs3
    · exact ⟨by decide, by decide, by simp [List.chain'_cons], by decide,
        by decide, by decide, by decide, by decide, by decide, by decide⟩
    · simp at hs3
  exact ⟨hh, write_read_roundtrip _ hh⟩

end FixSrt

namespace FixSrt

theorem zh_punct_cases {c : Char} (h : ZH_PUNCT.contains c = true) :
    c = '，' ∨ c = '。' ∨ c = '！' ∨ c = '？' ∨ c = '；' ∨ c = '：' ∨
      c = '、' := by
  have h2 : c ∈ ZH_PUNCT := by simpa using h
  simpa [ZH_PUNCT] using h2

theorem en_punct_cases {c : Char} (h : EN_PUNCT.contains c = true) :
    c = '.' ∨ c = ',' ∨ c = '!' ∨ c = '?' ∨ c = ';' ∨ c = ':' := by
  have h2 : c ∈ EN_PUNCT := by simpa using h
  simpa [EN_PUNCT] using h2

theorem zh_punct_not_ws {c : Char} (h : ZH_PUNCT.contains c = true) :
    isWS c = false := by
  rcases zh_punct_cases h with rfl | rfl | rfl | rfl | rfl | rfl | rfl <;>
    decide

theorem en_punct_not_ws {c : Char} (h : EN_PUNCT.contains c = true) :
    isWS c = false := by
  rcases en_punct_cases h with rfl | rfl | rfl | rfl | rfl | rfl <;> decide

theorem zh_punct_not_cjk {c : Char} (h : ZH_PUNCT.contains c = true) :
    isCJK c = false := by
  rcases zh_punct_cases h with rfl | rfl | rfl | rfl | rfl | rfl | rfl <;>
    decide

theorem zh_punct_not_lat {c : Char} (h : ZH_PUNCT.contains c = true) :
    isLatinDigit c = false := by
  rcases zh_punct_cases h with rfl | rfl | rfl | rfl | rfl | rfl | rfl <;>
    decide

theorem ws_not_punct {puncts : List Char}
    (hP : ∀ c, puncts.contains c = true → isWS c = false)
    {y : Char} (hy : isWS y = true) : puncts.contains y = false := by
  cases hc : puncts.contains y with
  | false => rfl
  | true => exact absurd (hP y hc) (by simp [hy])

theorem ws_not_lat {c : Char} (h : isWS c = true) : isLatinDigit c = false := by
  rw [isWS_eq_true_iff] at h
  rcases h with rfl | rfl | rfl | rfl | rfl | rfl | rfl <;> decide

theorem ws_not_cjk {c : Char} (h : isWS c = true) : isCJK c = false := by
  rw [isWS_eq_true_iff] at h
  rcases h with rfl | rfl | rfl | rfl | rfl | rfl | rfl <;> decide

theorem sptab_ws {c : Char} (h : isSpTabNbsp c = true) : isWS c = true := by
  simp only [isSpTabNbsp, Bool.or_eq_true, beq_iff_eq] at h
  rcases h with (rfl | rfl) | rfl <;> decide

theorem sptab_clean_space {c : Char} (h : isSpTabNbsp c = true)
    (h1 : c ≠ '\t') (h2 : c ≠ '\u00A0') : c = ' ' := by
  simp only [isSpTabNbsp, Bool.or_eq_true, beq_iff_eq] at h
  rcases h with (rfl | rfl) | rfl
  · rfl
  · exact absurd rfl h1
  · exact absurd (by decide) h2

theorem chain_allsafe {R : Char → Char → Prop} {l : List Char}
    (h : ∀ y ∈ l, ∀ x, R x y) : List.Chain' R l := by
  induction l with
  | nil => simp
  | cons c l ih =>
    rw [List.chain'_cons']
    constructor
    · intro b hb
      exact h b (List.mem_cons_of_mem c (List.mem_of_mem_head? hb)) c
    · exact ih (fun y hy x => h y (List.mem_cons_of_mem c hy) x)

end FixSrt

namespace FixSrt

theorem getLast?_cons_of_some {α : Type} {l : List α} {d : α} (c : α)
    (h : l.getLast? = some d) : (c :: l).getLast? = some d := by
  cases l with
  | nil => simp at h
  | cons x xs => rw [List.getLast?_cons_cons]; exact h

theorem dsb_cons_nonws {puncts : List Char} {c : Char}
    (hc : isWS c = false) (l : List Char) :
    delSpaceBeforeGo puncts [] (c :: l) =
      c :: delSpaceBeforeGo puncts [] l := by
  by_cases hp : puncts.contains c = true
  · simp [delSpaceBeforeGo, hc, hp]
  · simp [delSpaceBeforeGo, hc, hp]

theorem dsb_chain (puncts : List Char)
    (hP : ∀ c, puncts.contains c = true → isWS c = false) :
    ∀ (cs pend : List Char), (∀ x ∈ pend, isWS x = true) →
      List.Chain' (fun x y => ¬(isWS x = true ∧ puncts.contains y = true))
        (delSpaceBeforeGo puncts pend cs) := by
  intro cs
  induction cs with
  | nil =>
    intro pend hpend
    rw [delSpaceBeforeGo]
    apply chain_allsafe
    intro y hy x hxy
    rw [List.mem_reverse] at hy
    rw [ws_not_punct hP (hpend y hy)] at hxy
    exact absurd hxy.2 (by simp)
  | cons c cs ih =>
    intro pend hpend
    by_cases hw : isWS c = true
    · rw [delSpaceBeforeGo, if_pos hw]
      exact ih (c :: pend) (by
        intro x hx
        rcases List.mem_cons.mp hx with rfl | h2
        · exact hw
        · exact hpend x h2)
    · by_cases hp : puncts.contains c = true
      · rw [delSpaceBeforeGo, if_neg hw, if_pos hp]
        rw [List.chain'_cons']
        refine ⟨?_, ih [] (by simp)⟩
        intro b hb hcon
        exact absurd hcon.1 (by simp [hw])
      · rw [delSpaceBeforeGo, if_neg hw, if_neg hp]
        rw [List.chain'_append]
        refine ⟨?_, ?_, ?_⟩
        · apply chain_allsafe
          intro y hy x hxy
          rw [List.mem_reverse] at hy
          rw [ws_not_punct hP (hpend y hy)] at hxy
          exact absurd hxy.2 (by simp)
        · rw [List.chain'_cons']
          refine ⟨?_, ih [] (by simp)⟩
          intro b hb hcon
          exact absurd hcon.1 (by simp [hw])
        · intro x hx y hy hcon
          have hyc : c = y := by simpa using hy
          rw [← hyc] at hcon
          exact absurd hcon.2 hp

theorem dsb_mem {puncts : List Char} :
    ∀ (cs pend : List Char) (c : Char),
      c ∈ delSpaceBeforeGo puncts pend cs → c ∈ pend ∨ c ∈ cs := by
  intro cs
  induction cs with
  | nil =>
    intro pend c hc
    rw [delSpaceBeforeGo] at hc
    rw [List.mem_reverse] at hc
    exact Or.inl hc
  | cons c0 cs ih =>
    intro pend c hc
    by_cases hw : isWS c0 = true
    · rw [delSpaceBeforeGo, if_pos hw] at hc
      rcases ih (c0 :: pend) c hc with h1 | h2
      · rcases List.mem_cons.mp h1 with rfl | h3
        · exact Or.inr (by simp)
        · exact Or.inl h3
      · exact Or.inr (List.mem_cons_of_mem _ h2)
    · by_cases hp : puncts.contains c0 = true
      · rw [delSpaceBeforeGo, if_neg hw, if_pos hp] at hc
        rcases List.mem_cons.mp hc with rfl | h2
        · exact Or.inr (by simp)
        · rcases ih [] c h2 with h3 | h3
          · simp at h3
          · exact Or.inr (List.mem_cons_of_mem _ h3)
      · rw [delSpaceBeforeGo, if_neg hw, if_neg hp] at hc
        rcases List.mem_append.mp hc with h1 | h2
        · rw [List.mem_reverse] at h1
          exact Or.inl h1
        · rcases List.mem_cons.mp h2 with rfl | h3
          · exact Or.inr (by simp)
          · rcases ih [] c h3 with h4 | h4
            · simp at h4
            · exact Or.inr (List.mem_cons_of_mem _ h4)

theorem dsb_last {puncts : List Char} :
    ∀ (cs pend : List Char) (d : Char), cs.getLast? = some d →
      isWS d = false →
      (delSpaceBeforeGo puncts pend cs).getLast? = some d := by
  intro cs
  induction cs with
  | nil => intro pend d h; simp at h
  | cons c0 cs ih =>
    intro pend d h hd
    cases cs with
    | nil =>
      have hc0 : c0 = d := by simpa using h
      subst hc0
      rw [delSpaceBeforeGo, if_neg (by simp [hd])]
      by_cases hp : puncts.contains c0 = true
      · rw [if_pos hp]
        rw [show delSpaceBeforeGo puncts [] ([] : List Char) = [] from rfl]
        rfl
      · rw [if_neg hp]
        rw [show delSpaceBeforeGo puncts [] ([] : List Char) = [] from rfl]
        rw [List.getLast?_append_of_ne_nil _ (by simp)]
        rfl
    | cons c1 cs1 =>
      rw [List.getLast?_cons_cons] at h
      by_cases hw : isWS c0 = true
      · rw [delSpaceBeforeGo, if_pos hw]
        exact ih (c0 :: pend) d h hd
      · by_cases hp : puncts.contains c0 = true
        · rw [delSpaceBeforeGo, if_neg hw, if_pos hp]
          exact getLast?_cons_of_some c0 (ih [] d h hd)
        · rw [delSpaceBeforeGo, if_neg hw, if_neg hp]
          rw [List.getLast?_append_of_ne_nil _ (by simp)]
          exact getLast?_cons_of_some c0 (ih [] d h hd)

theorem dsb_fix {puncts : List Char} :
    ∀ (e : List Char), NoWsBefore puncts e → NoAdjWs e →
      delSpaceBeforeGo puncts [] e = e := by
  intro e
  induction e with
  | nil => intro h1 h2; rfl
  | cons c cs ih =>
    intro h1 h2
    unfold NoWsBefore at h1
    unfold NoAdjWs at h2
    rw [List.chain'_cons'] at h1 h2
    by_cases hw : isWS c = true
    · cases cs with
      | nil =>
        rw [delSpaceBeforeGo, if_pos hw]
        rfl
      | cons d cs1 =>
        have hdp : puncts.contains d = false := by
          have := h1.1 d rfl
          cases hx : puncts.contains d with
          | false => rfl
          | true => exact absurd ⟨hw, hx⟩ this
        have hdw : isWS d = false := by
          have := h2.1 d rfl
          cases hx : isWS d with
          | false => rfl
          | true => exact absurd ⟨hw, hx⟩ this
        have ihd := ih h1.2 h2.2
        rw [dsb_cons_nonws hdw] at ihd
        have hcs1 : delSpaceBeforeGo puncts [] cs1 = cs1 :=
          List.cons.injEq .. ▸ (ihd : _) |>.2
        rw [delSpaceBeforeGo, if_pos hw]
        rw [delSpaceBeforeGo, if_neg (by simp [hdw]),
          if_neg (by simp only [hdp]; simp)]
        rw [hcs1]
        rfl
    · rw [dsb_cons_nonws (by simpa using hw)]
      rw [ih h1.2 h2.2]

end FixSrt

namespace FixSrt

theorem insCJK_head : ∀ (cs : List Char),
    (insertSpaceCJKLatin cs).head? = cs.head? := by
  intro cs
  match cs with
  | [] => rfl
  | [c] => rfl
  | c :: d :: cs2 =>
    by_cases h : (isCJK c && isLatinDigit d) = true <;>
      simp [insertSpaceCJKLatin, h]

theorem insLat_head : ∀ (cs : List Char),
    (insertSpaceLatinCJK cs).head? = cs.head? := by
  intro cs
  match cs with
  | [] => rfl
  | [c] => rfl
  | c :: d :: cs2 =>
    by_cases h : (isLatinDigit c && isCJK d) = true <;>
      simp [insertSpaceLatinCJK, h]

theorem insCJK_out : ∀ (cs : List Char), NoCJKLat (insertSpaceCJKLatin cs) := by
  intro cs
  induction cs with
  | nil => simp [insertSpaceCJKLatin, NoCJKLat]
  | cons c cs ih =>
    cases cs with
    | nil => simp [insertSpaceCJKLatin, NoCJKLat]
    | cons d cs2 =>
      unfold NoCJKLat at ih ⊢
      by_cases h : (isCJK c && isLatinDigit d) = true
      · rw [show insertSpaceCJKLatin (c :: d :: cs2) =
          c :: ' ' :: insertSpaceCJKLatin (d :: cs2) from by
            simp [insertSpaceCJKLatin, h]]
        rw [List.chain'_cons']
        refine ⟨?_, ?_⟩
        · intro b hb hcon
          have hb2 : ' ' = b := by simpa using hb
          rw [← hb2] at hcon
          exact absurd hcon.2 (by decide)
        · rw [List.chain'_cons']
          refine ⟨?_, ih⟩
          intro b hb hcon
          exact absurd hcon.1 (by decide)
      · rw [show insertSpaceCJKLatin (c :: d :: cs2) =
          c :: insertSpaceCJKLatin (d :: cs2) from by
            simp [insertSpaceCJKLatin, h]]
        rw [List.chain'_cons']
        refine ⟨?_, ih⟩
        intro b hb hcon
        rw [insCJK_head] at hb
        have hb2 : d = b := by simpa using hb
        rw [← hb2] at hcon
        rw [hcon.1, hcon.2] at h
        exact h rfl

theorem insLat_out : ∀ (cs : List Char), NoLatCJK (insertSpaceLatinCJK cs) := by
  intro cs
  induction cs with
  | nil => simp [insertSpaceLatinCJK, NoLatCJK]
  | cons c cs ih =>
    cases cs with
    | nil => simp [insertSpaceLatinCJK, NoLatCJK]
    | cons d cs2 =>
      unfold NoLatCJK at ih ⊢
      by_cases h : (isLatinDigit c && isCJK d) = true
      · rw [show insertSpaceLatinCJK (c :: d :: cs2) =
          c :: ' ' :: insertSpaceLatinCJK (d :: cs2) from by
            simp [insertSpaceLatinCJK, h]]
        rw [List.chain'_cons']
        refine ⟨?_, ?_⟩
        · intro b hb hcon
          have hb2 : ' ' = b := by simpa using hb
          rw [← hb2] at hcon
          exact absurd hcon.2 (by decide)
        · rw [List.chain'_cons']
          refine ⟨?_, ih⟩
          intro b hb hcon
          exact absurd hcon.1 (by decide)
      · rw [show insertSpaceLatinCJK (c :: d :: cs2) =
          c :: insertSpaceLatinCJK (d :: cs2) from by
            simp [insertSpaceLatinCJK, h]]
        rw [List.chain'_cons']
        refine ⟨?_, ih⟩
        intro b hb hcon
        rw [insLat_head] at hb
        have hb2 : d = b := by simpa using hb
        rw [← hb2] at hcon
        rw [hcon.1, hcon.2] at h
        exact h rfl

theorem insCJK_pres {R : Char → Char → Prop} (h1 : ∀ x, R x ' ')
    (h2 : ∀ y, isLatinDigit y = true → R ' ' y) :
    ∀ (cs : List Char), List.Chain' R cs →
      List.Chain' R (insertSpaceCJKLatin cs) := by
  intro cs
  induction cs with
  | nil => intro h; simpa [insertSpaceCJKLatin] using h
  | cons c cs ih =>
    intro hch
    cases cs with
    | nil => simpa [insertSpaceCJKLatin] using hch
    | cons d cs2 =>
      rw [List.chain'_cons'] at hch
      by_cases h : (isCJK c && isLatinDigit d) = true
      · rw [show insertSpaceCJKLatin (c :: d :: cs2) =
          c :: ' ' :: insertSpaceCJKLatin (d :: cs2) from by
            simp [insertSpaceCJKLatin, h]]
        rw [List.chain'_cons']
        refine ⟨fun b hb => by
          have hb2 : ' ' = b := by simpa using hb
          rw [← hb2]
          exact h1 c, ?_⟩
        rw [List.chain'_cons']
        refine ⟨fun b hb => by
          rw [insCJK_head] at hb
          have hb2 : d = b := by simpa using hb
          rw [← hb2]
          exact h2 d (by
            rw [Bool.and_eq_true] at h
            exact h.2), ih hch.2⟩
      · rw [show insertSpaceCJKLatin (c :: d :: cs2) =
          c :: insertSpaceCJKLatin (d :: cs2) from by
            simp [insertSpaceCJKLatin, h]]
        rw [List.chain'_cons']
        refine ⟨fun b hb => by
          rw [insCJK_head] at hb
          have hb2 : d = b := by simpa using hb
          rw [← hb2]
          exact hch.1 d rfl, ih hch.2⟩

theorem insLat_pres {R : Char → Char → Prop} (h1 : ∀ x, R x ' ')
    (h2 : ∀ y, isCJK y = true → R ' ' y) :
    ∀ (cs : List Char), List.Chain' R cs →
      List.Chain' R (insertSpaceLatinCJK cs) := by
  intro cs
  induction cs with
  | nil => intro h; simpa [insertSpaceLatinCJK] using h
  | cons c cs ih =>
    intro hch
    cases cs with
    | nil => simpa [insertSpaceLatinCJK] using hch
    | cons d cs2 =>
      rw [List.chain'_cons'] at hch
      by_cases h : (isLatinDigit c && isCJK d) = true
      · rw [show insertSpaceLatinCJK (c :: d :: cs2) =
          c :: ' ' :: insertSpaceLatinCJK (d :: cs2) from by
            simp [insertSpaceLatinCJK, h]]
        rw [List.chain'_cons']
        refine ⟨fun b hb => by
          have hb2 : ' ' = b := by simpa using hb
          rw [← hb2]
          exact h1 c, ?_⟩
        rw [List.chain'_cons']
        refine ⟨fun b hb => by
          rw [insLat_head] at hb
          have hb2 : d = b := by simpa using hb
          rw [← hb2]
          exact h2 d (by
            rw [Bool.and_eq_true] at h
            exact h.2), ih hch.2⟩
      · rw [show insertSpaceLatinCJK (c :: d :: cs2) =
          c :: insertSpaceLatinCJK (d :: cs2) from by
            simp [insertSpaceLatinCJK, h]]
        rw [List.chain'_cons']
        refine ⟨fun b hb => by
          rw [insLat_head] at hb
          have hb2 : d = b := by simpa using hb
          rw [← hb2]
          exact hch.1 d rfl, ih hch.2⟩

theorem insCJK_mem : ∀ (cs : List Char) (c : Char),
    c ∈ insertSpaceCJKLatin cs → c ∈ cs ∨ c = ' ' := by
  intro cs
  induction cs with
  | nil => intro c hc; simp [insertSpaceCJKLatin] at hc
  | cons c0 cs ih =>
    intro c hc
    cases cs with
    | nil =>
      simp [insertSpaceCJKLatin] at hc
      exact Or.inl (by simp [hc])
    | cons d cs2 =>
      by_cases h : (isCJK c0 && isLatinDigit d) = true
      · rw [show insertSpaceCJKLatin (c0 :: d :: cs2) =
          c0 :: ' ' :: insertSpaceCJKLatin (d :: cs2) from by
            simp [insertSpaceCJKLatin, h]] at hc
        rcases List.mem_cons.mp hc with rfl | hc2
        · exact Or.inl (by simp)
        rcases List.mem_cons.mp hc2 with rfl | hc3
        · exact Or.inr rfl
        · rcases ih c hc3 with h4 | h4
          · exact Or.inl (List.mem_cons_of_mem _ h4)
          · exact Or.inr h4
      · rw [show insertSpaceCJKLatin (c0 :: d :: cs2) =
          c0 :: insertSpaceCJKLatin (d :: cs2) from by
            simp [insertSpaceCJKLatin, h]] at hc
        rcases List.mem_cons.mp hc with rfl | hc2
        · exact Or.inl (by simp)
        · rcases ih c hc2 with h4 | h4
          · exact Or.inl (List.mem_cons_of_mem _ h4)
          · exact Or.inr h4

theorem insLat_mem : ∀ (cs : List Char) (c : Char),
    c ∈ insertSpaceLatinCJK cs → c ∈ cs ∨ c = ' ' := by
  intro cs
  induction cs with
  | nil => intro c hc; simp [insertSpaceLatinCJK] at hc
  | cons c0 cs ih =>
    intro c hc
    cases cs with
    | nil =>
      simp [insertSpaceLatinCJK] at hc
      exact Or.inl (by simp [hc])
    | cons d cs2 =>
      by_cases h : (isLatinDigit c0 && isCJK d) = true
      · rw [show insertSpaceLatinCJK (c0 :: d :: cs2) =
          c0 :: ' ' :: insertSpaceLatinCJK (d :: cs2) from by
            simp [insertSpaceLatinCJK, h]] at hc
        rcases List.mem_cons.mp hc with rfl | hc2
        · exact Or.inl (by simp)
        rcases List.mem_cons.mp hc2 with rfl | hc3
        · exact Or.inr rfl
        · rcases ih c hc3 with h4 | h4
          · exact Or.inl (List.mem_cons_of_mem _ h4)
          · exact Or.inr h4
      · rw [show insertSpaceLatinCJK (c0 :: d :: cs2) =
          c0 :: insertSpaceLatinCJK (d :: cs2) from by
            simp [insertSpaceLatinCJK, h]] at hc
        rcases List.mem_cons.mp hc with rfl | hc2
        · exact Or.inl (by simp)
        · rcases ih c hc2 with h4 | h4
          · exact Or.inl (List.mem_cons_of_mem _ h4)
          · exact Or.inr h4

theorem insCJK_last : ∀ (cs : List Char) (d0 : Char),
    cs.getLast? = some d0 →
    (insertSpaceCJKLatin cs).getLast? = some d0 := by
  intro cs
  induction cs with
  | nil => intro d0 h; simp at h
  | cons c cs ih =>
    intro d0 h
    cases cs with
    | nil =>
      have : c = d0 := by simpa using h
      subst this
      rfl
    | cons d cs2 =>
      rw [List.getLast?_cons_cons] at h
      by_cases hb : (isCJK c && isLatinDigit d) = true
      · rw [show insertSpaceCJKLatin (c :: d :: cs2) =
          c :: ' ' :: insertSpaceCJKLatin (d :: cs2) from by
            simp [insertSpaceCJKLatin, hb]]
        exact getLast?_cons_of_some c (getLast?_cons_of_some ' ' (ih d0 h))
      · rw [show insertSpaceCJKLatin (c :: d :: cs2) =
          c :: insertSpaceCJKLatin (d :: cs2) from by
            simp [insertSpaceCJKLatin, hb]]
        exact getLast?_cons_of_some c (ih d0 h)

theorem insLat_last : ∀ (cs : List Char) (d0 : Char),
    cs.getLast? = some d0 →
    (insertSpaceLatinCJK cs).getLast? = some d0 := by
  intro cs
  induction cs with
  | nil => intro d0 h; simp at h
  | cons c cs ih =>
    intro d0 h
    cases cs with
    | nil =>
      have : c = d0 := by simpa using h
      subst this
      rfl
    | cons d cs2 =>
      rw [List.getLast?_cons_cons] at h
      by_cases hb : (isLatinDigit c && isCJK d) = true
      · rw [show insertSpaceLatinCJK (c :: d :: cs2) =
          c :: ' ' :: insertSpaceLatinCJK (d :: cs2) from by
            simp [insertSpaceLatinCJK, hb]]
        exact getLast?_cons_of_some c (getLast?_cons_of_some ' ' (ih d0 h))
      · rw [show insertSpaceLatinCJK (c :: d :: cs2) =
          c :: insertSpaceLatinCJK (d :: cs2) from by
            simp [insertSpaceLatinCJK, hb]]
        exact getLast?_cons_of_some c (ih d0 h)

theorem insCJK_fix : ∀ (e : List Char), NoCJKLat e →
    insertSpaceCJKLatin e = e := by
  intro e
  induction e with
  | nil => intro h; rfl
  | cons c cs ih =>
    intro h
    cases cs with
    | nil => rfl
    | cons d cs2 =>
      unfold NoCJKLat at h
      rw [List.chain'_cons'] at h
      have hcd : (isCJK c && isLatinDigit d) = false := by
        have h1 := h.1 d rfl
        cases hx : isCJK c <;> cases hy : isLatinDigit d <;>
          simp [hx, hy] at h1 ⊢
      rw [show insertSpaceCJKLatin (c :: d :: cs2) =
        c :: insertSpaceCJKLatin (d :: cs2) from by
          simp [insertSpaceCJKLatin, hcd]]
      rw [ih h.2]

theorem insLat_fix : ∀ (e : List Char), NoLatCJK e →
    insertSpaceLatinCJK e = e := by
  intro e
  induction e with
  | nil => intro h; rfl
  | cons c cs ih =>
    intro h
    cases cs with
    | nil => rfl
    | cons d cs2 =>
      unfold NoLatCJK at h
      rw [List.chain'_cons'] at h
      have hcd : (isLatinDigit c && isCJK d) = false := by
        have h1 := h.1 d rfl
        cases hx : isLatinDigit c <;> cases hy : isCJK d <;>
          simp [hx, hy] at h1 ⊢
      rw [show insertSpaceLatinCJK (c :: d :: cs2) =
        c :: insertSpaceLatinCJK (d :: cs2) from by
          simp [insertSpaceLatinCJK, hcd]]
      rw [ih h.2]

end FixSrt

namespace FixSrt

theorem cwr_cons_nonws {c : Char} (hc : isWS c = false) :
    ∀ (b : Bool) (cs : List Char),
      collapseWsRunsGo b (c :: cs) = c :: collapseWsRunsGo false cs := by
  intro b cs
  cases b <;> simp [collapseWsRunsGo, hc]

theorem cwr_true_head : ∀ (cs : List Char),
    ∀ x ∈ (collapseWsRunsGo true cs).head?, isWS x = false := by
  intro cs
  induction cs with
  | nil => intro x hx; simp [collapseWsRunsGo] at hx
  | cons c cs ih =>
    intro x hx
    by_cases hc : isWS c = true
    · rw [show collapseWsRunsGo true (c :: cs) = collapseWsRunsGo true cs
        from by simp [collapseWsRunsGo, hc]] at hx
      exact ih x hx
    · rw [cwr_cons_nonws (by simpa using hc)] at hx
      have : c = x := by simpa using hx
      rw [← this]
      simpa using hc

theorem cwr_false_head : ∀ (cs : List Char) (x : Char),
    (collapseWsRunsGo false cs).head? = some x →
    isWS x = true ∨ cs.head? = some x := by
  intro cs x h
  cases cs with
  | nil => simp [collapseWsRunsGo] at h
  | cons c cs =>
    by_cases hc : isWS c = true
    · cases cs with
      | nil =>
        rw [show collapseWsRunsGo false [c] = [c] from by
          simp [collapseWsRunsGo, hc]] at h
        have : c = x := by simpa using h
        rw [← this]
        exact Or.inl hc
      | cons d cs2 =>
        by_cases hd : isWS d = true
        · rw [show collapseWsRunsGo false (c :: d :: cs2) =
            ' ' :: collapseWsRunsGo true (d :: cs2) from by
              simp [collapseWsRunsGo, hc, hd]] at h
          have : ' ' = x := by simpa using h
          rw [← this]
          exact Or.inl (by decide)
        · rw [show collapseWsRunsGo false (c :: d :: cs2) =
            c :: collapseWsRunsGo false (d :: cs2) from by
              simp [collapseWsRunsGo, hc, hd]] at h
          have : c = x := by simpa using h
          rw [← this]
          exact Or.inl hc
    · rw [cwr_cons_nonws (by simpa using hc)] at h
      have : c = x := by simpa using h
      rw [← this]
      exact Or.inr rfl

theorem cwr_out : ∀ (cs : List Char) (b : Bool),
    NoAdjWs (collapseWsRunsGo b cs) := by
  intro cs
  induction cs with
  | nil => intro b; cases b <;> simp [collapseWsRunsGo, NoAdjWs]
  | cons c cs ih =>
    intro b
    by_cases hc : isWS c = true
    · cases b with
      | true =>
        rw [show collapseWsRunsGo true (c :: cs) = collapseWsRunsGo true cs
          from by simp [collapseWsRunsGo, hc]]
        exact ih true
      | false =>
        cases cs with
        | nil =>
          rw [show collapseWsRunsGo false [c] = [c] from by
            simp [collapseWsRunsGo, hc]]
          simp [NoAdjWs]
        | cons d cs2 =>
          by_cases hd : isWS d = true
          · rw [show collapseWsRunsGo false (c :: d :: cs2) =
              ' ' :: collapseWsRunsGo true (d :: cs2) from by
                simp [collapseWsRunsGo, hc, hd]]
            unfold NoAdjWs
            rw [List.chain'_cons']
            refine ⟨?_, ih true⟩
            intro y hy hcon
            exact absurd hcon.2 (by simp [cwr_true_head (d :: cs2) y hy])
          · rw [show collapseWsRunsGo false (c :: d :: cs2) =
              c :: collapseWsRunsGo false (d :: cs2) from by
                simp [collapseWsRunsGo, hc, hd]]
            unfold NoAdjWs
            rw [List.chain'_cons']
            refine ⟨?_, ih false⟩
            intro y hy hcon
            rw [cwr_cons_nonws (by simpa using hd)] at hy
            have hyd : d = y := by simpa using hy
            rw [← hyd] at hcon
            exact absurd hcon.2 (by simp [hd])
    · rw [cwr_cons_nonws (by simpa using hc)]
      unfold NoAdjWs
      rw [List.chain'_cons']
      refine ⟨?_, ih false⟩
      intro y hy hcon
      exact absurd hcon.1 (by simpa using hc)

end FixSrt

namespace FixSrt

theorem cwr_pres {R : Char → Char → Prop}
    (hW : ∀ x y, isWS x = true ∨ isWS y = true → R x y) :
    ∀ (cs : List Char) (b : Bool), List.Chain' R cs →
      List.Chain' R (collapseWsRunsGo b cs) := by
  intro cs
  induction cs with
  | nil => intro b h; cases b <;> simp [collapseWsRunsGo]
  | cons c cs ih =>
    intro b hch
    rw [List.chain'_cons'] at hch
    by_cases hc : isWS c = true
    · cases b with
      | true =>
        rw [show collapseWsRunsGo true (c :: cs) = collapseWsRunsGo true cs
          from by simp [collapseWsRunsGo, hc]]
        exact ih true hch.2
      | false =>
        cases cs with
        | nil =>
          rw [show collapseWsRunsGo false [c] = [c] from by
            simp [collapseWsRunsGo, hc]]
          simp
        | cons d cs2 =>
          by_cases hd : isWS d = true
          · rw [show collapseWsRunsGo false (c :: d :: cs2) =
              ' ' :: collapseWsRunsGo true (d :: cs2) from by
                simp [collapseWsRunsGo, hc, hd]]
            rw [List.chain'_cons']
            exact ⟨fun y hy => hW ' ' y (Or.inl (by decide)), ih true hch.2⟩
          · rw [show collapseWsRunsGo false (c :: d :: cs2) =
              c :: collapseWsRunsGo false (d :: cs2) from by
                simp [collapseWsRunsGo, hc, hd]]
            rw [List.chain'_cons']
            refine ⟨?_, ih false hch.2⟩
            intro y hy
            exact hW c y (Or.inl hc)
    · rw [cwr_cons_nonws (by simpa using hc)]
      rw [List.chain'_cons']
      refine ⟨?_, ih false hch.2⟩
      intro y hy
      rcases cwr_false_head cs y hy with h1 | h1
      · exact hW c y (Or.inr h1)
      · exact hch.1 y h1

theorem cwr_true_headP {puncts : List Char}
    (hP : ∀ c, puncts.contains c = true → isWS c = false) :
    ∀ (cs : List Char),
      List.Chain' (fun x y => ¬(isWS x = true ∧ puncts.contains y = true))
        cs →
      (∀ x ∈ cs.head?, puncts.contains x = false ∨ isWS x = true) →
      ∀ y ∈ (collapseWsRunsGo true cs).head?, puncts.contains y = false := by
  intro cs
  induction cs with
  | nil => intro _ _ y hy; simp [collapseWsRunsGo] at hy
  | cons c cs ih =>
    intro hch hhd y hy
    rw [List.chain'_cons'] at hch
    by_cases hc : isWS c = true
    · rw [show collapseWsRunsGo true (c :: cs) = collapseWsRunsGo true cs
        from by simp [collapseWsRunsGo, hc]] at hy
      refine ih hch.2 ?_ y hy
      intro x hx
      cases hpx : puncts.contains x with
      | false => exact Or.inl rfl
      | true => exact absurd ⟨hc, hpx⟩ (hch.1 x hx)
    · rw [cwr_cons_nonws (by simpa using hc)] at hy
      have hcy : c = y := by simpa using hy
      rw [← hcy]
      rcases hhd c rfl with h1 | h1
      · exact h1
      · exact absurd h1 (by simpa using hc)

theorem cwr_presP {puncts : List Char}
    (hP : ∀ c, puncts.contains c = true → isWS c = false) :
    ∀ (cs : List Char) (b : Bool),
      List.Chain' (fun x y => ¬(isWS x = true ∧ puncts.contains y = true))
        cs →
      (b = true → ∀ x ∈ cs.head?, puncts.contains x = false ∨ isWS x = true) →
      List.Chain' (fun x y => ¬(isWS x = true ∧ puncts.contains y = true))
        (collapseWsRunsGo b cs) := by
  intro cs
  induction cs with
  | nil => intro b _ _; cases b <;> simp [collapseWsRunsGo]
  | cons c cs ih =>
    intro b hch hbh
    rw [List.chain'_cons'] at hch
    by_cases hc : isWS c = true
    · cases b with
      | true =>
        rw [show collapseWsRunsGo true (c :: cs) = collapseWsRunsGo true cs
          from by simp [collapseWsRunsGo, hc]]
        refine ih true hch.2 ?_
        intro _ x hx
        cases hpx : puncts.contains x with
        | false => exact Or.inl rfl
        | true => exact absurd ⟨hc, hpx⟩ (hch.1 x hx)
      | false =>
        cases cs with
        | nil =>
          rw [show collapseWsRunsGo false [c] = [c] from by
            simp [collapseWsRunsGo, hc]]
          simp
        | cons d cs2 =>
          by_cases hd : isWS d = true
          · rw [show collapseWsRunsGo false (c :: d :: cs2) =
              ' ' :: collapseWsRunsGo true (d :: cs2) from by
                simp [collapseWsRunsGo, hc, hd]]
            rw [List.chain'_cons']
            refine ⟨?_, ih true hch.2 (fun _ x hx => ?_)⟩
            · intro y hy hcon
              have := cwr_true_headP hP (d :: cs2) hch.2
                (fun x hx => Or.inr (by
                  have hxd : d = x := by simpa using hx
                  rw [← hxd]; exact hd)) y hy
              rw [this] at hcon
              exact absurd hcon.2 (by simp)
            · cases hpx : puncts.contains x with
              | false => exact Or.inl rfl
              | true =>
                have hxd : d = x := by simpa using hx
                rw [← hxd]
                exact Or.inr hd
          · rw [show collapseWsRunsGo false (c :: d :: cs2) =
              c :: collapseWsRunsGo false (d :: cs2) from by
                simp [collapseWsRunsGo, hc, hd]]
            rw [List.chain'_cons']
            refine ⟨?_, ih false hch.2 (by simp)⟩
            intro y hy hcon
            rw [cwr_cons_nonws (by simpa using hd)] at hy
            have hyd : d = y := by simpa using hy
            rw [← hyd] at hcon
            exact absurd hcon (hch.1 d rfl)
    · rw [cwr_cons_nonws (by simpa using hc)]
      rw [List.chain'_cons']
      refine ⟨?_, ih false hch.2 (by simp)⟩
      intro y hy hcon
      exact absurd hcon.1 (by simpa using hc)

theorem cwr_mem : ∀ (cs : List Char) (b : Bool) (c : Char),
    c ∈ collapseWsRunsGo b cs → c ∈ cs ∨ c = ' ' := by
  intro cs
  induction cs with
  | nil => intro b c hc; cases b <;> simp [collapseWsRunsGo] at hc
  | cons c0 cs ih =>
    intro b c hc
    by_cases h0 : isWS c0 = true
    · cases b with
      | true =>
        rw [show collapseWsRunsGo true (c0 :: cs) = collapseWsRunsGo true cs
          from by simp [collapseWsRunsGo, h0]] at hc
        rcases ih true c hc with h1 | h1
        · exact Or.inl (List.mem_cons_of_mem _ h1)
        · exact Or.inr h1
      | false =>
        cases cs with
        | nil =>
          rw [show collapseWsRunsGo false [c0] = [c0] from by
            simp [collapseWsRunsGo, h0]] at hc
          exact Or.inl (by simpa using hc)
        | cons d cs2 =>
          by_cases hd : isWS d = true
          · rw [show collapseWsRunsGo false (c0 :: d :: cs2) =
              ' ' :: collapseWsRunsGo true (d :: cs2) from by
                simp [collapseWsRunsGo, h0, hd]] at hc
            rcases List.mem_cons.mp hc with rfl | hc2
            · exact Or.inr rfl
            · rcases ih true c hc2 with h1 | h1
              · exact Or.inl (List.mem_cons_of_mem _ h1)
              · exact Or.inr h1
          · rw [show collapseWsRunsGo false (c0 :: d :: cs2) =
              c0 :: collapseWsRunsGo false (d :: cs2) from by
                simp [collapseWsRunsGo, h0, hd]] at hc
            rcases List.mem_cons.mp hc with rfl | hc2
            · exact Or.inl (by simp)
            · rcases ih false c hc2 with h1 | h1
              · exact Or.inl (List.mem_cons_of_mem _ h1)
              · exact Or.inr h1
    · rw [cwr_cons_nonws (by simpa using h0)] at hc
      rcases List.mem_cons.mp hc with rfl | hc2
      · exact Or.inl (by simp)
      · rcases ih false c hc2 with h1 | h1
        · exact Or.inl (List.mem_cons_of_mem _ h1)
        · exact Or.inr h1

theorem cwr_last : ∀ (cs : List Char) (b : Bool) (d0 : Char),
    cs.getLast? = some d0 → isWS d0 = false →
    (collapseWsRunsGo b cs).getLast? = some d0 := by
  intro cs
  induction cs with
  | nil => intro b d0 h; simp at h
  | cons c cs ih =>
    intro b d0 h hd0
    cases cs with
    | nil =>
      have hc : c = d0 := by simpa using h
      subst hc
      rw [cwr_cons_nonws hd0]
      rfl
    | cons d cs2 =>
      rw [List.getLast?_cons_cons] at h
      by_cases h0 : isWS c = true
      · cases b with
        | true =>
          rw [show collapseWsRunsGo true (c :: d :: cs2) =
            collapseWsRunsGo true (d :: cs2) from by
              simp [collapseWsRunsGo, h0]]
          exact ih true d0 h hd0
        | false =>
          by_cases hd : isWS d = true
          · rw [show collapseWsRunsGo false (c :: d :: cs2) =
              ' ' :: collapseWsRunsGo true (d :: cs2) from by
                simp [collapseWsRunsGo, h0, hd]]
            exact getLast?_cons_of_some ' ' (ih true d0 h hd0)
          · rw [show collapseWsRunsGo false (c :: d :: cs2) =
              c :: collapseWsRunsGo false (d :: cs2) from by
                simp [collapseWsRunsGo, h0, hd]]
            exact getLast?_cons_of_some c (ih false d0 h hd0)
      · rw [cwr_cons_nonws (by simpa using h0)]
        exact getLast?_cons_of_some c (ih false d0 h hd0)

theorem cwr_fix : ∀ (e : List Char), NoAdjWs e →
    collapseWsRunsGo false e = e := by
  intro e
  induction e with
  | nil => intro h; rfl
  | cons c cs ih =>
    intro h
    unfold NoAdjWs at h
    rw [List.chain'_cons'] at h
    by_cases hc : isWS c = true
    · cases cs with
      | nil => simp [collapseWsRunsGo, hc]
      | cons d cs2 =>
        have hd : isWS d = false := by
          cases hx : isWS d with
          | false => rfl
          | true => exact absurd ⟨hc, hx⟩ (h.1 d rfl)
        rw [show collapseWsRunsGo false (c :: d :: cs2) =
          c :: collapseWsRunsGo false (d :: cs2) from by
            simp [collapseWsRunsGo, hc, hd]]
        rw [ih h.2]
    · rw [cwr_cons_nonws (by simpa using hc)]
      rw [ih h.2]

end FixSrt

namespace FixSrt

theorem sp_not_zh : ZH_PUNCT.contains ' ' = false := by decide

theorem sp_not_en : EN_PUNCT.contains ' ' = false := by decide

theorem lat_to_zh_contains {y : Char} (h : isLatinDigit y = true) :
    ZH_PUNCT.contains y = false := by
  cases hc : ZH_PUNCT.contains y with
  | false => rfl
  | true => exact absurd h (by simp [zh_punct_not_lat hc])

theorem cjk_to_zh_contains {y : Char} (h : isCJK y = true) :
    ZH_PUNCT.contains y = false := by
  cases hc : ZH_PUNCT.contains y with
  | false => rfl
  | true => exact absurd h (by simp [zh_punct_not_cjk hc])

theorem csGo_class : ∀ (cs : List Char) (b : Bool) (c : Char),
    c ∈ collapseSpacesGo b cs → c = ' ' ∨ isSpTabNbsp c = false := by
  intro cs
  induction cs with
  | nil => intro b c hc; simp [collapseSpacesGo] at hc
  | cons c0 cs ih =>
    intro b c hc
    by_cases h0 : isSpTabNbsp c0 = true
    · cases b with
      | true =>
        rw [show collapseSpacesGo true (c0 :: cs) = collapseSpacesGo true cs
          from by simp [collapseSpacesGo, h0]] at hc
        exact ih true c hc
      | false =>
        rw [show collapseSpacesGo false (c0 :: cs) =
          ' ' :: collapseSpacesGo true cs from by
            simp [collapseSpacesGo, h0]] at hc
        rcases List.mem_cons.mp hc with rfl | hc2
        · exact Or.inl rfl
        · exact ih true c hc2
    · rw [show collapseSpacesGo b (c0 :: cs) =
        c0 :: collapseSpacesGo false cs from by
          cases b <;> simp [collapseSpacesGo, h0]] at hc
      rcases List.mem_cons.mp hc with rfl | hc2
      · exact Or.inr (by simpa using h0)
      · exact ih false c hc2

theorem cs_fix : ∀ (e : List Char), CleanChars e → NoAdjWs e →
    collapseSpacesGo false e = e := by
  intro e
  induction e with
  | nil => intro _ _; rfl
  | cons c cs ih =>
    intro hcl hadj
    unfold NoAdjWs at hadj
    rw [List.chain'_cons'] at hadj
    have hcl2 : CleanChars cs := fun x hx => hcl x (List.mem_cons_of_mem _ hx)
    by_cases hc : isSpTabNbsp c = true
    · have hcsp : c = ' ' := by
        obtain ⟨h1, h2⟩ := hcl c (by simp)
        exact sptab_clean_space hc h1 h2
      cases cs with
      | nil =>
        subst hcsp
        rfl
      | cons d cs2 =>
        have hdw : isWS d = false := by
          cases hx : isWS d with
          | false => rfl
          | true => exact absurd ⟨sptab_ws hc, hx⟩ (hadj.1 d rfl)
        have hdsp : isSpTabNbsp d = false := by
          cases hx : isSpTabNbsp d with
          | false => rfl
          | true => exact absurd (sptab_ws hx) (by simp [hdw])
        have ihd := ih hcl2 hadj.2
        rw [show collapseSpacesGo false (d :: cs2) =
          d :: collapseSpacesGo false cs2 from by
            simp [collapseSpacesGo, hdsp]] at ihd
        have hcs2 : collapseSpacesGo false cs2 = cs2 :=
          (List.cons.injEq .. ▸ (ihd : _) : _ ∧ _).2
        rw [show collapseSpacesGo false (c :: d :: cs2) =
          ' ' :: collapseSpacesGo true (d :: cs2) from by
            simp [collapseSpacesGo, hc]]
        rw [show collapseSpacesGo true (d :: cs2) =
          d :: collapseSpacesGo false cs2 from by
            simp [collapseSpacesGo, hdsp]]
        rw [hcs2, hcsp]
    · rw [show collapseSpacesGo false (c :: cs) =
        c :: collapseSpacesGo false cs from by simp [collapseSpacesGo, hc]]
      rw [ih hcl2 hadj.2]

theorem dropWhile_head_prop {p : Char → Bool} :
    ∀ (l : List Char), ∀ x ∈ (List.dropWhile p l).head?, p x = false := by
  intro l
  induction l with
  | nil => intro x hx; simp at hx
  | cons c cs ih =>
    intro x hx
    by_cases hc : p c = true
    · rw [List.dropWhile_cons, if_pos hc] at hx
      exact ih x hx
    · rw [List.dropWhile_cons, if_neg hc] at hx
      have : c = x := by simpa using hx
      rw [← this]
      simpa using hc

theorem rstrip_decomp (l : List Char) :
    rstrip l ++ (l.reverse.takeWhile isWS).reverse = l := by
  unfold rstrip
  rw [← List.reverse_append, List.takeWhile_append_dropWhile,
    List.reverse_reverse]

theorem rstrip_head_sub {l : List Char} {x : Char}
    (h : (rstrip l).head? = some x) : l.head? = some x := by
  conv_lhs => rw [← rstrip_decomp l]
  cases hr : rstrip l with
  | nil => rw [hr] at h; simp at h
  | cons c cs =>
    rw [hr] at h
    have : c = x := by simpa using h
    rw [List.cons_append, List.head?_cons, this]

theorem strip_trimmed (cs : List Char) : Trimmed (strip cs) := by
  constructor
  · intro x hx
    unfold strip at hx
    have h2 := rstrip_head_sub hx
    exact dropWhile_head_prop cs x h2
  · intro x hx
    unfold strip rstrip at hx
    rw [List.reverse_reverse] at hx
    exact dropWhile_head_prop (lstrip cs).reverse x hx

theorem strip_mem {cs : List Char} {c : Char} (h : c ∈ strip cs) : c ∈ cs := by
  unfold strip rstrip at h
  rw [List.mem_reverse] at h
  have h2 := (List.dropWhile_sublist isWS).subset h
  rw [List.mem_reverse] at h2
  exact (List.dropWhile_sublist isWS).subset h2

end FixSrt

namespace FixSrt

theorem clean_of_sptab_false {c : Char} (h : isSpTabNbsp c = false) :
    c ≠ '\t' ∧ c ≠ '\u00A0' := by
  constructor
  · intro hc; rw [hc] at h; exact absurd h (by decide)
  · intro hc; rw [hc] at h; exact absurd h (by decide)

theorem t1_clean (t : List Char) : CleanChars (strip (collapseSpaces t)) := by
  intro c hc
  have h2 := strip_mem hc
  unfold collapseSpaces at h2
  rcases csGo_class t false c h2 with h3 | h3
  · subst h3; exact ⟨by decide, by decide⟩
  · exact clean_of_sptab_false h3

theorem strip_self_of_trimmed {e : List Char} (h : Trimmed e) : strip e = e := by
  have h1 : lstrip e = e := by
    unfold lstrip
    cases e with
    | nil => rfl
    | cons c cs =>
      have hc := h.1 c rfl
      rw [List.dropWhile_cons, if_neg (by simp [hc])]
  have h2 : rstrip e = e := by
    unfold rstrip
    cases her : e.reverse with
    | nil =>
      have he0 : e = [] := List.reverse_eq_nil_iff.mp her
      rw [he0]
      rfl
    | cons c cs =>
      have hc := h.2 c (by rw [her]; rfl)
      rw [List.dropWhile_cons, if_neg (by simp [hc]), ← her,
        List.reverse_reverse]
  unfold strip
  rw [h1, h2]

theorem cons_of_head? {l : List Char} {c : Char} (h : l.head? = some c) :
    ∃ t, l = c :: t := by
  cases l with
  | nil => simp at h
  | cons a t =>
    have : a = c := by simpa using h
    exact ⟨t, by rw [this]⟩

theorem zh_trimmed (u : List Char) (hT : Trimmed u) : Trimmed (zhBranch u) := by
  unfold zhBranch collapseWsRuns delSpaceBefore
  cases u with
  | nil =>
    have hz : collapseWsRunsGo false (insertSpaceLatinCJK
        (insertSpaceCJKLatin (delSpaceBeforeGo ZH_PUNCT [] []))) = [] := rfl
    rw [hz]
    exact ⟨fun x hx => absurd hx (by simp), fun x hx => absurd hx (by simp)⟩
  | cons c cs =>
    have hc0 : isWS c = false := hT.1 c rfl
    cases hgl : (c :: cs).getLast? with
    | none => simp at hgl
    | some d =>
      have hd : isWS d = false := hT.2 d (by rw [List.head?_reverse, hgl]; rfl)
      constructor
      · intro x hx
        have hAh : delSpaceBeforeGo ZH_PUNCT [] (c :: cs) =
            c :: delSpaceBeforeGo ZH_PUNCT [] cs := dsb_cons_nonws hc0 cs
        have hKh : (insertSpaceCJKLatin
            (delSpaceBeforeGo ZH_PUNCT [] (c :: cs))).head? = some c := by
          rw [insCJK_head, hAh]
          rfl
        have hLh : (insertSpaceLatinCJK (insertSpaceCJKLatin
            (delSpaceBeforeGo ZH_PUNCT [] (c :: cs)))).head? = some c := by
          rw [insLat_head, hKh]
        obtain ⟨tl, htl⟩ := cons_of_head? hLh
        rw [htl, cwr_cons_nonws hc0] at hx
        have hxc : c = x := by simpa using hx
        rw [← hxc]
        exact hc0
      · intro x hx
        have hAl : (delSpaceBeforeGo ZH_PUNCT [] (c :: cs)).getLast? =
            some d := dsb_last (c :: cs) [] d hgl hd
        have hKl := insCJK_last _ d hAl
        have hLl := insLat_last _ d hKl
        have hel := cwr_last _ false d hLl hd
        rw [List.head?_reverse, hel] at hx
        have hxd : d = x := by simpa using hx
        rw [← hxd]
        exact hd

theorem zh_stage_facts (u : List Char) (hC : CleanChars u) :
    NoWsBefore ZH_PUNCT (zhBranch u) ∧ NoCJKLat (zhBranch u) ∧
      NoLatCJK (zhBranch u) ∧ NoAdjWs (zhBranch u) ∧
      CleanChars (zhBranch u) := by
  unfold zhBranch collapseWsRuns delSpaceBefore NoWsBefore NoCJKLat NoLatCJK
  set A := delSpaceBeforeGo ZH_PUNCT [] u with hAdef
  set K := insertSpaceCJKLatin A with hKdef
  set L := insertSpaceLatinCJK K with hLdef
  have hA1 : List.Chain'
      (fun x y => ¬(isWS x = true ∧ ZH_PUNCT.contains y = true)) A :=
    dsb_chain ZH_PUNCT (fun c hc => zh_punct_not_ws hc) u []
      (fun x hx => absurd hx (by simp))
  have hK1 : List.Chain'
      (fun x y => ¬(isWS x = true ∧ ZH_PUNCT.contains y = true)) K :=
    insCJK_pres (fun x hcon => absurd hcon.2 (by decide))
      (fun y hy hcon => absurd hcon.2 (by rw [lat_to_zh_contains hy]; simp)) A
      hA1
  have hK2 : NoCJKLat K := insCJK_out A
  have hL1 : List.Chain'
      (fun x y => ¬(isWS x = true ∧ ZH_PUNCT.contains y = true)) L :=
    insLat_pres (fun x hcon => absurd hcon.2 (by decide))
      (fun y hy hcon => absurd hcon.2 (by rw [cjk_to_zh_contains hy]; simp)) K
      hK1
  have hL2 : NoCJKLat L :=
    insLat_pres (fun x hcon => absurd hcon.2 (by decide))
      (fun y hy hcon => absurd hcon.1 (by decide)) K hK2
  have hL3 : NoLatCJK L := insLat_out K
  refine ⟨?_, ?_, ?_, ?_, ?_⟩
  · exact cwr_presP (fun c hc => zh_punct_not_ws hc) L false hL1
      (fun hcon => absurd hcon (by simp))
  · exact cwr_pres
      (fun x y hxy hcon => hxy.elim
        (fun hx => absurd hcon.1 (by simp [ws_not_cjk hx]))
        (fun hy => absurd hcon.2 (by simp [ws_not_lat hy]))) L false hL2
  · exact cwr_pres
      (fun x y hxy hcon => hxy.elim
        (fun hx => absurd hcon.1 (by simp [ws_not_lat hx]))
        (fun hy => absurd hcon.2 (by simp [ws_not_cjk hy]))) L false hL3
  · exact cwr_out L false
  · intro c hc
    rcases cwr_mem L false c hc with h1 | rfl
    · rcases insLat_mem K c h1 with h2 | rfl
      · rcases insCJK_mem A c h2 with h3 | rfl
        · rcases dsb_mem u [] c h3 with h4 | h4
          · exact absurd h4 (by simp)
          · exact hC c h4
        · exact ⟨by decide, by decide⟩
      · exact ⟨by decide, by decide⟩
    · exact ⟨by decide, by decide⟩

theorem zh_second (u : List Char) (hT : Trimmed u) (hC : CleanChars u) :
    strip (collapseSpaces (zhBranch u)) = zhBranch u ∧
      zhBranch (zhBranch u) = zhBranch u := by
  obtain ⟨h1, h2, h3, h4, h5⟩ := zh_stage_facts u hC
  have h6 : Trimmed (zhBranch u) := zh_trimmed u hT
  constructor
  · have hcs : collapseSpaces (zhBranch u) = zhBranch u := by
      unfold collapseSpaces
      exact cs_fix _ h5 h4
    rw [hcs]
    exact strip_self_of_trimmed h6
  · have hA : delSpaceBefore ZH_PUNCT (zhBranch u) = zhBranch u := by
      unfold delSpaceBefore
      exact dsb_fix _ h1 h4
    have hK : insertSpaceCJKLatin (zhBranch u) = zhBranch u := insCJK_fix _ h2
    have hL : insertSpaceLatinCJK (zhBranch u) = zhBranch u := insLat_fix _ h3
    have hW : collapseWsRuns (zhBranch u) = zhBranch u := by
      unfold collapseWsRuns
      exact cwr_fix _ h4
    calc zhBranch (zhBranch u)
        = collapseWsRuns (insertSpaceLatinCJK (insertSpaceCJKLatin
            (delSpaceBefore ZH_PUNCT (zhBranch u)))) := rfl
      _ = zhBranch u := by rw [hA, hK, hL, hW]

end FixSrt

namespace FixSrt

theorem sap_cons_nonpunct {c : Char} (hc : EN_PUNCT.contains c = false)
    (l : List Char) : spaceAfterPunct (c :: l) = c :: spaceAfterPunct l := by
  cases l with
  | nil => rfl
  | cons d l2 =>
    have hc2 : c ∉ EN_PUNCT := by simpa using hc
    simp [spaceAfterPunct, hc2]

theorem sap_punct_ws {c d : Char} (hc : EN_PUNCT.contains c = true)
    (hd : isWS d = true) (l : List Char) :
    spaceAfterPunct (c :: d :: l) = c :: spaceAfterPunct (d :: l) := by
  simp [spaceAfterPunct, hc, hd]

theorem sap_punct_nonws {c d : Char} (hc : EN_PUNCT.contains c = true)
    (hd : isWS d = false) (l : List Char) :
    spaceAfterPunct (c :: d :: l) = c :: ' ' :: d :: spaceAfterPunct l := by
  have hc2 : c ∈ EN_PUNCT := by simpa using hc
  simp [spaceAfterPunct, hc2, hd]

theorem sap_head : ∀ (l : List Char),
    (spaceAfterPunct l).head? = l.head? := by
  intro l
  match l with
  | [] => rfl
  | [c] => rfl
  | c :: d :: l2 =>
    by_cases hc : EN_PUNCT.contains c = true
    · by_cases hd : isWS d = true
      · rw [sap_punct_ws hc hd]
        rfl
      · rw [sap_punct_nonws hc (by simpa using hd)]
        rfl
    · rw [sap_cons_nonpunct (by simpa using hc)]
      rfl

theorem sap_last : ∀ (n : ℕ) (l : List Char), l.length ≤ n →
    ∀ (d0 : Char), l.getLast? = some d0 →
      (spaceAfterPunct l).getLast? = some d0 := by
  intro n
  induction n with
  | zero =>
    intro l hl d0 h
    rw [List.length_eq_zero.mp (Nat.le_zero.mp hl)] at h
    simp at h
  | succ n ih =>
    intro l hl d0 h
    match l with
    | [] => simp at h
    | [c] =>
      rw [show spaceAfterPunct [c] = [c] from rfl]
      exact h
    | c :: d :: l2 =>
      rw [List.getLast?_cons_cons] at h
      by_cases hc : EN_PUNCT.contains c = true
      · by_cases hd : isWS d = true
        · rw [sap_punct_ws hc hd]
          exact getLast?_cons_of_some c
            (ih (d :: l2) (by simpa using Nat.le_of_succ_le_succ hl) d0 h)
        · rw [sap_punct_nonws hc (by simpa using hd)]
          cases l2 with
          | nil =>
            have hdd : d = d0 := by simpa using h
            rw [hdd]
            rfl
          | cons e l3 =>
            rw [List.getLast?_cons_cons] at h
            refine getLast?_cons_of_some c (getLast?_cons_of_some ' '
              (getLast?_cons_of_some d ?_))
            exact ih (e :: l3)
              (by simp at hl ⊢; omega) d0 h
      · rw [sap_cons_nonpunct (by simpa using hc)]
        exact getLast?_cons_of_some c
          (ih (d :: l2) (by simpa using Nat.le_of_succ_le_succ hl) d0 h)

theorem sap_mem : ∀ (n : ℕ) (l : List Char), l.length ≤ n →
    ∀ (c : Char), c ∈ spaceAfterPunct l → c ∈ l ∨ c = ' ' := by
  intro n
  induction n with
  | zero =>
    intro l hl c hc
    rw [List.length_eq_zero.mp (Nat.le_zero.mp hl)] at hc
    simp [spaceAfterPunct] at hc
  | succ n ih =>
    intro l hl c hc
    match l with
    | [] => simp [spaceAfterPunct] at hc
    | [a] =>
      rw [show spaceAfterPunct [a] = [a] from rfl] at hc
      exact Or.inl hc
    | a :: d :: l2 =>
      by_cases ha : EN_PUNCT.contains a = true
      · by_cases hd : isWS d = true
        · rw [sap_punct_ws ha hd] at hc
          rcases List.mem_cons.mp hc with rfl | h2
          · exact Or.inl (by simp)
          · rcases ih (d :: l2) (by simpa using Nat.le_of_succ_le_succ hl)
              c h2 with h3 | h3
            · exact Or.inl (List.mem_cons_of_mem _ h3)
            · exact Or.inr h3
        · rw [sap_punct_nonws ha (by simpa using hd)] at hc
          rcases List.mem_cons.mp hc with rfl | h2
          · exact Or.inl (by simp)
          · rcases List.mem_cons.mp h2 with rfl | h3
            · exact Or.inr rfl
            · rcases List.mem_cons.mp h3 with rfl | h4
              · exact Or.inl (by simp)
              · rcases ih l2 (by simp at hl ⊢; omega) c h4 with h5 | h5
                · exact Or.inl (by simp [h5])
                · exact Or.inr h5
      · rw [sap_cons_nonpunct (by simpa using ha)] at hc
        rcases List.mem_cons.mp hc with rfl | h2
        · exact Or.inl (by simp)
        · rcases ih (d :: l2) (by simpa using Nat.le_of_succ_le_succ hl)
            c h2 with h3 | h3
          · exact Or.inl (List.mem_cons_of_mem _ h3)
          · exact Or.inr h3

theorem w23 {l : List Char} (h : goodWGo 3 l = true) : goodWGo 2 l = true := by
  cases l with
  | nil => rfl
  | cons c cs =>
    by_cases hc : isWS c = true
    · rw [show goodWGo 3 (c :: cs) = goodWGo 3 cs from by simp [goodWGo, hc]]
        at h
      rw [show goodWGo 2 (c :: cs) = goodWGo 3 cs from by simp [goodWGo, hc]]
      exact h
    · by_cases hp : EN_PUNCT.contains c = true
      · have hp2 : c ∈ EN_PUNCT := by simpa using hp
        rw [show goodWGo 3 (c :: cs) = false from by
          simp [goodWGo, hc, hp2]] at h
        exact absurd h (by simp)
      · have hp2 : c ∉ EN_PUNCT := by simpa using hp
        rw [show goodWGo 3 (c :: cs) = goodWGo 0 cs from by
          simp [goodWGo, hc, hp2]] at h
        rw [show goodWGo 2 (c :: cs) = goodWGo 0 cs from by simp [goodWGo, hc]]
        exact h

theorem v23 {l : List Char} (h : goodVGo 3 l = true) : goodVGo 2 l = true := by
  cases l with
  | nil => rfl
  | cons c cs =>
    by_cases hc : isWS c = true
    · rw [show goodVGo 3 (c :: cs) = false from by simp [goodVGo, hc]] at h
      exact absurd h (by simp)
    · by_cases hp : EN_PUNCT.contains c = true
      · have hp2 : c ∈ EN_PUNCT := by simpa using hp
        rw [show goodVGo 3 (c :: cs) = false from by
          simp [goodVGo, hc, hp2]] at h
        exact absurd h (by simp)
      · have hp2 : c ∉ EN_PUNCT := by simpa using hp
        rw [show goodVGo 3 (c :: cs) = goodVGo 0 cs from by
          simp [goodVGo, hc, hp2]] at h
        rw [show goodVGo 2 (c :: cs) = goodVGo 0 cs from by simp [goodVGo, hc]]
        exact h

theorem lower_bounds {c : Char} (h : c.isLower = true) :
    97 ≤ c.toNat ∧ c.toNat ≤ 122 := by
  unfold Char.isLower at h
  simp at h
  exact ⟨h.1, h.2⟩

theorem toUpper_toNat {c : Char} (h : c.isLower = true) :
    (c.toUpper).toNat = c.toNat - 32 := by
  have h2 := lower_bounds h
  unfold Char.toUpper
  show (if c.toNat ≥ 97 ∧ c.toNat ≤ 122 then Char.ofNat (c.toNat - 32)
    else c).toNat = c.toNat - 32
  split
  · unfold Char.ofNat
    split
    · rfl
    · rename_i hv
      exact absurd
        (by constructor <;> omega : Nat.isValidChar (c.toNat - 32)) hv
  · rename_i hv
    exact absurd ⟨h2.1, h2.2⟩ hv

theorem ws_toNat {c : Char} (h : isWS c = true) :
    c.toNat = 32 ∨ c.toNat = 9 ∨ c.toNat = 10 ∨ c.toNat = 13 ∨
      c.toNat = 11 ∨ c.toNat = 12 ∨ c.toNat = 160 := by
  rw [isWS_eq_true_iff] at h
  rcases h with rfl | rfl | rfl | rfl | rfl | rfl | rfl
  · exact Or.inl rfl
  · exact Or.inr (Or.inl rfl)
  · exact Or.inr (Or.inr (Or.inl rfl))
  · exact Or.inr (Or.inr (Or.inr (Or.inl rfl)))
  · exact Or.inr (Or.inr (Or.inr (Or.inr (Or.inl rfl))))
  · exact Or.inr (Or.inr (Or.inr (Or.inr (Or.inr (Or.inl rfl)))))
  · exact Or.inr (Or.inr (Or.inr (Or.inr (Or.inr (Or.inr rfl)))))

theorem en_punct_toNat {c : Char} (h : EN_PUNCT.contains c = true) :
    c.toNat = 46 ∨ c.toNat = 44 ∨ c.toNat = 33 ∨ c.toNat = 63 ∨
      c.toNat = 59 ∨ c.toNat = 58 := by
  rcases en_punct_cases h with rfl | rfl | rfl | rfl | rfl | rfl
  · exact Or.inl rfl
  · exact Or.inr (Or.inl rfl)
  · exact Or.inr (Or.inr (Or.inl rfl))
  · exact Or.inr (Or.inr (Or.inr (Or.inl rfl)))
  · exact Or.inr (Or.inr (Or.inr (Or.inr (Or.inl rfl))))
  · exact Or.inr (Or.inr (Or.inr (Or.inr (Or.inr rfl))))

theorem lower_not_ws {c : Char} (h : c.isLower = true) : isWS c = false := by
  have h2 := lower_bounds h
  cases hw : isWS c with
  | false => rfl
  | true => rcases ws_toNat hw with h3 | h3 | h3 | h3 | h3 | h3 | h3 <;> omega

theorem lower_not_punct {c : Char} (h : c.isLower = true) :
    EN_PUNCT.contains c = false := by
  have h2 := lower_bounds h
  cases hp : EN_PUNCT.contains c with
  | false => rfl
  | true => rcases en_punct_toNat hp with h3 | h3 | h3 | h3 | h3 | h3 <;> omega

theorem upper_not_ws {c : Char} (h : c.isLower = true) :
    isWS c.toUpper = false := by
  have h2 := lower_bounds h
  have h3 := toUpper_toNat h
  cases hw : isWS c.toUpper with
  | false => rfl
  | true => rcases ws_toNat hw with h4 | h4 | h4 | h4 | h4 | h4 | h4 <;> omega

theorem upper_not_punct {c : Char} (h : c.isLower = true) :
    EN_PUNCT.contains c.toUpper = false := by
  have h2 := lower_bounds h
  have h3 := toUpper_toNat h
  cases hp : EN_PUNCT.contains c.toUpper with
  | false => rfl
  | true => rcases en_punct_toNat hp with h4 | h4 | h4 | h4 | h4 | h4 <;> omega

theorem upper_not_lower {c : Char} (h : c.isLower = true) :
    (c.toUpper).isLower = false := by
  have h2 := lower_bounds h
  have h3 := toUpper_toNat h
  cases hl : (c.toUpper).isLower with
  | false => rfl
  | true =>
    have h4 := lower_bounds hl
    omega

theorem upper_clean {c : Char} (h : c.isLower = true) :
    c.toUpper ≠ '\t' ∧ c.toUpper ≠ '\u00A0' := by
  have h2 := lower_bounds h
  have h3 := toUpper_toNat h
  constructor
  · intro he
    have h4 := congrArg Char.toNat he
    rw [h3] at h4
    have h5 : ('\t' : Char).toNat = 9 := rfl
    omega
  · intro he
    have h4 := congrArg Char.toNat he
    rw [h3] at h4
    have h5 : ('\u00A0' : Char).toNat = 160 := rfl
    omega

theorem cap_idem (l : List Char) :
    capitalizeFirst (capitalizeFirst l) = capitalizeFirst l := by
  cases l with
  | nil => rfl
  | cons c cs =>
    by_cases hc : c.isLower = true
    · rw [show capitalizeFirst (c :: cs) = c.toUpper :: cs from by
        simp [capitalizeFirst, hc]]
      simp [capitalizeFirst, upper_not_lower hc]
    · rw [show capitalizeFirst (c :: cs) = c :: cs from by
        simp [capitalizeFirst, hc]]
      simp [capitalizeFirst, hc]

theorem cap_goodV {l : List Char} (h : goodVGo 0 l = true) :
    goodVGo 0 (capitalizeFirst l) = true := by
  cases l with
  | nil => rfl
  | cons c cs =>
    by_cases hc : c.isLower = true
    · rw [show capitalizeFirst (c :: cs) = c.toUpper :: cs from by
        simp [capitalizeFirst, hc]]
      rw [show goodVGo 0 (c :: cs) = goodVGo 0 cs from by
        simp [goodVGo, lower_not_ws hc,
          show c ∉ EN_PUNCT from by simpa using lower_not_punct hc]] at h
      rw [show goodVGo 0 (c.toUpper :: cs) = goodVGo 0 cs from by
        simp [goodVGo, upper_not_ws hc,
          show c.toUpper ∉ EN_PUNCT from by
            simpa using upper_not_punct hc]]
      exact h
    · rw [show capitalizeFirst (c :: cs) = c :: cs from by
        simp [capitalizeFirst, hc]]
      exact h

theorem cap_clean {l : List Char} (h : CleanChars l) :
    CleanChars (capitalizeFirst l) := by
  cases l with
  | nil => exact h
  | cons c cs =>
    by_cases hc : c.isLower = true
    · rw [show capitalizeFirst (c :: cs) = c.toUpper :: cs from by
        simp [capitalizeFirst, hc]]
      intro x hx
      rcases List.mem_cons.mp hx with rfl | h2
      · exact upper_clean hc
      · exact h x (List.mem_cons_of_mem _ h2)
    · rw [show capitalizeFirst (c :: cs) = c :: cs from by
        simp [capitalizeFirst, hc]]
      exact h

theorem cap_trimmed {l : List Char} (h : Trimmed l) :
    Trimmed (capitalizeFirst l) := by
  cases l with
  | nil => exact h
  | cons c cs =>
    by_cases hc : c.isLower = true
    · rw [show capitalizeFirst (c :: cs) = c.toUpper :: cs from by
        simp [capitalizeFirst, hc]]
      constructor
      · intro x hx
        have hxc : c.toUpper = x := by simpa using hx
        rw [← hxc]
        exact upper_not_ws hc
      · intro x hx
        cases cs with
        | nil =>
          have hxc : c.toUpper = x := by simpa using hx
          rw [← hxc]
          exact upper_not_ws hc
        | cons d cs2 =>
          rw [List.head?_reverse, List.getLast?_cons_cons] at hx
          exact h.2 x (by
            rw [List.head?_reverse, List.getLast?_cons_cons]
            exact hx)
    · rw [show capitalizeFirst (c :: cs) = c :: cs from by
        simp [capitalizeFirst, hc]]
      exact h

theorem goodV_noAdj : ∀ (l : List Char) (s : ℕ), goodVGo s l = true →
    NoAdjWs l := by
  intro l
  induction l with
  | nil => intro s _; simp [NoAdjWs]
  | cons c cs ih =>
    intro s h
    by_cases hs : 4 ≤ s
    · obtain ⟨k, rfl⟩ : ∃ k, s = k + 4 := ⟨s - 4, by omega⟩
      rw [show goodVGo (k + 4) (c :: cs) = false from by simp [goodVGo]] at h
      exact absurd h (by simp)
    · unfold NoAdjWs
      rw [List.chain'_cons']
      interval_cases s
      · by_cases hc : isWS c = true
        · rw [show goodVGo 0 (c :: cs) = goodVGo 3 cs from by
            simp [goodVGo, hc]] at h
          refine ⟨?_, ih 3 h⟩
          intro y hy hcon
          obtain ⟨t2, ht2⟩ := cons_of_head? hy
          rw [ht2, show goodVGo 3 (y :: t2) = false from by
            simp [goodVGo, hcon.2]] at h
          exact absurd h (by simp)
        · by_cases hp : EN_PUNCT.contains c = true
          · have hp2 : c ∈ EN_PUNCT := by simpa using hp
            rw [show goodVGo 0 (c :: cs) = goodVGo 1 cs from by
              simp [goodVGo, hc, hp2]] at h
            exact ⟨fun y hy hcon => absurd hcon.1 (by simp [hc]), ih 1 h⟩
          · have hp2 : c ∉ EN_PUNCT := by simpa using hp
            rw [show goodVGo 0 (c :: cs) = goodVGo 0 cs from by
              simp [goodVGo, hc, hp2]] at h
            exact ⟨fun y hy hcon => absurd hcon.1 (by simp [hc]), ih 0 h⟩
      · by_cases hc : isWS c = true
        · by_cases hsp : c = ' '
          · rw [show goodVGo 1 (c :: cs) = goodVGo 2 cs from by
              simp [goodVGo, hc, hsp, show isWS ' ' = true from by decide]]
              at h
            refine ⟨?_, ih 2 h⟩
            intro y hy hcon
            obtain ⟨t2, ht2⟩ := cons_of_head? hy
            rw [ht2, show goodVGo 2 (y :: t2) = false from by
              simp [goodVGo, hcon.2]] at h
            exact absurd h (by simp)
          · rw [show goodVGo 1 (c :: cs) = goodVGo 3 cs from by
              simp [goodVGo, hc, hsp]] at h
            refine ⟨?_, ih 3 h⟩
            intro y hy hcon
            obtain ⟨t2, ht2⟩ := cons_of_head? hy
            rw [ht2, show goodVGo 3 (y :: t2) = false from by
              simp [goodVGo, hcon.2]] at h
            exact absurd h (by simp)
        · rw [show goodVGo 1 (c :: cs) = false from by
            simp [goodVGo, hc]] at h
          exact absurd h (by simp)
      · by_cases hc : isWS c = true
        · rw [show goodVGo 2 (c :: cs) = false from by
            simp [goodVGo, hc]] at h
          exact absurd h (by simp)
        · rw [show goodVGo 2 (c :: cs) = goodVGo 0 cs from by
            simp [goodVGo, hc]] at h
          exact ⟨fun y hy hcon => absurd hcon.1 (by simp [hc]), ih 0 h⟩
      · by_cases hc : isWS c = true
        · rw [show goodVGo 3 (c :: cs) = false from by
            simp [goodVGo, hc]] at h
          exact absurd h (by simp)
        · by_cases hp : EN_PUNCT.contains c = true
          · have hp2 : c ∈ EN_PUNCT := by simpa using hp
            rw [show goodVGo 3 (c :: cs) = false from by
              simp [goodVGo, hc, hp2]] at h
            exact absurd h (by simp)
          · have hp2 : c ∉ EN_PUNCT := by simpa using hp
            rw [show goodVGo 3 (c :: cs) = goodVGo 0 cs from by
              simp [goodVGo, hc, hp2]] at h
            exact ⟨fun y hy hcon => absurd hcon.1 (by simp [hc]), ih 0 h⟩

end FixSrt

namespace FixSrt

theorem psi : ∀ (n : ℕ) (X : List Char), X.length ≤ n →
    List.Chain' (fun x y => ¬(isWS x = true ∧ EN_PUNCT.contains y = true))
      X →
    goodWGo 0 (spaceAfterPunct X) = true ∧
      ((∀ h ∈ X.head?, EN_PUNCT.contains h = false) →
        goodWGo 3 (spaceAfterPunct X) = true) := by
  intro n
  induction n with
  | zero =>
    intro X hl _
    have hX : X = [] := List.length_eq_zero.mp (Nat.le_zero.mp hl)
    subst hX
    exact ⟨rfl, fun _ => rfl⟩
  | succ n ih =>
    intro X hl hch
    cases X with
    | nil => exact ⟨rfl, fun _ => rfl⟩
    | cons c X1 =>
      rw [List.chain'_cons'] at hch
      by_cases hcp : EN_PUNCT.contains c = true
      · have hcw : isWS c = false := en_punct_not_ws hcp
        have hp2 : c ∈ EN_PUNCT := by simpa using hcp
        cases X1 with
        | nil =>
          constructor
          · rw [show spaceAfterPunct [c] = [c] from rfl]
            simp [goodWGo, hcw, hp2]
          · intro hhd
            exact absurd hcp (by rw [hhd c rfl]; simp)
        | cons d X2 =>
          have h2 := hch.2
          rw [List.chain'_cons'] at h2
          have hlen2 : X2.length ≤ n := by simp at hl ⊢; omega
          by_cases hdw : isWS d = true
          · have hdp : EN_PUNCT.contains d = false :=
              ws_not_punct (fun q hq => en_punct_not_ws hq) hdw
            have hhd2 : ∀ h ∈ X2.head?, EN_PUNCT.contains h = false := by
              intro y hy
              cases hpy : EN_PUNCT.contains y with
              | false => rfl
              | true => exact absurd ⟨hdw, hpy⟩ (h2.1 y hy)
            have hb : goodWGo 3 (spaceAfterPunct X2) :=
              (ih X2 hlen2 h2.2).2 hhd2
            rw [sap_punct_ws hcp hdw, sap_cons_nonpunct hdp]
            constructor
            · rw [show goodWGo 0 (c :: d :: spaceAfterPunct X2) =
                goodWGo 1 (d :: spaceAfterPunct X2) from by
                  simp [goodWGo, hcw, hp2]]
              by_cases hds : d = ' '
              · rw [show goodWGo 1 (d :: spaceAfterPunct X2) =
                  goodWGo 2 (spaceAfterPunct X2) from by
                    simp [goodWGo, hds, show isWS ' ' = true from by decide]]
                exact w23 hb
              · rw [show goodWGo 1 (d :: spaceAfterPunct X2) =
                  goodWGo 3 (spaceAfterPunct X2) from by
                    simp [goodWGo, hdw, hds]]
                exact hb
            · intro hhd
              exact absurd hcp (by rw [hhd c rfl]; simp)
          · have hdw0 : isWS d = false := by simpa using hdw
            have ha : goodWGo 0 (spaceAfterPunct X2) := (ih X2 hlen2 h2.2).1
            rw [sap_punct_nonws hcp hdw0]
            constructor
            · rw [show goodWGo 0 (c :: ' ' :: d :: spaceAfterPunct X2) =
                goodWGo 1 (' ' :: d :: spaceAfterPunct X2) from by
                  simp [goodWGo, hcw, hp2]]
              rw [show goodWGo 1 (' ' :: d :: spaceAfterPunct X2) =
                goodWGo 2 (d :: spaceAfterPunct X2) from by
                  simp [goodWGo, show isWS ' ' = true from by decide]]
              rw [show goodWGo 2 (d :: spaceAfterPunct X2) =
                goodWGo 0 (spaceAfterPunct X2) from by
                  simp [goodWGo, hdw0]]
              exact ha
            · intro hhd
              exact absurd hcp (by rw [hhd c rfl]; simp)
      · have hcp0 : EN_PUNCT.contains c = false := by simpa using hcp
        have hlen1 : X1.length ≤ n := by simpa using Nat.le_of_succ_le_succ hl
        rw [sap_cons_nonpunct hcp0]
        by_cases hcw : isWS c = true
        · have hhd1 : ∀ h ∈ X1.head?, EN_PUNCT.contains h = false := by
            intro y hy
            cases hpy : EN_PUNCT.contains y with
            | false => rfl
            | true => exact absurd ⟨hcw, hpy⟩ (hch.1 y hy)
          have hb : goodWGo 3 (spaceAfterPunct X1) :=
            (ih X1 hlen1 hch.2).2 hhd1
          constructor
          · rw [show goodWGo 0 (c :: spaceAfterPunct X1) =
              goodWGo 3 (spaceAfterPunct X1) from by simp [goodWGo, hcw]]
            exact hb
          · intro _
            rw [show goodWGo 3 (c :: spaceAfterPunct X1) =
              goodWGo 3 (spaceAfterPunct X1) from by simp [goodWGo, hcw]]
            exact hb
        · have hcw0 : isWS c = false := by simpa using hcw
          have hc2 : c ∉ EN_PUNCT := by simpa using hcp0
          have ha : goodWGo 0 (spaceAfterPunct X1) := (ih X1 hlen1 hch.2).1
          constructor
          · rw [show goodWGo 0 (c :: spaceAfterPunct X1) =
              goodWGo 0 (spaceAfterPunct X1) from by
                simp [goodWGo, hcw0, hc2]]
            exact ha
          · intro _
            rw [show goodWGo 3 (c :: spaceAfterPunct X1) =
              goodWGo 0 (spaceAfterPunct X1) from by
                simp [goodWGo, hcw0, hc2]]
            exact ha

end FixSrt

namespace FixSrt

theorem theta : ∀ (n : ℕ) (w : List Char), w.length ≤ n →
    (goodWGo 0 w = true → goodVGo 0 (collapseWsRunsGo false w) = true) ∧
      (goodWGo 1 w = true → goodVGo 1 (collapseWsRunsGo false w) = true) ∧
      (goodWGo 3 w = true → goodVGo 3 (collapseWsRunsGo true w) = true) := by
  intro n
  induction n with
  | zero =>
    intro w hl
    have hw : w = [] := List.length_eq_zero.mp (Nat.le_zero.mp hl)
    subst hw
    exact ⟨fun _ => rfl, fun _ => rfl, fun _ => rfl⟩
  | succ n ih =>
    intro w hl
    cases w with
    | nil => exact ⟨fun _ => rfl, fun _ => rfl, fun _ => rfl⟩
    | cons c w1 =>
      have hlen1 : w1.length ≤ n := by simpa using Nat.le_of_succ_le_succ hl
      refine ⟨?_, ?_, ?_⟩
      · intro h
        by_cases hc : isWS c = true
        · rw [show goodWGo 0 (c :: w1) = goodWGo 3 w1 from by
            simp [goodWGo, hc]] at h
          cases w1 with
          | nil =>
            rw [show collapseWsRunsGo false [c] = [c] from by
              simp [collapseWsRunsGo, hc]]
            simp [goodVGo, hc]
          | cons d w2 =>
            have hlen2 : w2.length ≤ n := by simp at hl ⊢; omega
            by_cases hd : isWS d = true
            · rw [show collapseWsRunsGo false (c :: d :: w2) =
                ' ' :: collapseWsRunsGo true (d :: w2) from by
                  simp [collapseWsRunsGo, hc, hd]]
              rw [show goodVGo 0 (' ' :: collapseWsRunsGo true (d :: w2)) =
                goodVGo 3 (collapseWsRunsGo true (d :: w2)) from by
                  simp [goodVGo, show isWS ' ' = true from by decide]]
              exact (ih (d :: w2) hlen1).2.2 h
            · rw [show collapseWsRunsGo false (c :: d :: w2) =
                c :: collapseWsRunsGo false (d :: w2) from by
                  simp [collapseWsRunsGo, hc, hd]]
              rw [show goodVGo 0 (c :: collapseWsRunsGo false (d :: w2)) =
                goodVGo 3 (collapseWsRunsGo false (d :: w2)) from by
                  simp [goodVGo, hc]]
              by_cases hdp : EN_PUNCT.contains d = true
              · have hd2 : d ∈ EN_PUNCT := by simpa using hdp
                rw [show goodWGo 3 (d :: w2) = false from by
                  simp [goodWGo, hd, hd2]] at h
                exact absurd h (by simp)
              · have hd2 : d ∉ EN_PUNCT := by simpa using hdp
                rw [show goodWGo 3 (d :: w2) = goodWGo 0 w2 from by
                  simp [goodWGo, hd, hd2]] at h
                rw [show collapseWsRunsGo false (d :: w2) =
                  d :: collapseWsRunsGo false w2 from by
                    simp [collapseWsRunsGo, hd]]
                rw [show goodVGo 3 (d :: collapseWsRunsGo false w2) =
                  goodVGo 0 (collapseWsRunsGo false w2) from by
                    simp [goodVGo, hd, hd2]]
                exact (ih w2 hlen2).1 h
        · have hc0 : isWS c = false := by simpa using hc
          rw [show collapseWsRunsGo false (c :: w1) =
            c :: collapseWsRunsGo false w1 from by
              simp [collapseWsRunsGo, hc0]]
          by_cases hp : EN_PUNCT.contains c = true
          · have hp2 : c ∈ EN_PUNCT := by simpa using hp
            rw [show goodWGo 0 (c :: w1) = goodWGo 1 w1 from by
              simp [goodWGo, hc0, hp2]] at h
            rw [show goodVGo 0 (c :: collapseWsRunsGo false w1) =
              goodVGo 1 (collapseWsRunsGo false w1) from by
                simp [goodVGo, hc0, hp2]]
            exact (ih w1 hlen1).2.1 h
          · have hp2 : c ∉ EN_PUNCT := by simpa using hp
            rw [show goodWGo 0 (c :: w1) = goodWGo 0 w1 from by
              simp [goodWGo, hc0, hp2]] at h
            rw [show goodVGo 0 (c :: collapseWsRunsGo false w1) =
              goodVGo 0 (collapseWsRunsGo false w1) from by
                simp [goodVGo, hc0, hp2]]
            exact (ih w1 hlen1).1 h
      · intro h
        by_cases hc : isWS c = true
        · by_cases hs : c = ' '
          · subst hs
            rw [show goodWGo 1 (' ' :: w1) = goodWGo 2 w1 from by
              simp [goodWGo, show isWS ' ' = true from by decide]] at h
            cases w1 with
            | nil =>
              rw [show collapseWsRunsGo false [' '] = [' '] from by
                simp [collapseWsRunsGo, show isWS ' ' = true from by decide]]
              simp [goodVGo, show isWS ' ' = true from by decide]
            | cons d w2 =>
              have hlen2 : w2.length ≤ n := by simp at hl ⊢; omega
              by_cases hd : isWS d = true
              · rw [show goodWGo 2 (d :: w2) = goodWGo 3 w2 from by
                  simp [goodWGo, hd]] at h
                rw [show collapseWsRunsGo false (' ' :: d :: w2) =
                  ' ' :: collapseWsRunsGo true (d :: w2) from by
                    simp [collapseWsRunsGo, hd,
                      show isWS ' ' = true from by decide]]
                rw [show goodVGo 1 (' ' :: collapseWsRunsGo true (d :: w2)) =
                  goodVGo 2 (collapseWsRunsGo true (d :: w2)) from by
                    simp [goodVGo, show isWS ' ' = true from by decide]]
                rw [show collapseWsRunsGo true (d :: w2) =
                  collapseWsRunsGo true w2 from by
                    simp [collapseWsRunsGo, hd]]
                exact v23 ((ih w2 hlen2).2.2 h)
              · rw [show goodWGo 2 (d :: w2) = goodWGo 0 w2 from by
                  simp [goodWGo, hd]] at h
                rw [show collapseWsRunsGo false (' ' :: d :: w2) =
                  ' ' :: collapseWsRunsGo false (d :: w2) from by
                    simp [collapseWsRunsGo, hd,
                      show isWS ' ' = true from by decide]]
                rw [show goodVGo 1 (' ' :: collapseWsRunsGo false (d :: w2)) =
                  goodVGo 2 (collapseWsRunsGo false (d :: w2)) from by
                    simp [goodVGo, show isWS ' ' = true from by decide]]
                rw [show collapseWsRunsGo false (d :: w2) =
                  d :: collapseWsRunsGo false w2 from by
                    simp [collapseWsRunsGo, hd]]
                rw [show goodVGo 2 (d :: collapseWsRunsGo false w2) =
                  goodVGo 0 (collapseWsRunsGo false w2) from by
                    simp [goodVGo, hd]]
                exact (ih w2 hlen2).1 h
          · rw [show goodWGo 1 (c :: w1) = goodWGo 3 w1 from by
              simp [goodWGo, hc, hs]] at h
            cases w1 with
            | nil =>
              rw [show collapseWsRunsGo false [c] = [c] from by
                simp [collapseWsRunsGo, hc]]
              simp [goodVGo, hc, hs]
            | cons d w2 =>
              have hlen2 : w2.length ≤ n := by simp at hl ⊢; omega
              by_cases hd : isWS d = true
              · rw [show collapseWsRunsGo false (c :: d :: w2) =
                  ' ' :: collapseWsRunsGo true (d :: w2) from by
                    simp [collapseWsRunsGo, hc, hd]]
                rw [show goodVGo 1 (' ' :: collapseWsRunsGo true (d :: w2)) =
                  goodVGo 2 (collapseWsRunsGo true (d :: w2)) from by
                    simp [goodVGo, show isWS ' ' = true from by decide]]
                exact v23 ((ih (d :: w2) hlen1).2.2 h)
              · rw [show collapseWsRunsGo false (c :: d :: w2) =
                  c :: collapseWsRunsGo false (d :: w2) from by
                    simp [collapseWsRunsGo, hc, hd]]
                rw [show goodVGo 1 (c :: collapseWsRunsGo false (d :: w2)) =
                  goodVGo 3 (collapseWsRunsGo false (d :: w2)) from by
                    simp [goodVGo, hc, hs]]
                by_cases hdp : EN_PUNCT.contains d = true
                · have hd2 : d ∈ EN_PUNCT := by simpa using hdp
                  rw [show goodWGo 3 (d :: w2) = false from by
                    simp [goodWGo, hd, hd2]] at h
                  exact absurd h (by simp)
                · have hd2 : d ∉ EN_PUNCT := by simpa using hdp
                  rw [show goodWGo 3 (d :: w2) = goodWGo 0 w2 from by
                    simp [goodWGo, hd, hd2]] at h
                  rw [show collapseWsRunsGo false (d :: w2) =
                    d :: collapseWsRunsGo false w2 from by
                      simp [collapseWsRunsGo, hd]]
                  rw [show goodVGo 3 (d :: collapseWsRunsGo false w2) =
                    goodVGo 0 (collapseWsRunsGo false w2) from by
                      simp [goodVGo, hd, hd2]]
                  exact (ih w2 hlen2).1 h
        · rw [show goodWGo 1 (c :: w1) = false from by simp [goodWGo, hc]] at h
          exact absurd h (by simp)
      · intro h
        by_cases hc : isWS c = true
        · rw [show goodWGo 3 (c :: w1) = goodWGo 3 w1 from by
            simp [goodWGo, hc]] at h
          rw [show collapseWsRunsGo true (c :: w1) =
            collapseWsRunsGo true w1 from by simp [collapseWsRunsGo, hc]]
          exact (ih w1 hlen1).2.2 h
        · have hc0 : isWS c = false := by simpa using hc
          by_cases hp : EN_PUNCT.contains c = true
          · have hp2 : c ∈ EN_PUNCT := by simpa using hp
            rw [show goodWGo 3 (c :: w1) = false from by
              simp [goodWGo, hc0, hp2]] at h
            exact absurd h (by simp)
          · have hp2 : c ∉ EN_PUNCT := by simpa using hp
            rw [show goodWGo 3 (c :: w1) = goodWGo 0 w1 from by
              simp [goodWGo, hc0, hp2]] at h
            rw [show collapseWsRunsGo true (c :: w1) =
              c :: collapseWsRunsGo false w1 from by
                simp [collapseWsRunsGo, hc0]]
            rw [show goodVGo 3 (c :: collapseWsRunsGo false w1) =
              goodVGo 0 (collapseWsRunsGo false w1) from by
                simp [goodVGo, hc0, hp2]]
            exact (ih w1 hlen1).1 h

end FixSrt

namespace FixSrt

theorem recon : ∀ (n : ℕ) (cs : List Char), cs.length ≤ n →
    (goodVGo 0 cs = true →
      spaceAfterPunct (delSpaceBeforeGo EN_PUNCT [] cs) = cs) ∧
      (goodVGo 1 cs = true → ∀ q, EN_PUNCT.contains q = true →
        spaceAfterPunct (delSpaceBeforeGo EN_PUNCT [] (q :: cs)) =
          q :: cs) := by
  intro n
  induction n with
  | zero =>
    intro cs hl
    have hcs : cs = [] := List.length_eq_zero.mp (Nat.le_zero.mp hl)
    subst hcs
    constructor
    · intro _
      rfl
    · intro _ q hq
      rw [dsb_cons_nonws (en_punct_not_ws hq)]
      rfl
  | succ n ih =>
    intro cs hl
    cases cs with
    | nil =>
      constructor
      · intro _
        rfl
      · intro _ q hq
        rw [dsb_cons_nonws (en_punct_not_ws hq)]
        rfl
    | cons c cs1 =>
      have hlen1 : cs1.length ≤ n := by simpa using Nat.le_of_succ_le_succ hl
      constructor
      · intro hg
        by_cases hcw : isWS c = true
        · rw [show goodVGo 0 (c :: cs1) = goodVGo 3 cs1 from by
            simp [goodVGo, hcw]] at hg
          cases cs1 with
          | nil =>
            rw [show delSpaceBeforeGo EN_PUNCT [] [c] = [c] from by
              simp [delSpaceBeforeGo, hcw]]
            rfl
          | cons d cs2 =>
            have hlen2 : cs2.length ≤ n := by simp at hl ⊢; omega
            by_cases hdw : isWS d = true
            · rw [show goodVGo 3 (d :: cs2) = false from by
                simp [goodVGo, hdw]] at hg
              exact absurd hg (by simp)
            · have hdw0 : isWS d = false := by simpa using hdw
              by_cases hdp : EN_PUNCT.contains d = true
              · have hd2 : d ∈ EN_PUNCT := by simpa using hdp
                rw [show goodVGo 3 (d :: cs2) = false from by
                  simp [goodVGo, hdw0, hd2]] at hg
                exact absurd hg (by simp)
              · have hdp0 : EN_PUNCT.contains d = false := by simpa using hdp
                have hd2 : d ∉ EN_PUNCT := by simpa using hdp
                rw [show goodVGo 3 (d :: cs2) = goodVGo 0 cs2 from by
                  simp [goodVGo, hdw0, hd2]] at hg
                rw [show delSpaceBeforeGo EN_PUNCT [] (c :: d :: cs2) =
                  c :: d :: delSpaceBeforeGo EN_PUNCT [] cs2 from by
                    simp [delSpaceBeforeGo, hcw, hdw0, hd2]]
                rw [sap_cons_nonpunct
                  (ws_not_punct (fun x hx => en_punct_not_ws hx) hcw)]
                rw [sap_cons_nonpunct hdp0]
                rw [(ih cs2 hlen2).1 hg]
        · have hcw0 : isWS c = false := by simpa using hcw
          by_cases hcp : EN_PUNCT.contains c = true
          · have hp2 : c ∈ EN_PUNCT := by simpa using hcp
            rw [show goodVGo 0 (c :: cs1) = goodVGo 1 cs1 from by
              simp [goodVGo, hcw0, hp2]] at hg
            exact (ih cs1 hlen1).2 hg c hcp
          · have hcp0 : EN_PUNCT.contains c = false := by simpa using hcp
            have hp2 : c ∉ EN_PUNCT := by simpa using hcp
            rw [show goodVGo 0 (c :: cs1) = goodVGo 0 cs1 from by
              simp [goodVGo, hcw0, hp2]] at hg
            rw [dsb_cons_nonws hcw0, sap_cons_nonpunct hcp0]
            rw [(ih cs1 hlen1).1 hg]
      · intro hg q hq
        by_cases hcw : isWS c = true
        · by_cases hcs : c = ' '
          · subst hcs
            rw [show goodVGo 1 (' ' :: cs1) = goodVGo 2 cs1 from by
              simp [goodVGo, show isWS ' ' = true from by decide]] at hg
            rw [dsb_cons_nonws (en_punct_not_ws hq)]
            cases cs1 with
            | nil =>
              rw [show delSpaceBeforeGo EN_PUNCT [] [' '] = [' '] from by
                simp [delSpaceBeforeGo, show isWS ' ' = true from by decide]]
              rw [sap_punct_ws hq (by decide)]
              rfl
            | cons d cs2 =>
              have hlen2 : cs2.length ≤ n := by simp at hl ⊢; omega
              by_cases hdw : isWS d = true
              · rw [show goodVGo 2 (d :: cs2) = false from by
                  simp [goodVGo, hdw]] at hg
                exact absurd hg (by simp)
              · have hdw0 : isWS d = false := by simpa using hdw
                rw [show goodVGo 2 (d :: cs2) = goodVGo 0 cs2 from by
                  simp [goodVGo, hdw0]] at hg
                by_cases hdp : EN_PUNCT.contains d = true
                · have hd2 : d ∈ EN_PUNCT := by simpa using hdp
                  rw [show delSpaceBeforeGo EN_PUNCT [] (' ' :: d :: cs2) =
                    d :: delSpaceBeforeGo EN_PUNCT [] cs2 from by
                      simp [delSpaceBeforeGo, hdw0, hd2,
                        show isWS ' ' = true from by decide]]
                  rw [sap_punct_nonws hq hdw0]
                  rw [(ih cs2 hlen2).1 hg]
                · have hdp0 : EN_PUNCT.contains d = false := by
                    simpa using hdp
                  have hd2 : d ∉ EN_PUNCT := by simpa using hdp
                  rw [show delSpaceBeforeGo EN_PUNCT [] (' ' :: d :: cs2) =
                    ' ' :: d :: delSpaceBeforeGo EN_PUNCT [] cs2 from by
                      simp [delSpaceBeforeGo, hdw0, hd2,
                        show isWS ' ' = true from by decide]]
                  rw [sap_punct_ws hq (by decide)]
                  rw [sap_cons_nonpunct (by decide)]
                  rw [sap_cons_nonpunct hdp0]
                  rw [(ih cs2 hlen2).1 hg]
          · rw [show goodVGo 1 (c :: cs1) = goodVGo 3 cs1 from by
              simp [goodVGo, hcw, hcs]] at hg
            rw [dsb_cons_nonws (en_punct_not_ws hq)]
            cases cs1 with
            | nil =>
              rw [show delSpaceBeforeGo EN_PUNCT [] [c] = [c] from by
                simp [delSpaceBeforeGo, hcw]]
              rw [sap_punct_ws hq hcw]
              rfl
            | cons d cs2 =>
              have hlen2 : cs2.length ≤ n := by simp at hl ⊢; omega
              by_cases hdw : isWS d = true
              · rw [show goodVGo 3 (d :: cs2) = false from by
                  simp [goodVGo, hdw]] at hg
                exact absurd hg (by simp)
              · have hdw0 : isWS d = false := by simpa using hdw
                by_cases hdp : EN_PUNCT.contains d = true
                · have hd2 : d ∈ EN_PUNCT := by simpa using hdp
                  rw [show goodVGo 3 (d :: cs2) = false from by
                    simp [goodVGo, hdw0, hd2]] at hg
                  exact absurd hg (by simp)
                · have hdp0 : EN_PUNCT.contains d = false := by
                    simpa using hdp
                  have hd2 : d ∉ EN_PUNCT := by simpa using hdp
                  rw [show goodVGo 3 (d :: cs2) = goodVGo 0 cs2 from by
                    simp [goodVGo, hdw0, hd2]] at hg
                  rw [show delSpaceBeforeGo EN_PUNCT [] (c :: d :: cs2) =
                    c :: d :: delSpaceBeforeGo EN_PUNCT [] cs2 from by
                      simp [delSpaceBeforeGo, hcw, hdw0, hd2]]
                  rw [sap_punct_ws hq hcw]
                  rw [sap_cons_nonpunct
                    (ws_not_punct (fun x hx => en_punct_not_ws hx) hcw)]
                  rw [sap_cons_nonpunct hdp0]
                  rw [(ih cs2 hlen2).1 hg]
        · rw [show goodVGo 1 (c :: cs1) = false from by
            simp [goodVGo, hcw]] at hg
          exact absurd hg (by simp)

end FixSrt

namespace FixSrt

theorem en_goodV (u : List Char) : goodVGo 0 (enBranch u) = true := by
  have hX : List.Chain'
      (fun x y => ¬(isWS x = true ∧ EN_PUNCT.contains y = true))
      (delSpaceBeforeGo EN_PUNCT [] u) :=
    dsb_chain EN_PUNCT (fun c hc => en_punct_not_ws hc) u []
      (fun x hx => absurd hx (by simp))
  have hW : goodWGo 0 (spaceAfterPunct (delSpaceBeforeGo EN_PUNCT [] u)) :=
    (psi _ _ le_rfl hX).1
  have hV : goodVGo 0 (collapseWsRunsGo false
      (spaceAfterPunct (delSpaceBeforeGo EN_PUNCT [] u))) :=
    (theta _ _ le_rfl).1 hW
  unfold enBranch collapseWsRuns delSpaceBefore
  exact cap_goodV hV

theorem en_trimmed (u : List Char) (hT : Trimmed u) :
    Trimmed (enBranch u) := by
  unfold enBranch collapseWsRuns delSpaceBefore
  apply cap_trimmed
  cases u with
  | nil =>
    have hz : collapseWsRunsGo false (spaceAfterPunct
        (delSpaceBeforeGo EN_PUNCT [] [])) = [] := rfl
    rw [hz]
    exact ⟨fun x hx => absurd hx (by simp), fun x hx => absurd hx (by simp)⟩
  | cons c cs =>
    have hc0 : isWS c = false := hT.1 c rfl
    cases hgl : (c :: cs).getLast? with
    | none => simp at hgl
    | some d =>
      have hd : isWS d = false := hT.2 d (by rw [List.head?_reverse, hgl]; rfl)
      constructor
      · intro x hx
        have hAh : delSpaceBeforeGo EN_PUNCT [] (c :: cs) =
            c :: delSpaceBeforeGo EN_PUNCT [] cs := dsb_cons_nonws hc0 cs
        have hWh : (spaceAfterPunct
            (delSpaceBeforeGo EN_PUNCT [] (c :: cs))).head? = some c := by
          rw [sap_head, hAh]
          rfl
        obtain ⟨tl, htl⟩ := cons_of_head? hWh
        rw [htl, cwr_cons_nonws hc0] at hx
        have hxc : c = x := by simpa using hx
        rw [← hxc]
        exact hc0
      · intro x hx
        have hAl : (delSpaceBeforeGo EN_PUNCT [] (c :: cs)).getLast? =
            some d := dsb_last (c :: cs) [] d hgl hd
        have hWl := sap_last _ _ le_rfl d hAl
        have hel := cwr_last _ false d hWl hd
        rw [List.head?_reverse, hel] at hx
        have hxd : d = x := by simpa using hx
        rw [← hxd]
        exact hd

theorem en_clean (u : List Char) (hC : CleanChars u) :
    CleanChars (enBranch u) := by
  unfold enBranch collapseWsRuns delSpaceBefore
  apply cap_clean
  intro x hx
  rcases cwr_mem _ false x hx with h1 | rfl
  · rcases sap_mem _ _ le_rfl x h1 with h2 | rfl
    · rcases dsb_mem u [] x h2 with h3 | h3
      · exact absurd h3 (by simp)
      · exact hC x h3
    · exact ⟨by decide, by decide⟩
  · exact ⟨by decide, by decide⟩

theorem en_second (u : List Char) (hT : Trimmed u) (hC : CleanChars u) :
    strip (collapseSpaces (enBranch u)) = enBranch u ∧
      enBranch (enBranch u) = enBranch u := by
  have hg := en_goodV u
  have hAdj : NoAdjWs (enBranch u) := goodV_noAdj _ 0 hg
  have hTr := en_trimmed u hT
  have hCl := en_clean u hC
  constructor
  · have h1 : collapseSpaces (enBranch u) = enBranch u := by
      unfold collapseSpaces
      exact cs_fix _ hCl hAdj
    rw [h1]
    exact strip_self_of_trimmed hTr
  · have h2 : spaceAfterPunct (delSpaceBefore EN_PUNCT (enBranch u)) =
        enBranch u := by
      unfold delSpaceBefore
      exact (recon _ _ le_rfl).1 hg
    have h3 : collapseWsRuns (enBranch u) = enBranch u := by
      unfold collapseWsRuns
      exact cwr_fix _ hAdj
    have h4 : capitalizeFirst (enBranch u) = enBranch u := by
      unfold enBranch
      exact cap_idem _
    calc enBranch (enBranch u)
        = capitalizeFirst (collapseWsRuns (spaceAfterPunct
            (delSpaceBefore EN_PUNCT (enBranch u)))) := rfl
      _ = enBranch u := by rw [h2, h3, h4]

theorem cft_spec (t lang : List Char) (u : Bool) :
    conservative_fix_text none t lang u =
      (if lang == ['e', 'n'] then enBranch (strip (collapseSpaces t))
        else zhBranch (strip (collapseSpaces t)),
       decide ((if lang == ['e', 'n']
          then enBranch (strip (collapseSpaces t))
          else zhBranch (strip (collapseSpaces t))) ≠ t)) := by
  unfold conservative_fix_text
  rw [show (if u && (lang == ['z', 'h']) then fix_chinese_typos none t
      else (t, false)) = (t, false) from by
    split
    · rfl
    · rfl]
  simp [Bool.or_false]

end FixSrt

namespace FixSrt

/-- Claim C7: for every text, language tag and `use_pycorrector` setting, the
built-in heuristic normalization of `conservative_fix_text` with no pluggable
corrector is idempotent: applying the function to its own output returns that
output unchanged, and the second application reports `changed = false`. -/
theorem conservative_fix_text_idempotent (t lang : List Char) (u : Bool) :
    conservative_fix_text none
        (conservative_fix_text none t lang u).1 lang u =
      ((conservative_fix_text none t lang u).1, false) := by
  by_cases hl : (lang == ['e', 'n']) = true
  · simp only [cft_spec, hl, if_true]
    obtain ⟨h1, h2⟩ := en_second (strip (collapseSpaces t))
      (strip_trimmed _) (t1_clean t)
    rw [h1, h2]
    simp
  · simp only [cft_spec, hl, if_false, Bool.false_eq_true]
    obtain ⟨h1, h2⟩ := zh_second (strip (collapseSpaces t))
      (strip_trimmed _) (t1_clean t)
    rw [h1, h2]
    simp

end FixSrt
